import Mathlib

/-!
# concurrent_unordered_map (src/unittests.cpp), sequential embedding

The map of `boost::spinlock` is embedded as explicit state passing.  One thread
runs the operations one after the other, so that every transacted critical
section (`BOOST_BEGIN_TRANSACT_LOCK` ... `BOOST_END_TRANSACT_LOCK`) runs its body
exactly once and atomically.

Modelling conventions
* `std::vector` is a `List` together with its capacity.
* `size_t` offsets are naturals; the sentinel `(size_t)-1` is `none`.
* The atomic counters `_size` and `count` are naturals (a bucket is assumed to
  hold fewer entries than the counter's word can count); `fetch_sub` is the
  truncated subtraction, and `erase_count_pos` shows that it is only reached
  with a positive counter in reachable states.
* Undefined behaviour (`k % 0`, dereferencing an iterator outside the bucket
  vector), the exception of `reserve` and a loop that does not finish within
  the given fuel are the three faults of `fault`.
* `assert` is not evaluated by the operations (as with `NDEBUG`); the read that the
  assertion of `erase` performs is the separate function `erase_assert_read`.

The future policies of `src/include/boost/spinlock/detail/future_policy.ipp` follow the
spinlock; their conventions are given there.
-/

namespace boost_spinlock

/-- The ways an operation can fail to produce a result. -/
inductive fault where
  | undefined_behaviour
  | runtime_error
  | out_of_fuel
deriving DecidableEq, Repr

/-- Slot of a bucket (`item_type`): the stored pair and the stored hash; hash 0 marks an empty slot. -/
structure item_type (K V : Type) where
  p : K × V
  hash : Nat
deriving DecidableEq, Repr

/-- Bucket (`bucket_type`): `count`, the slot vector `items` and that vector's capacity.
The spinlock is free at every operation boundary and is not represented. -/
structure bucket_type (K V : Type) where
  count : Nat
  items : List (item_type K V)
  capacity : Nat
deriving DecidableEq, Repr

/-- Default constructed bucket, also what `bucket_type(bucket_type &&)` builds: `count(0), items(0)`. -/
def bucket_type.fresh (K V : Type) : bucket_type K V :=
  { count := 0, items := [], capacity := 0 }

/-- Iterator: index of the bucket in `_buckets` (`_itb`) and the slot offset
(`_offset`, `none` standing for `(size_t)-1`). The back pointer `_parent` is the map
the iterator is used with. -/
structure iterator where
  _itb : Nat
  _offset : Option Nat
deriving DecidableEq, Repr

/-- State of a `concurrent_unordered_map`: `_size`, `_buckets` and the capacity of the
`_buckets` vector. The cached `_begin` is always `end()` and is not represented. -/
structure concurrent_unordered_map (K V : Type) where
  _size : Nat
  _buckets : List (bucket_type K V)
  buckets_capacity : Nat
deriving DecidableEq, Repr

/-- The immutable members and the platform choices of a map: `_hasher`, `_key_equal`,
the value a mapped value is left with after being moved from, and the capacity a
vector of buckets chooses when it reallocates (old capacity, requested size). -/
structure config (K V : Type) where
  _hasher : K → Nat
  _key_equal : K → K → Bool
  moved_from : V → V
  realloc_capacity : Nat → Nat → Nat

/-- Requirements the C++ standard puts on `Pred` and `Hash` of an unordered container:
`_key_equal` is an equivalence relation and equal keys hash equally. -/
structure config.lawful {K V : Type} (cfg : config K V) : Prop where
  refl : ∀ a, cfg._key_equal a a = true
  symm : ∀ a b, cfg._key_equal a b = true → cfg._key_equal b a = true
  trans : ∀ a b c, cfg._key_equal a b = true → cfg._key_equal b c = true → cfg._key_equal a c = true
  hash_eq : ∀ a b, cfg._key_equal a b = true → cfg._hasher a = cfg._hasher b

/-- Modelled from the spec: `spinlock<bool>` lives in `spinlock.hpp`, which is not among the
sources (only its unit test is). By the spec the lock is a single atomic boolean; this is
its value, `false` when unlocked, and a newly constructed lock is unlocked. -/
def spinlock.fresh : Bool := false

/-- Modelled from the spec: `try_lock()` of the absent `spinlock.hpp`, an atomic
compare-exchange from false to true; the returned flag and the value left in the lock. -/
def spinlock.try_lock (locked : Bool) : Bool × Bool :=
  if locked = false then (true, true) else (false, locked)

/-- Modelled from the spec: `unlock()` of the absent `spinlock.hpp`, an atomic store of
false. -/
def spinlock.unlock (_locked : Bool) : Bool := false

/-! ## The future policies (src/include/boost/spinlock/detail/future_policy.ipp)

A call on a future is a function from the future to the future it leaves and the call's
outcome; one thread runs the calls, so the lock guard of a call is not represented. -/

/-- The error categories the policy tells apart; `std::error_category` objects are compared
by identity, `other` stands for every further category. -/
inductive error_category where
  | future_category
  | monad_category
  | system_category
  | other (id : Nat)
deriving DecidableEq, Repr

/-- Modelled from the spec: the policy's `error_type` is the macro
`BOOST_SPINLOCK_FUTURE_POLICY_ERROR_TYPE`, defined by the including header, which is not among
the sources. The policy asks it for `category()`, builds it from an integer and a category and
hands it to `std::system_error`, as with `std::error_code`: an integer value and a category. -/
structure error_type where
  value : Int
  category : error_category
deriving DecidableEq, Repr

/-- The default constructed error code `error_type()`: value 0 in the system category, the
code that reports no error. -/
def error_type.default_constructed : error_type :=
  { value := 0, category := .system_category }

/-- The exception objects the policy throws or holds: a `std::future_error` or a
`std::system_error` built from an error code, or any other exception (`X`). -/
inductive exception_object (X : Type) where
  | future_error (ec : error_type)
  | system_error (ec : error_type)
  | other (x : X)
deriving DecidableEq, Repr

/-- Modelled from the spec: the policy's `exception_type` is the macro
`BOOST_SPINLOCK_FUTURE_POLICY_EXCEPTION_TYPE`, defined by the including header, which is not
among the sources. The policy uses it as `std::exception_ptr`; `none` is the null pointer
`exception_type()`. -/
abbrev exception_type (X : Type) : Type := Option (exception_object X)

/-- Modelled from the spec: `basic_future` and its `_storage` live in headers that are not
among the sources. By the spec the state of a future is the tagged variant
`pending | value | error | exception`; `empty` is the pending state, which is also the
state of a cleared future. -/
inductive basic_future (R X : Type) where
  | empty
  | value (v : R)
  | error (e : error_type)
  | exception (e : exception_type X)
deriving DecidableEq, Repr

/-- How a call on a future ends when it does not return: with a thrown exception, with the
`future_error(future_errc::no_state)` of `_throw_error(monad_errc::no_state)`, blocked in
`wait()`, or in undefined behaviour. -/
inductive raised (X : Type) where
  | threw (e : exception_object X)
  | no_state
  | not_ready
  | undefined_behaviour
deriving DecidableEq, Repr

namespace basic_future

variable {R X : Type}

/-- Modelled from the spec: `has_error()` of the absent `basic_monad`, the variant holds an
error. -/
def has_error : basic_future R X → Bool
  | .error _ => true
  | _ => false

/-- Modelled from the spec: `has_exception()` of the absent `basic_monad`, the variant holds
an exception. -/
def has_exception : basic_future R X → Bool
  | .exception _ => true
  | _ => false

/-- Modelled from the spec: `has_value()` of the absent `basic_monad`, the variant holds a
value. -/
def has_value : basic_future R X → Bool
  | .value _ => true
  | _ => false

/-- Modelled from the spec: `clear()` of the absent `basic_monad` and `basic_future`, the
variant is reset to its empty state. -/
def clear (_self : basic_future R X) : basic_future R X := .empty

/-- Modelled from the spec: `is_ready()` of the absent `basic_future`, the variant holds a
value, an error or an exception. -/
def is_ready : basic_future R X → Bool
  | .empty => false
  | _ => true

/-- Modelled from the spec: `wait()` of the absent `basic_future`. On a ready future it
returns at once and changes nothing (`true`); on any other future it waits for a promise to
be fulfilled by another thread, which a run of one thread never sees (`false`). -/
def wait (self : basic_future R X) : Bool := is_ready self

end basic_future

/-- Parameters standing for what the policy takes from headers that are not among the
sources: whether `_check_validity()` passes on a future (it throws through
`_throw_error(monad_errc::no_state)` otherwise) and the integer of
`monad_errc::exception_present`. -/
structure future_env (R X : Type) where
  _check_validity : basic_future R X → Bool
  exception_present : Int

/-- `std::rethrow_exception(e)`: throws the exception pointed to; a null pointer is undefined
behaviour. -/
def rethrow_exception {X : Type} : exception_type X → raised X
  | some e => .threw e
  | none => .undefined_behaviour

namespace future_policy

variable {R X : Type}

/-- `future_policy<void>::is_consuming`. -/
def is_consuming : Bool := true

/-- `future_policy<void>::is_shared`. -/
def is_shared : Bool := false

/-- `_pre_get_value<is_consuming>(self)`: the future after the call and the exception thrown,
`none` when the call returns. The clear of a consuming get comes before the `throw`.
`detail::rebind_cast<monad_type>(self)`, which is not among the sources, is taken to be a
reference to `self` itself seen as its monad, so that `_self_nc.clear()` clears the future. -/
def _pre_get_value (env : future_env R X) (is_consuming : Bool) (self : basic_future R X) :
    basic_future R X × Option (raised X) :=
  if env._check_validity self = false then (self, some .no_state)
  else if self.has_error || self.has_exception then
    match self with
    | .error e =>
      if e.category = .future_category then
        (if is_consuming then self.clear else self, some (.threw (.future_error e)))
      else
        (if is_consuming then self.clear else self, some (.threw (.system_error e)))
    | .exception e =>
      (if is_consuming then self.clear else self, some (rethrow_exception e))
    | _ => (self, none)
  else (self, none)

/-- `_get_error_impl<is_consuming>(self)`: the future after the call and the returned error
code. -/
def _get_error_impl (env : future_env R X) (is_consuming : Bool) (self : basic_future R X) :
    basic_future R X × Except (raised X) error_type :=
  if env._check_validity self = false then (self, .error .no_state)
  else
    match self with
    | .error e => (if is_consuming then self.clear else self, .ok e)
    | .exception _ =>
      (self, .ok { value := env.exception_present, category := .monad_category })
    | _ => (self, .ok error_type.default_constructed)

/-- `_get_exception_impl<is_consuming>(self)`: the future after the call and the returned
exception pointer. -/
def _get_exception_impl (env : future_env R X) (is_consuming : Bool) (self : basic_future R X) :
    basic_future R X × Except (raised X) (exception_type X) :=
  if env._check_validity self = false then (self, .error .no_state)
  else if !self.has_error && !self.has_exception then (self, .ok none)
  else
    match self with
    | .error e => (if is_consuming then self.clear else self, .ok (some (.system_error e)))
    | .exception e => (if is_consuming then self.clear else self, .ok e)
    | _ => (self, .ok none)

/-- `future_policy<R>::_get_value(self)`: the future after the call and the value returned by
value. With `R := Unit` this is `future_policy<void>::_get_value`, which has no value to
move. Reading `_storage.value` of a future that holds no value is undefined. -/
def _get_value (env : future_env R X) (self : basic_future R X) :
    basic_future R X × Except (raised X) R :=
  if self.wait = false then (self, .error .not_ready)
  else
    match _pre_get_value env is_consuming self with
    | (self1, some r) => (self1, .error r)
    | (self1, none) =>
      match self1 with
      | .value v => (self1.clear, .ok v)
      | _ => (self1.clear, .error .undefined_behaviour)

/-- `future_policy::_get_error(self)`. -/
def _get_error (env : future_env R X) (self : basic_future R X) :
    basic_future R X × Except (raised X) error_type :=
  if self.wait = false then (self, .error .not_ready)
  else _get_error_impl env is_consuming self

/-- `future_policy::_get_exception(self)`. -/
def _get_exception (env : future_env R X) (self : basic_future R X) :
    basic_future R X × Except (raised X) (exception_type X) :=
  if self.wait = false then (self, .error .not_ready)
  else _get_exception_impl env is_consuming self

end future_policy

namespace shared_future_policy

variable {R X : Type}

/-- `shared_future_policy<void>::is_consuming`. -/
def is_consuming : Bool := false

/-- `shared_future_policy<void>::is_shared`. -/
def is_shared : Bool := true

/-- `shared_future_policy<R>::_get_value(self)`: the future after the call and the value the
returned reference designates. With `R := Unit` this is `shared_future_policy<void>::_get_value`. -/
def _get_value (env : future_env R X) (self : basic_future R X) :
    basic_future R X × Except (raised X) R :=
  if self.wait = false then (self, .error .not_ready)
  else
    match future_policy._pre_get_value env is_consuming self with
    | (self1, some r) => (self1, .error r)
    | (self1, none) =>
      match self1 with
      | .value v => (self1, .ok v)
      | _ => (self1, .error .undefined_behaviour)

/-- `shared_future_policy::_get_error(self)`. -/
def _get_error (env : future_env R X) (self : basic_future R X) :
    basic_future R X × Except (raised X) error_type :=
  if self.wait = false then (self, .error .not_ready)
  else future_policy._get_error_impl env is_consuming self

/-- `shared_future_policy::_get_exception(self)`. -/
def _get_exception (env : future_env R X) (self : basic_future R X) :
    basic_future R X × Except (raised X) (exception_type X) :=
  if self.wait = false then (self, .error .not_ready)
  else future_policy._get_exception_impl env is_consuming self

end shared_future_policy

/-- An example environment on natural values and exceptions: the futures that pass
`_check_validity()` are the ready ones, and `monad_errc::exception_present` is 3. -/
def env_ready : future_env Nat Nat :=
  { _check_validity := fun self => self.is_ready, exception_present := 3 }

namespace concurrent_unordered_map

variable {K V : Type}

/-- `concurrent_unordered_map()`: 13 buckets. -/
def construct_default (K V : Type) : concurrent_unordered_map K V :=
  { _size := 0, _buckets := List.replicate 13 (bucket_type.fresh K V), buckets_capacity := 13 }

/-- `concurrent_unordered_map(size_t n)`: `n>0 ? n : 1` buckets. -/
def construct (K V : Type) (n : Nat) : concurrent_unordered_map K V :=
  { _size := 0
    _buckets := List.replicate (if n > 0 then n else 1) (bucket_type.fresh K V)
    buckets_capacity := if n > 0 then n else 1 }

/-- `empty()`. -/
def empty (m : concurrent_unordered_map K V) : Bool := m._size == 0

/-- `size()`. -/
def size (m : concurrent_unordered_map K V) : Nat := m._size

/-- `end()`: `iterator(this, nullptr)`, that is `_itb = _buckets.end()`, `_offset = (size_t)-1`. -/
def end_ (m : concurrent_unordered_map K V) : iterator :=
  { _itb := m._buckets.length, _offset := none }

/-- `_get_bucket(k)`: `k % _buckets.size()`; the modulus by zero is undefined. -/
def _get_bucket (m : concurrent_unordered_map K V) (k : Nat) : Except fault Nat :=
  if m._buckets.length = 0 then .error .undefined_behaviour else .ok (k % m._buckets.length)

/-- The scan of `find` from `offset` on; the list is `items[offset..]`.
The inner `for` skips the slots whose hash differs from `h`; at a slot with hash `h` the
key is compared, and on a mismatch the scan goes on from the next offset. -/
def find_loop (cfg : config K V) (k : K) (h : Nat) : List (item_type K V) → Nat → Option Nat
  | [], _ => none
  | it :: rest, offset =>
    if it.hash != h then find_loop cfg k h rest (offset + 1)
    else if cfg._key_equal k it.p.1 then some offset
    else find_loop cfg k h rest (offset + 1)

/-- `find(k)`. A read-only query: no member of the map is written. -/
def find (cfg : config K V) (m : concurrent_unordered_map K V) (k : K) : Except fault iterator :=
  if m._size = 0 then .ok (end_ m)
  else
    let h := cfg._hasher k
    match _get_bucket m h with
    | .error e => .error e
    | .ok itb =>
      match m._buckets[itb]? with
      | none => .error .undefined_behaviour
      | some b =>
        if b.count ≠ 0 then
          match find_loop cfg k h b.items 0 with
          | some offset => .ok { _itb := itb, _offset := some offset }
          | none => .ok (end_ m)
        else .ok (end_ m)

/-- Outcome of the search phase of `insert`: `hit` is the offset at which an equal key was
found (`done` set, `ret.second=false`), `emptyidx` the recorded empty slot. -/
structure scan_result where
  hit : Option Nat
  emptyidx : Option Nat
deriving DecidableEq, Repr

/-- The `startlow` scan of `insert` from `offset` on; the list is `items[offset..]`. -/
def scan_low (cfg : config K V) (k : K) (h : Nat) :
    List (item_type K V) → Nat → Option Nat → scan_result
  | [], _, emptyidx => { hit := none, emptyidx := emptyidx }
  | it :: rest, offset, emptyidx =>
    if it.hash != h then
      scan_low cfg k h rest (offset + 1)
        (if emptyidx.isNone && it.hash == 0 then some offset else emptyidx)
    else if cfg._key_equal k it.p.1 then { hit := some offset, emptyidx := emptyidx }
    else scan_low cfg k h rest (offset + 1) emptyidx

/-- The inner `for` of the downward scan of `insert`, entered with `offset = n - 1`
(`n = 0` is `offset == (size_t)-1`). It stops at the first slot, going down, whose hash is
`h` and reports that offset and whether the key there is equal; otherwise it runs off the
low end. -/
def scan_high_inner (cfg : config K V) (k : K) (h : Nat) (items : List (item_type K V)) :
    Nat → Option Nat → Option (Nat × Bool) × Option Nat
  | 0, emptyidx => (none, emptyidx)
  | n + 1, emptyidx =>
    match items[n]? with
    | none => (none, emptyidx)
    | some it =>
      if it.hash != h then
        scan_high_inner cfg k h items n
          (if emptyidx.isNone && it.hash == 0 then some n else emptyidx)
      else (some (n, cfg._key_equal k it.p.1), emptyidx)

/-- The downward scan of `insert`: the outer `for(;;)`, one unit of fuel per iteration.
Every iteration runs the inner `for` anew from `offset = items.size()-1` (its init
statement); after a key mismatch the `offset--` is followed by the next iteration. -/
def scan_high (cfg : config K V) (k : K) (h : Nat) (items : List (item_type K V)) :
    Nat → Option Nat → Option scan_result
  | 0, _ => none
  | fuel + 1, emptyidx =>
    match scan_high_inner cfg k h items items.length emptyidx with
    | (none, e) => some { hit := none, emptyidx := e }
    | (some (offset, true), e) => some { hit := some offset, emptyidx := e }
    | (some (_, false), e) => scan_high cfg k h items fuel e

/-- The lambda `dotransact` of `insert`: it loads `b.count` into `count` and answers
`count < b.items.capacity()`. -/
def dotransact (b : bucket_type K V) : Nat × Bool :=
  (b.count, decide (b.count < b.capacity))

/-- Modelled from the spec: the macro `BOOST_BEGIN_TRANSACT_LOCK_IF(pred, lock)` is not in the
sources. By the spec's contract of a transacted critical section the predicate is evaluated
once on entry (selecting transactional or pessimistic entry) and the body then runs; in a
sequential run both entries execute the body once. This is the value of `count` the body
of `insert` sees. -/
def transact_entry_count (b : bucket_type K V) : Nat := (dotransact b).1

/-- `push_back` on the slot vector with its capacity; `insert` calls it with
`size < capacity` (after its `reserve`), the other branch is the least growth. -/
def push_back (b : bucket_type K V) (x : item_type K V) : bucket_type K V :=
  { b with
    items := b.items ++ [x]
    capacity := if b.items.length < b.capacity then b.capacity else b.items.length + 1 }

/-- The search phase of `insert` inside the critical section. -/
def insert_scan (cfg : config K V) (fuel : Nat) (b : bucket_type K V) (k : K) (h : Nat)
    (startlow : Bool) : Option scan_result :=
  if transact_entry_count b ≠ 0 then
    if startlow then some (scan_low cfg k h b.items 0 none)
    else scan_high cfg k h b.items fuel none
  else if !b.items.isEmpty then
    some { hit := none, emptyidx := some (if startlow then 0 else b.items.length - 1) }
  else some { hit := none, emptyidx := none }

/-- The `if(!done)` phase of `insert`: the bucket after it and `ret.first._offset`
(`none` when `ret.first` is still `end()`). -/
def insert_place (b : bucket_type K V) (v : K × V) (h : Nat) (emptyidx : Option Nat) :
    Except fault (bucket_type K V × Option Nat) :=
  match emptyidx with
  | some e =>
    match b.items[e]? with
    | none => .error .undefined_behaviour
    | some slot =>
      if slot.hash == 0 then .ok ({ b with items := b.items.set e { p := v, hash := h } }, some e)
      else .ok (b, none)
  | none =>
    let b1 : bucket_type K V :=
      if b.items.length = b.capacity then
        { b with capacity := if b.capacity * 2 ≠ 0 then b.capacity * 2 else 1 }
      else b
    .ok (push_back b1 { p := v, hash := h }, some b.items.length)

/-- `insert(v)`: the new state, the returned iterator and the returned flag. -/
def insert (cfg : config K V) (fuel : Nat) (m : concurrent_unordered_map K V) (v : K × V) :
    Except fault (concurrent_unordered_map K V × iterator × Bool) :=
  let h := cfg._hasher v.1
  match _get_bucket m h with
  | .error e => .error e
  | .ok itb =>
    match m._buckets[itb]? with
    | none => .error .undefined_behaviour
    | some b =>
      let startlow := ((h / m._buckets.length) &&& 1) == 0
      match insert_scan cfg fuel b v.1 h startlow with
      | none => .error .out_of_fuel
      | some { hit := some offset, emptyidx := _ } =>
        .ok (m, { _itb := itb, _offset := some offset }, false)
      | some { hit := none, emptyidx := emptyidx } =>
        match insert_place b v h emptyidx with
        | .error e => .error e
        | .ok (b1, offset) =>
          let b2 : bucket_type K V := { b1 with count := b1.count + 1 }
          let m2 : concurrent_unordered_map K V :=
            { m with _size := m._size + 1, _buckets := m._buckets.set itb b2 }
          match offset with
          | some o => .ok (m2, { _itb := itb, _offset := some o }, true)
          | none => .ok (m2, end_ m, true)

/-- The critical section of `erase` on the slot vector: the entry is moved into `former`
(the key, being `const`, is copied and stays; the mapped value is moved from; the hash is
zeroed), and when the slot was the last one the trailing empty slots are popped. -/
def erase_section (cfg : config K V) (items : List (item_type K V)) (offset : Nat)
    (slot : item_type K V) : List (item_type K V) :=
  let items1 := items.set offset { p := (slot.p.1, cfg.moved_from slot.p.2), hash := 0 }
  if offset = items.length - 1 then items1.rdropWhile (fun s => s.hash == 0) else items1

/-- `erase(it)`: the new state and the returned flag. -/
def erase (cfg : config K V) (m : concurrent_unordered_map K V) (it : iterator) :
    Except fault (concurrent_unordered_map K V × Bool) :=
  if it = end_ m then .ok (m, false)
  else
    match m._buckets[it._itb]? with
    | none => .error .undefined_behaviour
    | some b =>
      match it._offset with
      | none => .ok (m, false)
      | some offset =>
        match b.items[offset]? with
        | none => .ok (m, false)
        | some slot =>
          if slot.hash ≠ 0 then
            let b1 : bucket_type K V :=
              { b with items := erase_section cfg b.items offset slot, count := b.count - 1 }
            .ok ({ m with _size := m._size - 1, _buckets := m._buckets.set it._itb b1 }, true)
          else .ok (m, false)

/-- `clear()`. -/
def clear (m : concurrent_unordered_map K V) : concurrent_unordered_map K V :=
  { m with
    _size := 0
    _buckets := m._buckets.map (fun b => { b with items := [], count := 0 }) }

/-- `std::vector<bucket_type>::resize(n)`: shrinking keeps the first `n` buckets, growing
within the capacity appends default constructed buckets, and growing beyond it reallocates,
which rebuilds every old bucket through `bucket_type(bucket_type &&)`, an empty bucket. -/
def resize (cfg : config K V) (m : concurrent_unordered_map K V) (n : Nat) :
    concurrent_unordered_map K V :=
  if n ≤ m._buckets.length then { m with _buckets := m._buckets.take n }
  else if n ≤ m.buckets_capacity then
    { m with _buckets := m._buckets ++ List.replicate (n - m._buckets.length) (bucket_type.fresh K V) }
  else
    { m with
      _buckets := List.replicate n (bucket_type.fresh K V)
      buckets_capacity := cfg.realloc_capacity m.buckets_capacity n }

/-- `reserve(n)`: throws on a non-empty map, otherwise resizes the bucket vector. -/
def reserve (cfg : config K V) (m : concurrent_unordered_map K V) (n : Nat) :
    Except fault (concurrent_unordered_map K V) :=
  if m._size ≠ 0 then .error .runtime_error else .ok (resize cfg m n)

/-- States reachable from a newly constructed map by `insert`, `erase`, `clear` and
`reserve` calls that return. -/
inductive reachable (cfg : config K V) : concurrent_unordered_map K V → Prop
  | construct_default : reachable cfg (construct_default K V)
  | construct (n : Nat) : reachable cfg (construct K V n)
  | insert {m m1 : concurrent_unordered_map K V} (fuel : Nat) (v : K × V) (r : iterator × Bool) :
      reachable cfg m → insert cfg fuel m v = .ok (m1, r) → reachable cfg m1
  | erase {m m1 : concurrent_unordered_map K V} (it : iterator) (r : Bool) :
      reachable cfg m → erase cfg m it = .ok (m1, r) → reachable cfg m1
  | clear {m : concurrent_unordered_map K V} : reachable cfg m → reachable cfg (clear m)
  | reserve {m m1 : concurrent_unordered_map K V} (n : Nat) :
      reachable cfg m → reserve cfg m n = .ok m1 → reachable cfg m1

/-- The slot an iterator designates, when it designates one. -/
def slot_at (m : concurrent_unordered_map K V) (it : iterator) : Option (item_type K V) :=
  match m._buckets[it._itb]?, it._offset with
  | some b, some offset => b.items[offset]?
  | _, _ => none

/-- The test `find` applies to a slot: the stored hash is `h` and the key compares equal. -/
def slot_matches (cfg : config K V) (k : K) (h : Nat) (s : item_type K V) : Bool :=
  s.hash == h && cfg._key_equal k s.p.1

/-- Number of occupied slots of a slot vector (nonzero stored hash). -/
def occupied (items : List (item_type K V)) : Nat := items.countP (fun s => s.hash != 0)

/-- No two occupied slots of a slot vector hold equal keys. -/
def keys_unique (cfg : config K V) (items : List (item_type K V)) : Prop :=
  ∀ (i j : Nat) (si sj : item_type K V), items[i]? = some si → items[j]? = some sj →
    si.hash ≠ 0 → sj.hash ≠ 0 →
    cfg._key_equal si.p.1 sj.p.1 = true → i = j

/-- Representation invariant of the bucket with index `i` in a map of `n` buckets. -/
structure bucket_inv (cfg : config K V) (n i : Nat) (b : bucket_type K V) : Prop where
  occupied_le : occupied b.items ≤ b.count
  last_empty : ∀ s : item_type K V, b.items.getLast? = some s → s.hash = 0 → occupied b.items < b.count
  placed : ∀ s ∈ b.items, s.hash ≠ 0 → s.hash = cfg._hasher s.p.1 ∧ s.hash % n = i
  high_unique : ∀ (x y : Nat) (sx sy : item_type K V), b.items[x]? = some sx → b.items[y]? = some sy →
    sx.hash = sy.hash → ((sx.hash / n) &&& 1) ≠ 0 → x = y
  fits : b.items.length ≤ b.capacity

/-- Representation invariant of the map. -/
structure map_inv (cfg : config K V) (m : concurrent_unordered_map K V) : Prop where
  size_eq : m._size = (m._buckets.map (fun b => b.count)).sum
  buckets : ∀ (i : Nat) (b : bucket_type K V), m._buckets[i]? = some b →
    bucket_inv cfg m._buckets.length i b

/-- Key uniqueness inside every bucket. -/
def map_unique (cfg : config K V) (m : concurrent_unordered_map K V) : Prop :=
  ∀ (i : Nat) (b : bucket_type K V), m._buckets[i]? = some b → keys_unique cfg b.items

/-- A configuration on natural keys and values with hasher `hf`, `std::equal_to` as key
equality, trivially copyable mapped values and doubling reallocation. -/
def cfg_of (hf : Nat → Nat) : config Nat Nat :=
  { _hasher := hf
    _key_equal := fun a b => a == b
    moved_from := fun v => v
    realloc_capacity := fun c n => max (2 * c) n }

/-- One bucket holding the keys 1, 2, 3 (identity hasher), scenario 1 of the specification. -/
def state_123 : concurrent_unordered_map Nat Nat :=
  { _size := 3
    _buckets := [{ count := 3
                   items := [{ p := (1, 100), hash := 1 }, { p := (2, 200), hash := 2 },
                             { p := (3, 300), hash := 3 }]
                   capacity := 4 }]
    buckets_capacity := 1 }

/-- `state_123` after erasing key 2. -/
def state_13 : concurrent_unordered_map Nat Nat :=
  { _size := 2
    _buckets := [{ count := 2
                   items := [{ p := (1, 100), hash := 1 }, { p := (2, 200), hash := 0 },
                             { p := (3, 300), hash := 3 }]
                   capacity := 4 }]
    buckets_capacity := 1 }

/-- One bucket, hasher `k / 2`: keys 0 and 1 (hash 0) were inserted, then key 2 (hash 1),
whose downward scan took the slot of key 1 for an empty one. -/
def state_zero_hash : concurrent_unordered_map Nat Nat :=
  { _size := 3
    _buckets := [{ count := 3
                   items := [{ p := (0, 1), hash := 0 }, { p := (2, 21), hash := 1 }]
                   capacity := 2 }]
    buckets_capacity := 1 }

/-- `state_zero_hash` after erasing the slot of key 2: both slots were popped. -/
def state_zero_hash_erased : concurrent_unordered_map Nat Nat :=
  { _size := 2
    _buckets := [{ count := 2, items := [], capacity := 2 }]
    buckets_capacity := 1 }

/-- One bucket holding key 0 under the identity hasher, stored with hash 0. -/
def state_key0 : concurrent_unordered_map Nat Nat :=
  { _size := 1
    _buckets := [{ count := 1, items := [{ p := (0, 5), hash := 0 }], capacity := 1 }]
    buckets_capacity := 1 }

/-- Two buckets, hasher `k / 2`: key 1 (hash 0) was inserted into the new map. -/
def state_hash0_two : concurrent_unordered_map Nat Nat :=
  { _size := 1
    _buckets := [{ count := 1, items := [{ p := (1, 11), hash := 0 }], capacity := 1 },
                 { count := 0, items := [], capacity := 0 }]
    buckets_capacity := 2 }

/-- An operation of a sequential run: `insert((k,v))` or `erase(find(k))`. -/
inductive op (K V : Type) where
  | insert (k : K) (v : V)
  | erase_find (k : K)

/-- Run a sequence of operations on a map, one after the other. -/
def run (cfg : config K V) (fuel : Nat) :
    concurrent_unordered_map K V → List (op K V) → Except fault (concurrent_unordered_map K V)
  | m, [] => .ok m
  | m, op.insert k v :: rest =>
    match insert cfg fuel m (k, v) with
    | .error e => .error e
    | .ok (m1, _) => run cfg fuel m1 rest
  | m, op.erase_find k :: rest =>
    match find cfg m k with
    | .error e => .error e
    | .ok it =>
      match erase cfg m it with
      | .error e => .error e
      | .ok (m1, _) => run cfg fuel m1 rest

/-- Specification side: some later operation erases (a key equal to) `k`. -/
def erased_later (cfg : config K V) (k : K) (ops : List (op K V)) : Bool :=
  ops.any (fun o => match o with
    | op.erase_find k1 => cfg._key_equal k1 k
    | op.insert _ _ => false)

/-- Specification side: `k` was inserted by the sequence and not subsequently erased. -/
def inserted_not_erased (cfg : config K V) (k : K) : List (op K V) → Bool
  | [] => false
  | op.insert k1 _ :: rest =>
    (cfg._key_equal k k1 && !erased_later cfg k rest) || inserted_not_erased cfg k rest
  | op.erase_find _ :: rest => inserted_not_erased cfg k rest

/-- Specification side: the keys inserted and not subsequently erased, each listed once,
starting from the key list `l`: an insert adds its key unless an equal key is listed, an
erase removes the listed keys equal to its key. -/
def live_keys (cfg : config K V) : List K → List (op K V) → List K
  | l, [] => l
  | l, op.insert k _ :: rest =>
    live_keys cfg (if l.any (fun x => cfg._key_equal k x) then l else k :: l) rest
  | l, op.erase_find k :: rest =>
    live_keys cfg (l.filter (fun x => !cfg._key_equal k x)) rest

/-- The key list `l` describes the contents of `m`: `size()` is its length, its keys are
pairwise different, and `find(k)` is `end()` exactly for the keys not equal to a listed one. -/
structure models (cfg : config K V) (m : concurrent_unordered_map K V) (l : List K) : Prop where
  reach : reachable cfg m
  size_eq : m._size = l.length
  distinct : l.Pairwise (fun a b => cfg._key_equal a b = false)
  absent_iff : ∀ k, find cfg m k = .ok (end_ m) ↔ l.any (fun x => cfg._key_equal k x) = false

/-- The hasher sends only equal keys to the same hash. -/
def collision_free (cfg : config K V) : Prop :=
  ∀ a b, cfg._hasher a = cfg._hasher b → cfg._key_equal a b = true

/-- `reserve(n)` with the state the map is left in: the `throw` comes before every write,
so a failing call leaves the state it found. -/
def reserve_state (cfg : config K V) (m : concurrent_unordered_map K V) (n : Nat) :
    concurrent_unordered_map K V × Option fault :=
  if m._size ≠ 0 then (m, some .runtime_error) else (resize cfg m n, none)

/-- The capacity `insert` reserves when the slot vector is full:
`newcapacity=capacity*2; reserve(newcapacity ? newcapacity : 1)`. -/
def grown_capacity (capacity : Nat) : Nat :=
  if capacity * 2 ≠ 0 then capacity * 2 else 1

/-- With a hasher that never returns 0 the count of every bucket is the number of its
occupied slots. -/
def map_tight (m : concurrent_unordered_map K V) : Prop :=
  ∀ (i : Nat) (b : bucket_type K V), m._buckets[i]? = some b → occupied b.items = b.count

/-- One bucket, constant hasher 1: key 1 was inserted into the new map. -/
def state_collide : concurrent_unordered_map Nat Nat :=
  { _size := 1
    _buckets := [{ count := 1, items := [{ p := (1, 100), hash := 1 }], capacity := 1 }]
    buckets_capacity := 1 }

/-- The default map after `reserve(0)`: no bucket at all. -/
def state_no_buckets : concurrent_unordered_map Nat Nat :=
  { _size := 0, _buckets := [], buckets_capacity := 13 }

/-- One bucket emptied again: key 1 was inserted into the new map and erased. -/
def state_emptied : concurrent_unordered_map Nat Nat :=
  { _size := 0
    _buckets := [{ count := 0, items := [], capacity := 1 }]
    buckets_capacity := 1 }

/-- The read of `assert(b.items[it._offset].hash==0)` in `erase`: the stored hash found at
`offset` in the slot vector the critical section leaves (after the move-out and the pops),
`none` when `offset` is not an index of that vector. -/
def erase_assert_read (cfg : config K V) (items : List (item_type K V)) (offset : Nat)
    (slot : item_type K V) : Option Nat :=
  ((erase_section cfg items offset slot)[offset]?).map (fun s => s.hash)

/-- `state_key0` after `insert((2,7))` under the identity hasher: the upward scan took the
slot of key 0 for an empty one. -/
def state_key0_overwritten : concurrent_unordered_map Nat Nat :=
  { _size := 2
    _buckets := [{ count := 2, items := [{ p := (2, 7), hash := 2 }], capacity := 1 }]
    buckets_capacity := 1 }

/-! ## The scans -/

theorem find_loop_none_iff (cfg : config K V) (k : K) (h : Nat) (items : List (item_type K V))
    (offset : Nat) :
    find_loop cfg k h items offset = none ↔ ∀ s ∈ items, slot_matches cfg k h s = false := by
  induction items generalizing offset with
  | nil => simp [find_loop]
  | cons it rest ih =>
    simp only [find_loop, List.mem_cons, forall_eq_or_imp, slot_matches]
    by_cases hh : it.hash = h
    · by_cases hk : cfg._key_equal k it.p.1 = true
      · simp [hh, hk]
      · simp only [Bool.not_eq_true] at hk
        simp [hh, hk, ih, slot_matches]
    · simp [hh, ih, slot_matches]

theorem find_loop_some_iff (cfg : config K V) (k : K) (h : Nat) (items : List (item_type K V))
    (offset j : Nat) :
    find_loop cfg k h items offset = some j ↔
      ∃ i s, j = offset + i ∧ items[i]? = some s ∧ slot_matches cfg k h s = true ∧
        ∀ i1 s1, i1 < i → items[i1]? = some s1 → slot_matches cfg k h s1 = false := by
  induction items generalizing offset with
  | nil => simp [find_loop]
  | cons it rest ih =>
    by_cases hm : slot_matches cfg k h it = true
    · have hh : it.hash = h := by
        simp only [slot_matches, Bool.and_eq_true, beq_iff_eq] at hm; exact hm.1
      have hk : cfg._key_equal k it.p.1 = true := by
        simp only [slot_matches, Bool.and_eq_true] at hm; exact hm.2
      simp only [find_loop, hh, bne_self_eq_false, Bool.false_eq_true, if_false, hk, if_true,
        Option.some.injEq]
      constructor
      · intro e
        exact ⟨0, it, by omega, by simp, hm, by intro i1 s1 h1; omega⟩
      · rintro ⟨i, s, hj, _, _, hlow⟩
        cases i with
        | zero => omega
        | succ i =>
          have := hlow 0 it (by omega) (by simp)
          rw [hm] at this; cases this
    · simp only [Bool.not_eq_true] at hm
      have hstep : find_loop cfg k h (it :: rest) offset = find_loop cfg k h rest (offset + 1) := by
        simp only [find_loop]
        by_cases hh : it.hash = h
        · have hk : cfg._key_equal k it.p.1 = false := by
            simpa [slot_matches, hh] using hm
          simp [hh, hk]
        · simp [hh]
      rw [hstep, ih]
      constructor
      · rintro ⟨i, s, hj, hs, hms, hlow⟩
        refine ⟨i + 1, s, by omega, by simpa using hs, hms, ?_⟩
        intro i1 s1 h1 hs1
        cases i1 with
        | zero => simp at hs1; rw [← hs1]; exact hm
        | succ i1 => exact hlow i1 s1 (by omega) (by simpa using hs1)
      · rintro ⟨i, s, hj, hs, hms, hlow⟩
        cases i with
        | zero => simp at hs; rw [hs] at hm; rw [hm] at hms; cases hms
        | succ i =>
          refine ⟨i, s, by omega, by simpa using hs, hms, ?_⟩
          intro i1 s1 h1 hs1
          exact hlow (i1 + 1) s1 (by omega) (by simpa using hs1)

theorem scan_low_hit (cfg : config K V) (k : K) (h : Nat) (items : List (item_type K V))
    (offset : Nat) (e : Option Nat) :
    (scan_low cfg k h items offset e).hit = find_loop cfg k h items offset := by
  induction items generalizing offset e with
  | nil => simp [scan_low, find_loop]
  | cons it rest ih =>
    simp only [scan_low, find_loop]
    split
    · exact ih _ _
    · split
      · rfl
      · exact ih _ _

theorem scan_low_emptyidx (cfg : config K V) (k : K) (h : Nat) (items : List (item_type K V))
    (offset : Nat) (e : Option Nat) (x : Nat)
    (hx : (scan_low cfg k h items offset e).emptyidx = some x) :
    e = some x ∨ ∃ i s, x = offset + i ∧ items[i]? = some s ∧ s.hash = 0 := by
  induction items generalizing offset e with
  | nil => left; simpa [scan_low] using hx
  | cons it rest ih =>
    simp only [scan_low] at hx
    split at hx
    · rcases ih _ _ hx with h1 | ⟨i, s, hxi, hs, hz⟩
      · split at h1
        · rename_i hc
          right
          simp only [Bool.and_eq_true, beq_iff_eq] at hc
          refine ⟨0, it, ?_, by simp, hc.2⟩
          simp only [Option.some.injEq] at h1
          omega
        · left; exact h1
      · right; exact ⟨i + 1, s, by omega, by simpa using hs, hz⟩
    · split at hx
      · left; exact hx
      · rcases ih _ _ hx with h1 | ⟨i, s, hxi, hs, hz⟩
        · left; exact h1
        · right; exact ⟨i + 1, s, by omega, by simpa using hs, hz⟩

theorem scan_high_inner_some (cfg : config K V) (k : K) (h : Nat) (items : List (item_type K V))
    (n : Nat) (e e1 : Option Nat) (j : Nat) (eq : Bool)
    (hr : scan_high_inner cfg k h items n e = (some (j, eq), e1)) :
    j < n ∧ ∃ s, items[j]? = some s ∧ s.hash = h ∧ eq = cfg._key_equal k s.p.1 ∧
      ∀ i s1, j < i → i < n → items[i]? = some s1 → s1.hash ≠ h := by
  induction n generalizing e with
  | zero => simp [scan_high_inner] at hr
  | succ n ih =>
    simp only [scan_high_inner] at hr
    split at hr
    · simp at hr
    · rename_i it hit
      split at hr
      · rename_i hne
        obtain ⟨hj, s, hs, hsh, heq, hhigh⟩ := ih _ hr
        refine ⟨by omega, s, hs, hsh, heq, ?_⟩
        intro i s1 h1 h2 hs1
        by_cases hin : i = n
        · subst hin
          rw [hit] at hs1
          simp only [Option.some.injEq] at hs1
          subst hs1
          simpa using hne
        · exact hhigh i s1 h1 (by omega) hs1
      · rename_i hne
        simp only [Prod.mk.injEq, Option.some.injEq] at hr
        obtain ⟨⟨hj, heq⟩, _⟩ := hr
        subst hj
        refine ⟨by omega, it, hit, by simpa using hne, heq.symm, ?_⟩
        intro i s1 h1 h2; omega

theorem scan_high_inner_none (cfg : config K V) (k : K) (h : Nat) (items : List (item_type K V))
    (n : Nat) (e e1 : Option Nat) (hn : n ≤ items.length)
    (hr : scan_high_inner cfg k h items n e = (none, e1)) :
    ∀ i s1, i < n → items[i]? = some s1 → s1.hash ≠ h := by
  induction n generalizing e with
  | zero => intro i s1 hi; omega
  | succ n ih =>
    simp only [scan_high_inner] at hr
    split at hr
    · rename_i hnone
      simp only [List.getElem?_eq_none_iff] at hnone
      omega
    · rename_i it hit
      split at hr
      · rename_i hne
        intro i s1 hi hs1
        by_cases hin : i = n
        · subst hin
          rw [hit] at hs1
          simp only [Option.some.injEq] at hs1
          subst hs1
          simpa using hne
        · exact ih _ (by omega) hr i s1 (by omega) hs1
      · simp at hr

theorem scan_high_inner_emptyidx (cfg : config K V) (k : K) (h : Nat)
    (items : List (item_type K V)) (n : Nat) (e : Option Nat) (x : Nat)
    (hx : (scan_high_inner cfg k h items n e).2 = some x) :
    e = some x ∨ ∃ s, x < n ∧ items[x]? = some s ∧ s.hash = 0 := by
  induction n generalizing e with
  | zero => left; simpa [scan_high_inner] using hx
  | succ n ih =>
    simp only [scan_high_inner] at hx
    split at hx
    · left; exact hx
    · rename_i it hit
      split at hx
      · rcases ih _ hx with h1 | ⟨s, hxn, hs, hz⟩
        · split at h1
          · rename_i hc
            simp only [Bool.and_eq_true, beq_iff_eq] at hc
            simp only [Option.some.injEq] at h1
            subst h1
            right; exact ⟨it, by omega, hit, hc.2⟩
          · left; exact h1
        · right; exact ⟨s, by omega, hs, hz⟩
      · left; exact hx

theorem scan_high_inner_fst (cfg : config K V) (k : K) (h : Nat) (items : List (item_type K V))
    (n : Nat) (e e0 : Option Nat) :
    (scan_high_inner cfg k h items n e).1 = (scan_high_inner cfg k h items n e0).1 := by
  induction n generalizing e e0 with
  | zero => simp [scan_high_inner]
  | succ n ih =>
    simp only [scan_high_inner]
    split
    · rfl
    · split
      · exact ih _ _
      · rfl

theorem scan_high_miss (cfg : config K V) (k : K) (h : Nat) (items : List (item_type K V))
    (fuel : Nat) (e : Option Nat) (r : scan_result)
    (hr : scan_high cfg k h items fuel e = some r) (hm : r.hit = none) :
    ∀ s ∈ items, s.hash ≠ h := by
  induction fuel generalizing e with
  | zero => simp [scan_high] at hr
  | succ fuel ih =>
    simp only [scan_high] at hr
    split at hr
    · rename_i e1 hres
      intro s hs
      obtain ⟨i, hi⟩ := List.getElem?_of_mem hs
      have hlt : i < items.length := by
        rcases List.getElem?_eq_some_iff.mp hi with ⟨hlt, _⟩; exact hlt
      exact scan_high_inner_none cfg k h items items.length e e1 (Nat.le_refl _) hres i s hlt hi
    · simp only [Option.some.injEq] at hr
      subst hr
      simp at hm
    · exact ih _ hr

theorem scan_high_hit (cfg : config K V) (k : K) (h : Nat) (items : List (item_type K V))
    (fuel : Nat) (e : Option Nat) (r : scan_result) (j : Nat)
    (hr : scan_high cfg k h items fuel e = some r) (hm : r.hit = some j) :
    ∃ s, items[j]? = some s ∧ s.hash = h ∧ cfg._key_equal k s.p.1 = true ∧
      ∀ i s1, j < i → items[i]? = some s1 → s1.hash ≠ h := by
  induction fuel generalizing e with
  | zero => simp [scan_high] at hr
  | succ fuel ih =>
    simp only [scan_high] at hr
    split at hr
    · simp only [Option.some.injEq] at hr
      subst hr
      simp at hm
    · rename_i offset e1 hres
      simp only [Option.some.injEq] at hr
      subst hr
      simp only [Option.some.injEq] at hm
      subst hm
      obtain ⟨_, s, hs, hsh, heq, hhigh⟩ :=
        scan_high_inner_some cfg k h items items.length e e1 offset true hres
      refine ⟨s, hs, hsh, heq.symm, ?_⟩
      intro i s1 h1 hs1
      have hlt : i < items.length := by
        rcases List.getElem?_eq_some_iff.mp hs1 with ⟨hlt, _⟩; exact hlt
      exact hhigh i s1 h1 hlt hs1
    · exact ih _ hr

theorem scan_high_emptyidx (cfg : config K V) (k : K) (h : Nat) (items : List (item_type K V))
    (fuel : Nat) (e : Option Nat) (r : scan_result) (x : Nat)
    (hr : scan_high cfg k h items fuel e = some r) (hx : r.emptyidx = some x) :
    e = some x ∨ ∃ s, items[x]? = some s ∧ s.hash = 0 := by
  induction fuel generalizing e with
  | zero => simp [scan_high] at hr
  | succ fuel ih =>
    have hstep : ∀ e1 : Option Nat, (scan_high_inner cfg k h items items.length e).2 = e1 →
        (e1 = some x ∨ ∃ s, items[x]? = some s ∧ s.hash = 0) →
        e = some x ∨ ∃ s, items[x]? = some s ∧ s.hash = 0 := by
      intro e1 he1 hcase
      rcases hcase with h1 | h1
      · rw [h1] at he1
        rcases scan_high_inner_emptyidx cfg k h items items.length e x he1 with h2 | ⟨s, _, hs, hz⟩
        · left; exact h2
        · right; exact ⟨s, hs, hz⟩
      · right; exact h1
    simp only [scan_high] at hr
    split at hr
    · rename_i e1 hres
      simp only [Option.some.injEq] at hr
      subst hr
      exact hstep e1 (by rw [hres]) (Or.inl hx)
    · rename_i offset e1 hres
      simp only [Option.some.injEq] at hr
      subst hr
      exact hstep e1 (by rw [hres]) (Or.inl hx)
    · rename_i offset e1 hres
      exact hstep e1 (by rw [hres]) (ih _ hr)

theorem scan_high_inner_find (cfg : config K V) (k : K) (h : Nat) (items : List (item_type K V))
    (n : Nat) (e : Option Nat) (j : Nat) (s : item_type K V) (hj : j < n)
    (hs : items[j]? = some s) (hsh : s.hash = h)
    (hhigh : ∀ i s1, j < i → i < n → items[i]? = some s1 → s1.hash ≠ h) (hn : n ≤ items.length) :
    (scan_high_inner cfg k h items n e).1 = some (j, cfg._key_equal k s.p.1) := by
  induction n generalizing e with
  | zero => omega
  | succ n ih =>
    simp only [scan_high_inner]
    have hlt : n < items.length := by omega
    obtain ⟨it, hit⟩ : ∃ it, items[n]? = some it := ⟨items[n], List.getElem?_eq_getElem hlt⟩
    rw [hit]
    by_cases hjn : j = n
    · subst hjn
      rw [hs] at hit
      simp only [Option.some.injEq] at hit
      subst hit
      simp [hsh]
    · have hne : it.hash ≠ h := hhigh n it (by omega) (by omega) hit
      simp only [bne_iff_ne, ne_eq, hne, not_false_eq_true, if_true]
      exact ih _ (by omega) (fun i s1 h1 h2 hs1 => hhigh i s1 h1 (by omega) hs1) (by omega)

theorem scan_high_returns_hit (cfg : config K V) (k : K) (h : Nat) (items : List (item_type K V))
    (fuel : Nat) (e : Option Nat) (j : Nat) (s : item_type K V)
    (hs : items[j]? = some s) (hsh : s.hash = h) (hk : cfg._key_equal k s.p.1 = true)
    (hhigh : ∀ i s1, j < i → items[i]? = some s1 → s1.hash ≠ h) :
    ∃ e1, scan_high cfg k h items (fuel + 1) e = some { hit := some j, emptyidx := e1 } := by
  have hlt : j < items.length := by
    rcases List.getElem?_eq_some_iff.mp hs with ⟨hlt, _⟩; exact hlt
  have h1 := scan_high_inner_find cfg k h items items.length e j s hlt hs hsh
    (fun i s1 h1 _ hs1 => hhigh i s1 h1 hs1) (Nat.le_refl _)
  rw [hk] at h1
  simp only [scan_high]
  rcases hres : scan_high_inner cfg k h items items.length e with ⟨a, e1⟩
  rw [hres] at h1
  simp only at h1
  subst h1
  exact ⟨e1, rfl⟩

theorem scan_high_diverges (cfg : config K V) (k : K) (h : Nat) (items : List (item_type K V))
    (fuel : Nat) (e : Option Nat) (j : Nat) (s : item_type K V)
    (hs : items[j]? = some s) (hsh : s.hash = h) (hk : cfg._key_equal k s.p.1 = false)
    (hhigh : ∀ i s1, j < i → items[i]? = some s1 → s1.hash ≠ h) :
    scan_high cfg k h items fuel e = none := by
  have hlt : j < items.length := by
    rcases List.getElem?_eq_some_iff.mp hs with ⟨hlt, _⟩; exact hlt
  induction fuel generalizing e with
  | zero => simp [scan_high]
  | succ fuel ih =>
    have h1 := scan_high_inner_find cfg k h items items.length e j s hlt hs hsh
      (fun i s1 h1 _ hs1 => hhigh i s1 h1 hs1) (Nat.le_refl _)
    rw [hk] at h1
    simp only [scan_high]
    rcases hres : scan_high_inner cfg k h items items.length e with ⟨a, e1⟩
    rw [hres] at h1
    simp only at h1
    subst h1
    exact ih e1

theorem scan_high_inner_miss (cfg : config K V) (k : K) (h : Nat) (items : List (item_type K V))
    (n : Nat) (e : Option Nat) (hall : ∀ s ∈ items, s.hash ≠ h) :
    (scan_high_inner cfg k h items n e).1 = none := by
  induction n generalizing e with
  | zero => simp [scan_high_inner]
  | succ n ih =>
    simp only [scan_high_inner]
    split
    · rfl
    · rename_i it hit
      have hne : it.hash ≠ h := hall it (List.getElem?_mem hit)
      simp only [bne_iff_ne, ne_eq, hne, not_false_eq_true, if_true]
      exact ih _

theorem scan_high_returns_miss (cfg : config K V) (k : K) (h : Nat) (items : List (item_type K V))
    (fuel : Nat) (e : Option Nat) (hall : ∀ s ∈ items, s.hash ≠ h) :
    ∃ e1, scan_high cfg k h items (fuel + 1) e = some { hit := none, emptyidx := e1 } := by
  have h1 := scan_high_inner_miss cfg k h items items.length e hall
  simp only [scan_high]
  rcases hres : scan_high_inner cfg k h items items.length e with ⟨a, e1⟩
  rw [hres] at h1
  simp only at h1
  subst h1
  exact ⟨e1, rfl⟩

/-! ## Slot vectors -/

theorem getElem?_lt {α : Type} {l : List α} {i : Nat} {a : α} (h : l[i]? = some a) :
    i < l.length := by
  rcases List.getElem?_eq_some_iff.mp h with ⟨hlt, _⟩; exact hlt

theorem prefix_getElem? {α : Type} {l1 l2 : List α} (hp : l1 <+: l2) {i : Nat} {a : α}
    (h : l1[i]? = some a) : l2[i]? = some a := by
  obtain ⟨t, rfl⟩ := hp
  rw [List.getElem?_append_left (getElem?_lt h)]
  exact h

theorem occupied_eq_zero (items : List (item_type K V)) :
    occupied items = 0 ↔ ∀ s ∈ items, s.hash = 0 := by
  simp [occupied, List.countP_eq_zero]

theorem occupied_pos (items : List (item_type K V)) (s : item_type K V) (hs : s ∈ items)
    (hz : s.hash ≠ 0) : 0 < occupied items := by
  rcases Nat.eq_zero_or_pos (occupied items) with h0 | h0
  · exact absurd ((occupied_eq_zero items).mp h0 s hs) hz
  · exact h0

theorem occupied_set (items : List (item_type K V)) (x : Nat) (old new : item_type K V)
    (hx : items[x]? = some old) :
    occupied (items.set x new) + (if old.hash ≠ 0 then 1 else 0) =
      occupied items + (if new.hash ≠ 0 then 1 else 0) := by
  have hlt := getElem?_lt hx
  have hold : items[x] = old := by
    rcases List.getElem?_eq_some_iff.mp hx with ⟨_, h⟩; exact h
  have hle : (if (fun s : item_type K V => s.hash != 0) items[x] = true then 1 else 0) ≤
      items.countP (fun s => s.hash != 0) := by
    by_cases hc : items[x].hash = 0
    · simp [hc]
    · have : 0 < items.countP (fun s : item_type K V => s.hash != 0) :=
        List.countP_pos_iff.mpr ⟨items[x], List.getElem_mem hlt, by simpa using hc⟩
      simp only [bne_iff_ne, ne_eq, hc, not_false_eq_true, if_true]
      omega
  unfold occupied
  rw [List.countP_set _ _ _ _ hlt]
  rw [hold] at hle ⊢
  simp only [bne_iff_ne, ne_eq] at hle ⊢
  omega

theorem occupied_concat (items : List (item_type K V)) (new : item_type K V) :
    occupied (items ++ [new]) = occupied items + (if new.hash ≠ 0 then 1 else 0) := by
  simp [occupied, List.countP_append, List.countP_cons]

theorem occupied_rdropWhile (items : List (item_type K V)) :
    occupied (items.rdropWhile (fun s => s.hash == 0)) = occupied items := by
  induction items using List.reverseRecOn with
  | nil => simp
  | append_singleton l a ih =>
    by_cases ha : a.hash = 0
    · rw [List.rdropWhile_concat_pos _ _ _ (by simpa using ha), ih, occupied_concat]
      simp [ha]
    · rw [List.rdropWhile_concat_neg _ _ _ (by simpa using ha)]

theorem rdropWhile_last_occupied (items : List (item_type K V)) (s : item_type K V)
    (hs : (items.rdropWhile (fun s => s.hash == 0)).getLast? = some s) : s.hash ≠ 0 := by
  induction items using List.reverseRecOn with
  | nil => simp at hs
  | append_singleton l a ih =>
    by_cases ha : a.hash = 0
    · rw [List.rdropWhile_concat_pos _ _ _ (by simpa using ha)] at hs
      exact ih hs
    · rw [List.rdropWhile_concat_neg _ _ _ (by simpa using ha)] at hs
      simp only [List.getLast?_concat, Option.some.injEq] at hs
      subst hs
      exact ha

theorem erase_section_getElem? (cfg : config K V) (items : List (item_type K V)) (offset : Nat)
    (slot s : item_type K V) (i : Nat)
    (hs : (erase_section cfg items offset slot)[i]? = some s) :
    (i = offset ∧ s = { p := (slot.p.1, cfg.moved_from slot.p.2), hash := 0 }) ∨
      (i ≠ offset ∧ items[i]? = some s) := by
  have hset : (items.set offset
      { p := (slot.p.1, cfg.moved_from slot.p.2), hash := 0 })[i]? = some s := by
    unfold erase_section at hs
    simp only at hs
    split at hs
    · exact prefix_getElem? (List.rdropWhile_prefix _ _) hs
    · exact hs
  by_cases hio : offset = i
  · subst hio
    left
    rw [List.getElem?_set] at hset
    simp only [if_true] at hset
    split at hset
    · simp only [Option.some.injEq] at hset
      subst hset
      exact ⟨rfl, rfl⟩
    · cases hset
  · right
    rw [List.getElem?_set_ne hio] at hset
    exact ⟨fun h => hio h.symm, hset⟩

theorem erase_section_length (cfg : config K V) (items : List (item_type K V)) (offset : Nat)
    (slot : item_type K V) : (erase_section cfg items offset slot).length ≤ items.length := by
  unfold erase_section
  simp only
  split
  · have := (List.rdropWhile_prefix (fun s : item_type K V => s.hash == 0)
      (items.set offset { p := (slot.p.1, cfg.moved_from slot.p.2), hash := 0 })).length_le
    simpa using this
  · simp

theorem erase_section_mem (cfg : config K V) (items : List (item_type K V)) (offset : Nat)
    (slot s : item_type K V) (hs : s ∈ erase_section cfg items offset slot) :
    s.hash = 0 ∨ s ∈ items := by
  obtain ⟨i, hi⟩ := List.getElem?_of_mem hs
  rcases erase_section_getElem? cfg items offset slot s i hi with ⟨_, hz⟩ | ⟨_, hm⟩
  · left; rw [hz]
  · right; exact List.getElem?_mem hm

theorem occupied_erase_section (cfg : config K V) (items : List (item_type K V)) (offset : Nat)
    (slot : item_type K V) (hslot : items[offset]? = some slot) (hz : slot.hash ≠ 0) :
    occupied (erase_section cfg items offset slot) + 1 = occupied items := by
  have h1 := occupied_set items offset slot
    { p := (slot.p.1, cfg.moved_from slot.p.2), hash := 0 } hslot
  simp only [ne_eq, hz, not_false_eq_true, if_true, not_true_eq_false, if_false] at h1
  unfold erase_section
  simp only
  split
  · rw [occupied_rdropWhile]; omega
  · omega

theorem erase_section_last (cfg : config K V) (items : List (item_type K V)) (offset : Nat)
    (slot s : item_type K V)
    (hs : (erase_section cfg items offset slot).getLast? = some s) (hz : s.hash = 0) :
    items.getLast? = some s := by
  unfold erase_section at hs
  simp only at hs
  split at hs
  · exact absurd hz (rdropWhile_last_occupied _ s hs)
  · rename_i hne
    rw [List.getLast?_eq_getElem?] at hs ⊢
    simp only [List.length_set] at hs
    rw [List.getElem?_set_ne hne] at hs
    exact hs

theorem set_getElem?_cases (items : List (item_type K V)) (x : Nat) (new s : item_type K V)
    (a : Nat) (hs : (items.set x new)[a]? = some s) :
    (a = x ∧ s = new) ∨ (a ≠ x ∧ items[a]? = some s) := by
  by_cases hax : x = a
  · subst hax
    left
    rw [List.getElem?_set] at hs
    simp only [if_true] at hs
    split at hs
    · simp only [Option.some.injEq] at hs
      exact ⟨rfl, hs.symm⟩
    · cases hs
  · right
    rw [List.getElem?_set_ne hax] at hs
    exact ⟨fun h => hax h.symm, hs⟩

theorem concat_getElem?_cases (items : List (item_type K V)) (new s : item_type K V)
    (a : Nat) (hs : (items ++ [new])[a]? = some s) :
    (a = items.length ∧ s = new) ∨ (a ≠ items.length ∧ items[a]? = some s) := by
  rw [List.getElem?_append] at hs
  split at hs
  · right; exact ⟨by omega, hs⟩
  · left
    have hlt := getElem?_lt hs
    simp only [List.length_singleton] at hlt
    have ha : a = items.length := by omega
    subst ha
    simp only [Nat.sub_self, List.getElem?_cons_zero, Option.some.injEq] at hs
    exact ⟨rfl, hs.symm⟩

theorem high_unique_update (n : Nat) (items items1 : List (item_type K V)) (x : Nat)
    (new : item_type K V)
    (hupd : ∀ a s, items1[a]? = some s → (a = x ∧ s = new) ∨ (a ≠ x ∧ items[a]? = some s))
    (hold : ∀ (a b : Nat) (sa sb : item_type K V), items[a]? = some sa → items[b]? = some sb →
      sa.hash = sb.hash → ((sa.hash / n) &&& 1) ≠ 0 → a = b)
    (hnew : ((new.hash / n) &&& 1) ≠ 0 → ∀ s ∈ items, s.hash ≠ new.hash) :
    ∀ (a b : Nat) (sa sb : item_type K V), items1[a]? = some sa → items1[b]? = some sb →
      sa.hash = sb.hash → ((sa.hash / n) &&& 1) ≠ 0 → a = b := by
  intro a b sa sb ha hb heq hhigh
  rcases hupd a sa ha with ⟨hax, hsa⟩ | ⟨hax, hsa⟩
  · rcases hupd b sb hb with ⟨hbx, hsb⟩ | ⟨hbx, hsb⟩
    · omega
    · subst hsa
      exact absurd heq.symm (hnew hhigh sb (List.getElem?_mem hsb))
  · rcases hupd b sb hb with ⟨hbx, hsb⟩ | ⟨hbx, hsb⟩
    · subst hsb
      rw [heq] at hhigh
      exact absurd heq (hnew hhigh sa (List.getElem?_mem hsa))
    · exact hold a b sa sb hsa hsb heq hhigh

theorem keys_unique_update (cfg : config K V) (items items1 : List (item_type K V)) (x : Nat)
    (new : item_type K V)
    (hupd : ∀ a s, items1[a]? = some s → (a = x ∧ s = new) ∨ (a ≠ x ∧ items[a]? = some s))
    (hold : keys_unique cfg items)
    (hnew : new.hash ≠ 0 → ∀ s ∈ items, s.hash ≠ 0 →
      cfg._key_equal s.p.1 new.p.1 = false ∧ cfg._key_equal new.p.1 s.p.1 = false) :
    keys_unique cfg items1 := by
  intro a b sa sb ha hb hza hzb heq
  rcases hupd a sa ha with ⟨hax, hsa⟩ | ⟨hax, hsa⟩
  · rcases hupd b sb hb with ⟨hbx, hsb⟩ | ⟨hbx, hsb⟩
    · omega
    · subst hsa
      have := (hnew hza sb (List.getElem?_mem hsb) hzb).2
      rw [this] at heq; cases heq
  · rcases hupd b sb hb with ⟨hbx, hsb⟩ | ⟨hbx, hsb⟩
    · subst hsb
      have := (hnew hzb sa (List.getElem?_mem hsa) hza).1
      rw [this] at heq; cases heq
    · exact hold a b sa sb hsa hsb hza hzb heq

theorem zero_not_high (n : Nat) : ((0 / n) &&& 1) = 0 := by simp

theorem bucket_inv_empty_of_count (cfg : config K V) (n i : Nat) (b : bucket_type K V)
    (hinv : bucket_inv cfg n i b) (hc : b.count = 0) : b.items = [] := by
  have hocc : occupied b.items = 0 := by have := hinv.occupied_le; omega
  by_contra hne
  obtain ⟨s, hs⟩ : ∃ s, b.items.getLast? = some s := by
    cases hl : b.items.getLast? with
    | none => exact absurd (List.getLast?_eq_none_iff.mp hl) hne
    | some s => exact ⟨s, rfl⟩
  have hz : s.hash = 0 := (occupied_eq_zero b.items).mp hocc s (List.mem_of_getLast?_eq_some hs)
  have := hinv.last_empty s hs hz
  omega

theorem bucket_inv_cleared (cfg : config K V) (n i c : Nat) :
    bucket_inv cfg n i ({ count := 0, items := [], capacity := c } : bucket_type K V) where
  occupied_le := by simp [occupied]
  last_empty := by intro s hs; simp at hs
  placed := by intro s hs; simp at hs
  high_unique := by intro x y sx sy hx; simp at hx
  fits := by simp

theorem occupied_set_empty (items : List (item_type K V)) (x : Nat) (old : item_type K V)
    (hx : items[x]? = some old) (hold : old.hash = 0) (v : K × V) (h : Nat) :
    occupied (items.set x { p := v, hash := h }) = occupied items + (if h ≠ 0 then 1 else 0) := by
  have h1 := occupied_set items x old { p := v, hash := h } hx
  simp only [hold, ne_eq, not_true_eq_false, if_false, Nat.add_zero] at h1
  exact h1

theorem bucket_inv_set (cfg : config K V) (n i : Nat) (b : bucket_type K V)
    (hinv : bucket_inv cfg n i b) (x : Nat) (old : item_type K V)
    (hx : b.items[x]? = some old) (hold : old.hash = 0) (v : K × V) (h : Nat)
    (hh : h = cfg._hasher v.1) (hi : h % n = i)
    (hnew : ((h / n) &&& 1) ≠ 0 → ∀ s ∈ b.items, s.hash ≠ h) :
    bucket_inv cfg n i
      { count := b.count + 1, items := b.items.set x { p := v, hash := h },
        capacity := b.capacity } where
  occupied_le := by
    show occupied (b.items.set x { p := v, hash := h }) ≤ b.count + 1
    rw [occupied_set_empty b.items x old hx hold]
    have h2 := hinv.occupied_le
    split <;> omega
  last_empty := by
    intro s hs hz
    show occupied (b.items.set x { p := v, hash := h }) < b.count + 1
    rw [occupied_set_empty b.items x old hx hold]
    have h2 := hinv.occupied_le
    by_cases hh0 : h = 0
    · rw [if_neg (by simpa using hh0)]
      omega
    · rw [if_pos hh0]
      have hs1 : (b.items.set x { p := v, hash := h }).getLast? = some s := hs
      rw [List.getLast?_eq_getElem?] at hs1
      simp only [List.length_set] at hs1
      rcases set_getElem?_cases b.items x _ s _ hs1 with ⟨_, hsn⟩ | ⟨_, hso⟩
      · subst hsn; exact absurd hz hh0
      · rw [← List.getLast?_eq_getElem?] at hso
        have := hinv.last_empty s hso hz
        omega
  placed := by
    intro s hs hz
    rcases List.mem_or_eq_of_mem_set hs with h1 | h1
    · exact hinv.placed s h1 hz
    · subst h1; exact ⟨hh, hi⟩
  high_unique :=
    high_unique_update n b.items _ x { p := v, hash := h }
      (fun a s hs => set_getElem?_cases b.items x _ s a hs) hinv.high_unique hnew
  fits := by simpa using hinv.fits

theorem bucket_inv_push (cfg : config K V) (n i : Nat) (b : bucket_type K V)
    (hinv : bucket_inv cfg n i b) (v : K × V) (h : Nat)
    (hh : h = cfg._hasher v.1) (hi : h % n = i)
    (hnew : ((h / n) &&& 1) ≠ 0 → ∀ s ∈ b.items, s.hash ≠ h) (c : Nat)
    (hc : b.items.length + 1 ≤ c) :
    bucket_inv cfg n i
      { count := b.count + 1, items := b.items ++ [{ p := v, hash := h }], capacity := c } where
  occupied_le := by
    show occupied (b.items ++ [({ p := v, hash := h } : item_type K V)]) ≤ b.count + 1
    rw [occupied_concat]
    have h2 := hinv.occupied_le
    split <;> omega
  last_empty := by
    intro s hs hz
    show occupied (b.items ++ [({ p := v, hash := h } : item_type K V)]) < b.count + 1
    rw [occupied_concat]
    have hs1 : (b.items ++ [({ p := v, hash := h } : item_type K V)]).getLast? = some s := hs
    simp only [List.getLast?_concat, Option.some.injEq] at hs1
    subst hs1
    have hz1 : h = 0 := hz
    have h2 := hinv.occupied_le
    rw [if_neg (by simpa using hz1)]
    omega
  placed := by
    intro s hs hz
    simp only [List.mem_append, List.mem_singleton] at hs
    rcases hs with h1 | h1
    · exact hinv.placed s h1 hz
    · subst h1; exact ⟨hh, hi⟩
  high_unique :=
    high_unique_update n b.items _ b.items.length { p := v, hash := h }
      (fun a s hs => concat_getElem?_cases b.items _ s a hs) hinv.high_unique hnew
  fits := by simpa using hc

theorem bucket_inv_count_succ (cfg : config K V) (n i : Nat) (b : bucket_type K V)
    (hinv : bucket_inv cfg n i b) :
    bucket_inv cfg n i { count := b.count + 1, items := b.items, capacity := b.capacity } where
  occupied_le := by
    show occupied b.items ≤ b.count + 1
    have := hinv.occupied_le; omega
  last_empty := by
    intro s _ _
    show occupied b.items < b.count + 1
    have := hinv.occupied_le; omega
  placed := hinv.placed
  high_unique := hinv.high_unique
  fits := hinv.fits

theorem bucket_inv_erase (cfg : config K V) (n i : Nat) (b : bucket_type K V)
    (hinv : bucket_inv cfg n i b) (offset : Nat) (slot : item_type K V)
    (hslot : b.items[offset]? = some slot) (hz : slot.hash ≠ 0) :
    0 < b.count ∧ bucket_inv cfg n i
      { count := b.count - 1, items := erase_section cfg b.items offset slot,
        capacity := b.capacity } := by
  have hocc := occupied_erase_section cfg b.items offset slot hslot hz
  have hle := hinv.occupied_le
  refine ⟨by omega, ?_⟩
  exact {
    occupied_le := by
      show occupied (erase_section cfg b.items offset slot) ≤ b.count - 1
      omega
    last_empty := by
      intro s hs hsz
      have := hinv.last_empty s (erase_section_last cfg b.items offset slot s hs hsz) hsz
      show occupied (erase_section cfg b.items offset slot) < b.count - 1
      omega
    placed := by
      intro s hs hsz
      rcases erase_section_mem cfg b.items offset slot s hs with h1 | h1
      · exact absurd h1 hsz
      · exact hinv.placed s h1 hsz
    high_unique :=
      high_unique_update n b.items _ offset
        { p := (slot.p.1, cfg.moved_from slot.p.2), hash := 0 }
        (fun a s hs => erase_section_getElem? cfg b.items offset slot s a hs) hinv.high_unique
        (fun hhigh => absurd (zero_not_high n) hhigh)
    fits := Nat.le_trans (erase_section_length cfg b.items offset slot) hinv.fits }

theorem keys_unique_erase (cfg : config K V) (items : List (item_type K V)) (offset : Nat)
    (slot : item_type K V) (hu : keys_unique cfg items) :
    keys_unique cfg (erase_section cfg items offset slot) :=
  keys_unique_update cfg items _ offset { p := (slot.p.1, cfg.moved_from slot.p.2), hash := 0 }
    (fun a s hs => erase_section_getElem? cfg items offset slot s a hs) hu
    (fun hne => absurd rfl hne)

/-! ## Unfolding `insert` -/

theorem get_bucket_ok (m : concurrent_unordered_map K V) (k itb : Nat)
    (h : _get_bucket m k = .ok itb) : 0 < m._buckets.length ∧ itb = k % m._buckets.length := by
  unfold _get_bucket at h
  split at h
  · cases h
  · simp only [Except.ok.injEq] at h
    exact ⟨by omega, h.symm⟩

theorem get_bucket_pos (m : concurrent_unordered_map K V) (k : Nat)
    (h : 0 < m._buckets.length) : _get_bucket m k = .ok (k % m._buckets.length) := by
  unfold _get_bucket
  rw [if_neg (by omega)]

theorem insert_ok_cases (cfg : config K V) (fuel : Nat) (m m1 : concurrent_unordered_map K V)
    (v : K × V) (it : iterator) (ins : Bool)
    (hr : insert cfg fuel m v = .ok (m1, it, ins)) :
    0 < m._buckets.length ∧
    ∃ b, m._buckets[cfg._hasher v.1 % m._buckets.length]? = some b ∧
    ∃ r, insert_scan cfg fuel b v.1 (cfg._hasher v.1)
        (((cfg._hasher v.1 / m._buckets.length) &&& 1) == 0) = some r ∧
      ((∃ offset, r.hit = some offset ∧ m1 = m ∧ ins = false ∧
          it = { _itb := cfg._hasher v.1 % m._buckets.length, _offset := some offset }) ∨
       (r.hit = none ∧ ins = true ∧
          ∃ b1 offset, insert_place b v (cfg._hasher v.1) r.emptyidx = .ok (b1, offset) ∧
            m1 = { m with
                   _size := m._size + 1
                   _buckets := m._buckets.set (cfg._hasher v.1 % m._buckets.length)
                     { b1 with count := b1.count + 1 } } ∧
            it = (match offset with
                  | some o => { _itb := cfg._hasher v.1 % m._buckets.length, _offset := some o }
                  | none => end_ m))) := by
  unfold insert at hr
  simp only at hr
  split at hr
  · cases hr
  · rename_i itb hgb
    obtain ⟨hpos, hitb⟩ := get_bucket_ok m _ itb hgb
    subst hitb
    refine ⟨hpos, ?_⟩
    split at hr
    · cases hr
    · rename_i b hb
      refine ⟨b, hb, ?_⟩
      split at hr
      · cases hr
      · rename_i offset e hscan
        simp only [Except.ok.injEq, Prod.mk.injEq] at hr
        obtain ⟨h1, h2, h3⟩ := hr
        exact ⟨_, hscan, Or.inl ⟨offset, rfl, h1.symm, h3.symm, h2.symm⟩⟩
      · rename_i e hscan
        refine ⟨_, hscan, Or.inr ⟨rfl, ?_⟩⟩
        split at hr
        · cases hr
        · rename_i b1 offset hplace
          split at hr
          · simp only [Except.ok.injEq, Prod.mk.injEq] at hr
            obtain ⟨h1, h2, h3⟩ := hr
            exact ⟨h3.symm, b1, _, hplace, h1.symm, h2.symm⟩
          · simp only [Except.ok.injEq, Prod.mk.injEq] at hr
            obtain ⟨h1, h2, h3⟩ := hr
            exact ⟨h3.symm, b1, _, hplace, h1.symm, h2.symm⟩

theorem slot_matches_iff (cfg : config K V) (k : K) (h : Nat) (s : item_type K V) :
    slot_matches cfg k h s = true ↔ s.hash = h ∧ cfg._key_equal k s.p.1 = true := by
  simp [slot_matches]

theorem insert_scan_hit (cfg : config K V) (fuel : Nat) (b : bucket_type K V) (k : K) (h : Nat)
    (startlow : Bool) (r : scan_result) (offset : Nat)
    (hr : insert_scan cfg fuel b k h startlow = some r) (hhit : r.hit = some offset) :
    b.count ≠ 0 ∧ (∃ s, b.items[offset]? = some s ∧ slot_matches cfg k h s = true) ∧
      (startlow = true → find_loop cfg k h b.items 0 = some offset) ∧
      (startlow = false → ∀ i s1, offset < i → b.items[i]? = some s1 → s1.hash ≠ h) := by
  unfold insert_scan transact_entry_count dotransact at hr
  simp only at hr
  split at hr
  · rename_i hc
    refine ⟨hc, ?_⟩
    split at hr
    · rename_i hsl
      simp only [Option.some.injEq] at hr
      subst hr
      rw [scan_low_hit] at hhit
      refine ⟨?_, fun _ => hhit, fun hf => by rw [hsl] at hf; cases hf⟩
      obtain ⟨i, s, hi, hs, hm, _⟩ := (find_loop_some_iff cfg k h b.items 0 offset).mp hhit
      have : offset = i := by omega
      subst this
      exact ⟨s, hs, hm⟩
    · rename_i hsl
      obtain ⟨s, hs, hsh, hk, hhigh⟩ := scan_high_hit cfg k h b.items fuel none r offset hr hhit
      refine ⟨⟨s, hs, (slot_matches_iff cfg k h s).mpr ⟨hsh, hk⟩⟩, fun ht => absurd ht hsl, ?_⟩
      intro _ i s1 h1 hs1
      exact hhigh i s1 h1 hs1
  · split at hr <;>
      (simp only [Option.some.injEq] at hr; subst hr; simp at hhit)

theorem insert_scan_miss (cfg : config K V) (n i : Nat) (fuel : Nat) (b : bucket_type K V)
    (k : K) (h : Nat) (startlow : Bool) (r : scan_result) (hinv : bucket_inv cfg n i b)
    (hr : insert_scan cfg fuel b k h startlow = some r) (hhit : r.hit = none) :
    (∀ s ∈ b.items, slot_matches cfg k h s = false) ∧
      (startlow = false → ∀ s ∈ b.items, s.hash ≠ h) ∧
      (∀ x, r.emptyidx = some x → ∃ s, b.items[x]? = some s ∧ s.hash = 0) ∧
      (b.count = 0 → r.emptyidx = none) := by
  unfold insert_scan transact_entry_count dotransact at hr
  simp only at hr
  split at hr
  · rename_i hc
    split at hr
    · rename_i hsl
      simp only [Option.some.injEq] at hr
      subst hr
      rw [scan_low_hit] at hhit
      refine ⟨(find_loop_none_iff cfg k h b.items 0).mp hhit, ?_, ?_, fun h0 => absurd h0 hc⟩
      · intro hf; rw [hsl] at hf; cases hf
      intro x hx
      rcases scan_low_emptyidx cfg k h b.items 0 none x hx with h1 | ⟨j, s, hj, hs, hz⟩
      · cases h1
      · have : x = j := by omega
        subst this
        exact ⟨s, hs, hz⟩
    · have hall := scan_high_miss cfg k h b.items fuel none r hr hhit
      refine ⟨?_, fun _ => hall, ?_, fun h0 => absurd h0 hc⟩
      · intro s hs
        have := hall s hs
        simp [slot_matches, this]
      · intro x hx
        rcases scan_high_emptyidx cfg k h b.items fuel none r x hr hx with h1 | h1
        · cases h1
        · exact h1
  · rename_i hc
    have hc0 : b.count = 0 := by
      by_contra hne
      exact hc hne
    have hnil := bucket_inv_empty_of_count cfg n i b hinv hc0
    rw [hnil] at hr ⊢
    simp only [List.isEmpty_nil, Bool.not_true, Bool.false_eq_true, if_false,
      Option.some.injEq] at hr
    subst hr
    simp

theorem push_back_items (b : bucket_type K V) (x : item_type K V) :
    (push_back b x).items = b.items ++ [x] ∧ (push_back b x).count = b.count := by
  simp [push_back]

theorem insert_place_cases (b b1 : bucket_type K V) (v : K × V) (h : Nat) (e offset : Option Nat)
    (hp : insert_place b v h e = .ok (b1, offset))
    (he : ∀ x, e = some x → ∃ s, b.items[x]? = some s ∧ s.hash = 0) :
    (∃ x old, e = some x ∧ b.items[x]? = some old ∧ old.hash = 0 ∧ offset = some x ∧
        b1 = { b with items := b.items.set x { p := v, hash := h } }) ∨
    (e = none ∧ offset = some b.items.length ∧ b1.items = b.items ++ [{ p := v, hash := h }] ∧
        b1.count = b.count ∧
        b1.capacity = (if b.items.length = b.capacity then
            (if b.capacity * 2 ≠ 0 then b.capacity * 2 else 1)
          else if b.items.length < b.capacity then b.capacity else b.items.length + 1)) := by
  unfold insert_place at hp
  split at hp
  · rename_i x
    obtain ⟨s, hs, hz⟩ := he x rfl
    left
    rw [hs] at hp
    simp only [hz, beq_self_eq_true, if_true, Except.ok.injEq, Prod.mk.injEq] at hp
    exact ⟨x, s, rfl, hs, hz, hp.2.symm, hp.1.symm⟩
  · right
    simp only [Except.ok.injEq, Prod.mk.injEq] at hp
    obtain ⟨h1, h2⟩ := hp
    subst h1
    refine ⟨rfl, h2.symm, ?_, ?_, ?_⟩
    · split <;> simp [push_back]
    · split <;> simp [push_back]
    · by_cases hc : b.items.length = b.capacity
      · simp only [hc, if_true, push_back]
        by_cases h0 : b.capacity = 0
        · simp [h0]
        · have : b.capacity < b.capacity * 2 := by omega
          simp [h0, this]
      · simp [hc, push_back]

/-! ## The representation invariant is preserved -/

theorem bucket_eq (b b1 : bucket_type K V) (h1 : b.count = b1.count) (h2 : b.items = b1.items)
    (h3 : b.capacity = b1.capacity) : b = b1 := by
  cases b; cases b1; simp only at h1 h2 h3; subst h1 h2 h3; rfl

theorem sum_count_set (l : List (bucket_type K V)) (i : Nat) (b b1 : bucket_type K V)
    (hb : l[i]? = some b) :
    ((l.set i b1).map (fun b => b.count)).sum + b.count =
      (l.map (fun b => b.count)).sum + b1.count := by
  induction l generalizing i with
  | nil => simp at hb
  | cons a t ih =>
    cases i with
    | zero =>
      simp only [List.getElem?_cons_zero, Option.some.injEq] at hb
      subst hb
      simp only [List.set_cons_zero, List.map_cons, List.sum_cons]
      omega
    | succ i =>
      simp only [List.getElem?_cons_succ] at hb
      have := ih i hb
      simp only [List.set_cons_succ, List.map_cons, List.sum_cons]
      omega

theorem sum_count_zero (l : List (bucket_type K V))
    (h : (l.map (fun b => b.count)).sum = 0) : ∀ b ∈ l, b.count = 0 := by
  induction l with
  | nil => intro b hb; simp at hb
  | cons a t ih =>
    simp only [List.map_cons, List.sum_cons] at h
    intro b hb
    simp only [List.mem_cons] at hb
    rcases hb with h1 | h1
    · subst h1; omega
    · exact ih (by omega) b h1

theorem sum_count_all_zero (l : List (bucket_type K V)) (h : ∀ b ∈ l, b.count = 0) :
    (l.map (fun b => b.count)).sum = 0 := by
  induction l with
  | nil => simp
  | cons a t ih =>
    simp only [List.map_cons, List.sum_cons]
    have h1 := h a (List.mem_cons_self _ _)
    have h2 := ih (fun b hb => h b (List.mem_cons_of_mem _ hb))
    omega

theorem map_inv_set (cfg : config K V) (m : concurrent_unordered_map K V) (itb : Nat)
    (b b2 : bucket_type K V) (sz : Nat) (hinv : map_inv cfg m) (hb : m._buckets[itb]? = some b)
    (hsz : sz + b.count = m._size + b2.count)
    (hb2 : bucket_inv cfg m._buckets.length itb b2) :
    map_inv cfg { m with _size := sz, _buckets := m._buckets.set itb b2 } where
  size_eq := by
    have h1 := sum_count_set m._buckets itb b b2 hb
    have h2 := hinv.size_eq
    show sz = ((m._buckets.set itb b2).map (fun b => b.count)).sum
    omega
  buckets := by
    intro i b3 hb3
    have hb3a : (m._buckets.set itb b2)[i]? = some b3 := hb3
    show bucket_inv cfg (m._buckets.set itb b2).length i b3
    rw [List.length_set]
    by_cases hi : itb = i
    · subst hi
      rw [List.getElem?_set] at hb3a
      simp only [if_true] at hb3a
      split at hb3a
      · simp only [Option.some.injEq] at hb3a
        subst hb3a
        exact hb2
      · cases hb3a
    · rw [List.getElem?_set_ne hi] at hb3a
      exact hinv.buckets i b3 hb3a

theorem high_iff_not_startlow (x : Nat) : ((x &&& 1) == 0) = false ↔ (x &&& 1) ≠ 0 := by
  simp

theorem map_inv_insert (cfg : config K V) (fuel : Nat) (m m1 : concurrent_unordered_map K V)
    (v : K × V) (r : iterator × Bool) (hinv : map_inv cfg m)
    (hr : insert cfg fuel m v = .ok (m1, r)) : map_inv cfg m1 := by
  obtain ⟨it, ins⟩ := r
  obtain ⟨hpos, b, hb, sr, hscan, hcase⟩ := insert_ok_cases cfg fuel m m1 v it ins hr
  rcases hcase with ⟨offset, _, hm, _, _⟩ | ⟨hmiss, _, b1, offset, hplace, hm, _⟩
  · rw [hm]; exact hinv
  · have hbinv := hinv.buckets _ b hb
    obtain ⟨_, hhigh, hempty, _⟩ :=
      insert_scan_miss cfg _ _ fuel b v.1 _ _ sr hbinv hscan hmiss
    have hnew : ((cfg._hasher v.1 / m._buckets.length) &&& 1) ≠ 0 →
        ∀ s ∈ b.items, s.hash ≠ cfg._hasher v.1 :=
      fun hne => hhigh ((high_iff_not_startlow _).mpr hne)
    have hmod : cfg._hasher v.1 % m._buckets.length = cfg._hasher v.1 % m._buckets.length := rfl
    rw [hm]
    rcases insert_place_cases b b1 v _ sr.emptyidx offset hplace hempty with
      ⟨x, old, _, hx, hold, _, hb1⟩ | ⟨_, _, hitems, hcount, hcap⟩
    · apply map_inv_set cfg m _ b _ _ hinv hb
      · show m._size + 1 + b.count = m._size + (b1.count + 1)
        rw [hb1]; simp only; omega
      · rw [hb1]
        exact bucket_inv_set cfg _ _ b hbinv x old hx hold v _ rfl hmod hnew
    · apply map_inv_set cfg m _ b _ _ hinv hb
      · show m._size + 1 + b.count = m._size + (b1.count + 1)
        omega
      · have hfit := hbinv.fits
        have hcap1 : b.items.length + 1 ≤ b1.capacity := by
          rw [hcap]
          split
          · split <;> omega
          · split <;> omega
        have heq : ({ b1 with count := b1.count + 1 } : bucket_type K V) =
            { count := b.count + 1, items := b.items ++ [{ p := v, hash := cfg._hasher v.1 }],
              capacity := b1.capacity } :=
          bucket_eq _ _ (by simp only [hcount]) hitems rfl
        rw [heq]
        exact bucket_inv_push cfg _ _ b hbinv v _ rfl hmod hnew b1.capacity hcap1

theorem erase_ok_cases (cfg : config K V) (m m1 : concurrent_unordered_map K V) (it : iterator)
    (r : Bool) (hr : erase cfg m it = .ok (m1, r)) :
    (r = false ∧ m1 = m) ∨
    (r = true ∧ ∃ b offset slot, it._offset = some offset ∧ m._buckets[it._itb]? = some b ∧
      b.items[offset]? = some slot ∧ slot.hash ≠ 0 ∧
      m1 = { m with
             _size := m._size - 1
             _buckets := m._buckets.set it._itb
               { b with items := erase_section cfg b.items offset slot, count := b.count - 1 } }) := by
  unfold erase at hr
  split at hr
  · simp only [Except.ok.injEq, Prod.mk.injEq] at hr
    exact Or.inl ⟨hr.2.symm, hr.1.symm⟩
  · split at hr
    · cases hr
    · rename_i b hb
      split at hr
      · simp only [Except.ok.injEq, Prod.mk.injEq] at hr
        exact Or.inl ⟨hr.2.symm, hr.1.symm⟩
      · rename_i offset hoff
        split at hr
        · simp only [Except.ok.injEq, Prod.mk.injEq] at hr
          exact Or.inl ⟨hr.2.symm, hr.1.symm⟩
        · rename_i slot hslot
          split at hr
          · rename_i hz
            simp only [Except.ok.injEq, Prod.mk.injEq] at hr
            exact Or.inr ⟨hr.2.symm, b, offset, slot, hoff, hb, hslot, hz, hr.1.symm⟩
          · simp only [Except.ok.injEq, Prod.mk.injEq] at hr
            exact Or.inl ⟨hr.2.symm, hr.1.symm⟩

theorem map_inv_size_pos (cfg : config K V) (m : concurrent_unordered_map K V) (i : Nat)
    (b : bucket_type K V) (hinv : map_inv cfg m) (hb : m._buckets[i]? = some b) :
    b.count ≤ m._size := by
  have h1 := sum_count_set m._buckets i b { b with count := 0 } hb
  have h2 := hinv.size_eq
  simp only at h1
  omega

theorem map_inv_erase (cfg : config K V) (m m1 : concurrent_unordered_map K V) (it : iterator)
    (r : Bool) (hinv : map_inv cfg m) (hr : erase cfg m it = .ok (m1, r)) : map_inv cfg m1 := by
  rcases erase_ok_cases cfg m m1 it r hr with ⟨_, hm⟩ | ⟨_, b, offset, slot, _, hb, hslot, hz, hm⟩
  · rw [hm]; exact hinv
  · have hbinv := hinv.buckets _ b hb
    obtain ⟨hpos, hb1⟩ := bucket_inv_erase cfg _ _ b hbinv offset slot hslot hz
    have hle := map_inv_size_pos cfg m _ b hinv hb
    rw [hm]
    apply map_inv_set cfg m _ b _ _ hinv hb
    · show m._size - 1 + b.count = m._size + (b.count - 1)
      omega
    · exact hb1

theorem map_inv_all_empty (cfg : config K V) (l : List (bucket_type K V)) (c : Nat)
    (h : ∀ b ∈ l, b.count = 0 ∧ b.items = []) :
    map_inv cfg { _size := 0, _buckets := l, buckets_capacity := c } where
  size_eq := by
    show 0 = (l.map (fun b => b.count)).sum
    rw [sum_count_all_zero l (fun b hb => (h b hb).1)]
  buckets := by
    intro i b hb
    obtain ⟨hc, hi⟩ := h b (List.getElem?_mem hb)
    have heq : b = { count := 0, items := [], capacity := b.capacity } :=
      bucket_eq _ _ hc hi rfl
    rw [heq]
    exact bucket_inv_cleared cfg _ _ _

theorem map_inv_empty_buckets (cfg : config K V) (m : concurrent_unordered_map K V)
    (hinv : map_inv cfg m) (hsz : m._size = 0) : ∀ b ∈ m._buckets, b.count = 0 ∧ b.items = [] := by
  intro b hb
  have hsum : (m._buckets.map (fun b => b.count)).sum = 0 := by
    rw [← hinv.size_eq]; exact hsz
  have hc := sum_count_zero m._buckets hsum b hb
  obtain ⟨i, hi⟩ := List.getElem?_of_mem hb
  exact ⟨hc, bucket_inv_empty_of_count cfg _ _ b (hinv.buckets i b hi) hc⟩

theorem map_inv_construct_default (cfg : config K V) : map_inv cfg (construct_default K V) := by
  apply map_inv_all_empty
  intro b hb
  rw [(List.mem_replicate.mp hb).2]
  exact ⟨rfl, rfl⟩

theorem map_inv_construct (cfg : config K V) (n : Nat) : map_inv cfg (construct K V n) := by
  apply map_inv_all_empty
  intro b hb
  rw [(List.mem_replicate.mp hb).2]
  exact ⟨rfl, rfl⟩

theorem map_inv_clear (cfg : config K V) (m : concurrent_unordered_map K V) :
    map_inv cfg (clear m) := by
  apply map_inv_all_empty
  intro b hb
  obtain ⟨b0, _, hb0⟩ := List.mem_map.mp hb
  rw [← hb0]
  exact ⟨rfl, rfl⟩

theorem resize_buckets (cfg : config K V) (m : concurrent_unordered_map K V) (n : Nat) :
    (resize cfg m n)._size = m._size ∧
      ∀ b ∈ (resize cfg m n)._buckets, b ∈ m._buckets ∨ b = bucket_type.fresh K V := by
  unfold resize
  split
  · exact ⟨rfl, fun b hb => Or.inl (List.mem_of_mem_take hb)⟩
  · split
    · refine ⟨rfl, fun b hb => ?_⟩
      have hb1 : b ∈ m._buckets ++ List.replicate (n - m._buckets.length) (bucket_type.fresh K V) :=
        hb
      rcases List.mem_append.mp hb1 with h1 | h1
      · exact Or.inl h1
      · exact Or.inr (List.mem_replicate.mp h1).2
    · refine ⟨rfl, fun b hb => ?_⟩
      have hb1 : b ∈ List.replicate n (bucket_type.fresh K V) := hb
      exact Or.inr (List.mem_replicate.mp hb1).2

theorem resize_empty (cfg : config K V) (m : concurrent_unordered_map K V) (n : Nat)
    (hinv : map_inv cfg m) (hsz : m._size = 0) :
    (resize cfg m n)._size = 0 ∧ ∀ b ∈ (resize cfg m n)._buckets, b.count = 0 ∧ b.items = [] := by
  obtain ⟨h1, h2⟩ := resize_buckets cfg m n
  refine ⟨by rw [h1, hsz], fun b hb => ?_⟩
  rcases h2 b hb with h3 | h3
  · exact map_inv_empty_buckets cfg m hinv hsz b h3
  · rw [h3]; exact ⟨rfl, rfl⟩

theorem reserve_ok (cfg : config K V) (m m1 : concurrent_unordered_map K V) (n : Nat)
    (hr : reserve cfg m n = .ok m1) : m._size = 0 ∧ m1 = resize cfg m n := by
  unfold reserve at hr
  split at hr
  · cases hr
  · rename_i hsz
    simp only [Except.ok.injEq] at hr
    exact ⟨by simpa using hsz, hr.symm⟩

theorem map_inv_reserve (cfg : config K V) (m m1 : concurrent_unordered_map K V) (n : Nat)
    (hinv : map_inv cfg m) (hr : reserve cfg m n = .ok m1) : map_inv cfg m1 := by
  obtain ⟨hsz, hm⟩ := reserve_ok cfg m m1 n hr
  obtain ⟨h1, h2⟩ := resize_empty cfg m n hinv hsz
  have := map_inv_all_empty cfg (resize cfg m n)._buckets (resize cfg m n).buckets_capacity h2
  rw [hm]
  have heq : resize cfg m n =
      { _size := 0, _buckets := (resize cfg m n)._buckets,
        buckets_capacity := (resize cfg m n).buckets_capacity } := by
    cases hres : resize cfg m n with
    | mk sz bs bc =>
      rw [hres] at h1
      simp only at h1
      subst h1
      rfl
  rw [heq]
  exact this

theorem reachable_inv (cfg : config K V) (m : concurrent_unordered_map K V)
    (hm : reachable cfg m) : map_inv cfg m := by
  induction hm with
  | construct_default => exact map_inv_construct_default cfg
  | construct n => exact map_inv_construct cfg n
  | insert fuel v r _ hr ih => exact map_inv_insert cfg fuel _ _ v r ih hr
  | erase it r _ hr ih => exact map_inv_erase cfg _ _ it r ih hr
  | clear _ _ => exact map_inv_clear cfg _
  | reserve n _ hr ih => exact map_inv_reserve cfg _ _ n ih hr

/-! ## Key uniqueness is preserved -/

theorem map_unique_set (cfg : config K V) (m : concurrent_unordered_map K V) (itb sz : Nat)
    (b2 : bucket_type K V) (hu : map_unique cfg m) (hb2 : keys_unique cfg b2.items) :
    map_unique cfg { m with _size := sz, _buckets := m._buckets.set itb b2 } := by
  intro i b3 hb3
  have hb3a : (m._buckets.set itb b2)[i]? = some b3 := hb3
  by_cases hi : itb = i
  · subst hi
    rw [List.getElem?_set] at hb3a
    simp only [if_true] at hb3a
    split at hb3a
    · simp only [Option.some.injEq] at hb3a
      subst hb3a
      exact hb2
    · cases hb3a
  · rw [List.getElem?_set_ne hi] at hb3a
    exact hu i b3 hb3a

theorem miss_no_equal_key (cfg : config K V) (hl : cfg.lawful) (n i : Nat) (b : bucket_type K V)
    (hinv : bucket_inv cfg n i b) (k : K)
    (hmiss : ∀ s ∈ b.items, slot_matches cfg k (cfg._hasher k) s = false) :
    ∀ s ∈ b.items, s.hash ≠ 0 →
      cfg._key_equal s.p.1 k = false ∧ cfg._key_equal k s.p.1 = false := by
  intro s hs hz
  have hplaced := (hinv.placed s hs hz).1
  have h2 : cfg._key_equal k s.p.1 = false := by
    by_contra hne
    simp only [Bool.not_eq_false] at hne
    have hh := hl.hash_eq _ _ hne
    have hm : slot_matches cfg k (cfg._hasher k) s = true :=
      (slot_matches_iff cfg k _ s).mpr ⟨by rw [hplaced, hh], hne⟩
    rw [hmiss s hs] at hm
    cases hm
  refine ⟨?_, h2⟩
  by_contra hne
  simp only [Bool.not_eq_false] at hne
  rw [hl.symm _ _ hne] at h2
  cases h2

theorem map_unique_insert (cfg : config K V) (hl : cfg.lawful) (fuel : Nat)
    (m m1 : concurrent_unordered_map K V) (v : K × V) (r : iterator × Bool)
    (hinv : map_inv cfg m) (hu : map_unique cfg m)
    (hr : insert cfg fuel m v = .ok (m1, r)) : map_unique cfg m1 := by
  obtain ⟨it, ins⟩ := r
  obtain ⟨hpos, b, hb, sr, hscan, hcase⟩ := insert_ok_cases cfg fuel m m1 v it ins hr
  rcases hcase with ⟨offset, _, hm, _, _⟩ | ⟨hmiss, _, b1, offset, hplace, hm, _⟩
  · rw [hm]; exact hu
  · have hbinv := hinv.buckets _ b hb
    obtain ⟨hnomatch, _, hempty, _⟩ :=
      insert_scan_miss cfg _ _ fuel b v.1 _ _ sr hbinv hscan hmiss
    have hnokey := miss_no_equal_key cfg hl _ _ b hbinv v.1 hnomatch
    have hnew : ({ p := v, hash := cfg._hasher v.1 } : item_type K V).hash ≠ 0 →
        ∀ s ∈ b.items, s.hash ≠ 0 →
          cfg._key_equal s.p.1 ({ p := v, hash := cfg._hasher v.1 } : item_type K V).p.1 = false ∧
          cfg._key_equal ({ p := v, hash := cfg._hasher v.1 } : item_type K V).p.1 s.p.1 = false :=
      fun _ => hnokey
    rw [hm]
    apply map_unique_set cfg m _ _ _ hu
    rcases insert_place_cases b b1 v _ sr.emptyidx offset hplace hempty with
      ⟨x, old, _, hx, hold, _, hb1⟩ | ⟨_, _, hitems, hcount, hcap⟩
    · rw [hb1]
      exact keys_unique_update cfg b.items _ x { p := v, hash := cfg._hasher v.1 }
        (fun a s hs => set_getElem?_cases b.items x _ s a hs) (hu _ b hb) hnew
    · show keys_unique cfg b1.items
      rw [hitems]
      exact keys_unique_update cfg b.items _ b.items.length { p := v, hash := cfg._hasher v.1 }
        (fun a s hs => concat_getElem?_cases b.items _ s a hs) (hu _ b hb) hnew

theorem map_unique_erase (cfg : config K V) (m m1 : concurrent_unordered_map K V) (it : iterator)
    (r : Bool) (hu : map_unique cfg m) (hr : erase cfg m it = .ok (m1, r)) :
    map_unique cfg m1 := by
  rcases erase_ok_cases cfg m m1 it r hr with ⟨_, hm⟩ | ⟨_, b, offset, slot, _, hb, hslot, hz, hm⟩
  · rw [hm]; exact hu
  · rw [hm]
    apply map_unique_set cfg m _ _ _ hu
    exact keys_unique_erase cfg b.items offset slot (hu _ b hb)

theorem keys_unique_nil (cfg : config K V) : keys_unique cfg ([] : List (item_type K V)) := by
  intro i j si sj hi; simp at hi

theorem map_unique_all_empty (cfg : config K V) (m : concurrent_unordered_map K V)
    (h : ∀ b ∈ m._buckets, b.count = 0 ∧ b.items = []) : map_unique cfg m := by
  intro i b hb
  rw [(h b (List.getElem?_mem hb)).2]
  exact keys_unique_nil cfg

theorem reachable_unique (cfg : config K V) (hl : cfg.lawful) (m : concurrent_unordered_map K V)
    (hm : reachable cfg m) : map_unique cfg m := by
  induction hm with
  | construct_default =>
    apply map_unique_all_empty
    intro b hb
    rw [(List.mem_replicate.mp hb).2]
    exact ⟨rfl, rfl⟩
  | construct n =>
    apply map_unique_all_empty
    intro b hb
    rw [(List.mem_replicate.mp hb).2]
    exact ⟨rfl, rfl⟩
  | insert fuel v r hm0 hr ih =>
    exact map_unique_insert cfg hl fuel _ _ v r (reachable_inv cfg _ hm0) ih hr
  | erase it r _ hr ih => exact map_unique_erase cfg _ _ it r ih hr
  | clear _ _ =>
    apply map_unique_all_empty
    intro b hb
    obtain ⟨b0, _, hb0⟩ := List.mem_map.mp hb
    rw [← hb0]
    exact ⟨rfl, rfl⟩
  | reserve n hm0 hr _ =>
    obtain ⟨hsz, hm1⟩ := reserve_ok cfg _ _ n hr
    rw [hm1]
    exact map_unique_all_empty cfg _ (resize_empty cfg _ n (reachable_inv cfg _ hm0) hsz).2

/-! ## `find` on states satisfying the invariant -/

theorem bucket_lookup (m : concurrent_unordered_map K V) (h : Nat) (hpos : 0 < m._buckets.length) :
    ∃ b, m._buckets[h % m._buckets.length]? = some b := by
  have hlt : h % m._buckets.length < m._buckets.length := Nat.mod_lt _ hpos
  exact ⟨m._buckets[h % m._buckets.length], List.getElem?_eq_getElem hlt⟩

theorem find_loop_nil_of_count (cfg : config K V) (n i : Nat) (b : bucket_type K V) (k : K)
    (h : Nat) (hinv : bucket_inv cfg n i b) (hc : b.count = 0) :
    find_loop cfg k h b.items 0 = none := by
  rw [bucket_inv_empty_of_count cfg n i b hinv hc]
  rfl

/-- Under the invariant `find` is the bucket scan alone: the early exits on `_size == 0`
and `count == 0` agree with it. -/
theorem find_spec (cfg : config K V) (m : concurrent_unordered_map K V) (k : K)
    (hinv : map_inv cfg m) :
    (m._buckets.length = 0 ∧ find cfg m k = .ok (end_ m)) ∨
    (0 < m._buckets.length ∧
      ∃ b, m._buckets[cfg._hasher k % m._buckets.length]? = some b ∧
        find cfg m k = .ok (match find_loop cfg k (cfg._hasher k) b.items 0 with
          | some offset =>
            { _itb := cfg._hasher k % m._buckets.length, _offset := some offset }
          | none => end_ m)) := by
  rcases Nat.eq_zero_or_pos m._buckets.length with h0 | hpos
  · left
    refine ⟨h0, ?_⟩
    have hsz : m._size = 0 := by
      rw [hinv.size_eq, List.length_eq_zero.mp h0]; rfl
    unfold find
    rw [if_pos hsz]
  · right
    obtain ⟨b, hb⟩ := bucket_lookup m (cfg._hasher k) hpos
    refine ⟨hpos, b, hb, ?_⟩
    have hbinv := hinv.buckets _ b hb
    unfold find
    split
    · rename_i hsz
      have hc := (map_inv_empty_buckets cfg m hinv hsz b (List.getElem?_mem hb)).1
      rw [find_loop_nil_of_count cfg _ _ b k _ hbinv hc]
    · simp only [get_bucket_pos m _ hpos, hb]
      split
      · cases find_loop cfg k (cfg._hasher k) b.items 0 <;> rfl
      · rename_i hc
        have hc0 : b.count = 0 := by
          by_contra hne
          exact hc hne
        rw [find_loop_nil_of_count cfg _ _ b k _ hbinv hc0]

theorem find_of_first_match (cfg : config K V) (m : concurrent_unordered_map K V) (k : K)
    (hinv : map_inv cfg m) (b : bucket_type K V) (i : Nat) (s : item_type K V)
    (hb : m._buckets[cfg._hasher k % m._buckets.length]? = some b)
    (hs : b.items[i]? = some s) (hm : slot_matches cfg k (cfg._hasher k) s = true)
    (hlow : ∀ j s1, j < i → b.items[j]? = some s1 →
      slot_matches cfg k (cfg._hasher k) s1 = false) :
    find cfg m k = .ok { _itb := cfg._hasher k % m._buckets.length, _offset := some i } := by
  rcases find_spec cfg m k hinv with ⟨h0, _⟩ | ⟨_, b1, hb1, hf⟩
  · rw [List.length_eq_zero.mp h0] at hb
    simp at hb
  · rw [hb] at hb1
    simp only [Option.some.injEq] at hb1
    subst hb1
    have hfl : find_loop cfg k (cfg._hasher k) b.items 0 = some i :=
      (find_loop_some_iff cfg k _ b.items 0 i).mpr ⟨i, s, by omega, hs, hm, hlow⟩
    rw [hfl] at hf
    exact hf

theorem find_of_no_match (cfg : config K V) (m : concurrent_unordered_map K V) (k : K)
    (hinv : map_inv cfg m)
    (hno : ∀ b, m._buckets[cfg._hasher k % m._buckets.length]? = some b →
      ∀ s ∈ b.items, slot_matches cfg k (cfg._hasher k) s = false) :
    find cfg m k = .ok (end_ m) := by
  rcases find_spec cfg m k hinv with ⟨_, hf⟩ | ⟨_, b, hb, hf⟩
  · exact hf
  · rw [(find_loop_none_iff cfg k _ b.items 0).mpr (hno b hb)] at hf
    exact hf

theorem find_found (cfg : config K V) (m : concurrent_unordered_map K V) (k : K) (it : iterator)
    (hinv : map_inv cfg m) (hf : find cfg m k = .ok it) (hne : it ≠ end_ m) :
    0 < m._buckets.length ∧
    ∃ b offset s, m._buckets[cfg._hasher k % m._buckets.length]? = some b ∧
      it = { _itb := cfg._hasher k % m._buckets.length, _offset := some offset } ∧
      find_loop cfg k (cfg._hasher k) b.items 0 = some offset ∧
      b.items[offset]? = some s ∧ slot_matches cfg k (cfg._hasher k) s = true := by
  rcases find_spec cfg m k hinv with ⟨_, hf1⟩ | ⟨hpos, b, hb, hf1⟩
  · rw [hf1] at hf
    simp only [Except.ok.injEq] at hf
    exact absurd hf.symm hne
  · rw [hf1] at hf
    refine ⟨hpos, b, ?_⟩
    cases hfl : find_loop cfg k (cfg._hasher k) b.items 0 with
    | none =>
      rw [hfl] at hf
      simp only [Except.ok.injEq] at hf
      exact absurd hf.symm hne
    | some offset =>
      rw [hfl] at hf
      simp only [Except.ok.injEq] at hf
      obtain ⟨i, s, hi, hs, hm, _⟩ := (find_loop_some_iff cfg k _ b.items 0 offset).mp hfl
      have : offset = i := by omega
      subst this
      exact ⟨offset, s, hb, hf.symm, rfl, hs, hm⟩

/-! ## What `insert` does on states satisfying the invariant -/

theorem find_loop_congr (cfg : config K V) (k : K) (h : Nat) (items items1 : List (item_type K V))
    (h1 : ∀ (i : Nat) (s : item_type K V), items1[i]? = some s →
      slot_matches cfg k h s = true → items[i]? = some s)
    (h2 : ∀ (i : Nat) (s : item_type K V), items[i]? = some s →
      slot_matches cfg k h s = true → items1[i]? = some s) :
    find_loop cfg k h items1 0 = find_loop cfg k h items 0 := by
  cases hfl : find_loop cfg k h items 0 with
  | none =>
    rw [find_loop_none_iff] at hfl ⊢
    intro s hs
    obtain ⟨i, hi⟩ := List.getElem?_of_mem hs
    by_contra hne
    simp only [Bool.not_eq_false] at hne
    have := hfl s (List.getElem?_mem (h1 i s hi hne))
    rw [this] at hne; cases hne
  | some j =>
    obtain ⟨i, s, hi, hs, hm, hlow⟩ := (find_loop_some_iff cfg k h items 0 j).mp hfl
    refine (find_loop_some_iff cfg k h items1 0 j).mpr ⟨i, s, hi, h2 i s hs hm, hm, ?_⟩
    intro i1 s1 hlt hs1
    by_contra hne
    simp only [Bool.not_eq_false] at hne
    have := hlow i1 s1 hlt (h1 i1 s1 hs1 hne)
    rw [this] at hne; cases hne

theorem insert_true_spec (cfg : config K V) (fuel : Nat) (m m1 : concurrent_unordered_map K V)
    (v : K × V) (it : iterator) (hinv : map_inv cfg m)
    (hr : insert cfg fuel m v = .ok (m1, it, true)) :
    0 < m._buckets.length ∧
    ∃ b b2 x, m._buckets[cfg._hasher v.1 % m._buckets.length]? = some b ∧
      (∀ s ∈ b.items, slot_matches cfg v.1 (cfg._hasher v.1) s = false) ∧
      it = { _itb := cfg._hasher v.1 % m._buckets.length, _offset := some x } ∧
      m1 = { m with
             _size := m._size + 1
             _buckets := m._buckets.set (cfg._hasher v.1 % m._buckets.length) b2 } ∧
      b2.count = b.count + 1 ∧
      b2.items[x]? = some { p := v, hash := cfg._hasher v.1 } ∧
      (∀ (a : Nat) (s : item_type K V), b2.items[a]? = some s →
        (a = x ∧ s = { p := v, hash := cfg._hasher v.1 }) ∨ (a ≠ x ∧ b.items[a]? = some s)) ∧
      (∀ (a : Nat) (s : item_type K V), a ≠ x → b.items[a]? = some s →
        b2.items[a]? = some s) ∧
      (∀ old, b.items[x]? = some old → old.hash = 0) := by
  obtain ⟨hpos, b, hb, sr, hscan, hcase⟩ := insert_ok_cases cfg fuel m m1 v it true hr
  refine ⟨hpos, b, ?_⟩
  rcases hcase with ⟨_, _, _, hf, _⟩ | ⟨hmiss, _, b1, offset, hplace, hm, hit⟩
  · cases hf
  · have hbinv := hinv.buckets _ b hb
    obtain ⟨hnomatch, _, hempty, _⟩ :=
      insert_scan_miss cfg _ _ fuel b v.1 _ _ sr hbinv hscan hmiss
    rcases insert_place_cases b b1 v _ sr.emptyidx offset hplace hempty with
      ⟨x, old, _, hx, hold, hoff, hb1⟩ | ⟨_, hoff, hitems, hcount, _⟩
    · subst hoff
      refine ⟨{ b1 with count := b1.count + 1 }, x, hb, hnomatch, hit, hm, ?_, ?_, ?_, ?_, ?_⟩
      · rw [hb1]
      · show b1.items[x]? = _
        rw [hb1]
        show (b.items.set x _)[x]? = _
        rw [List.getElem?_set]
        simp [getElem?_lt hx]
      · intro a s hs
        have hs1 : b1.items[a]? = some s := hs
        rw [hb1] at hs1
        exact set_getElem?_cases b.items x _ s a hs1
      · intro a s hax hs
        show b1.items[a]? = some s
        rw [hb1]
        show (b.items.set x _)[a]? = some s
        rw [List.getElem?_set_ne (fun h => hax h.symm)]
        exact hs
      · intro old1 hold1
        rw [hx] at hold1
        simp only [Option.some.injEq] at hold1
        rw [← hold1]; exact hold
    · subst hoff
      refine ⟨{ b1 with count := b1.count + 1 }, b.items.length, hb, hnomatch, hit, hm, ?_, ?_,
        ?_, ?_, ?_⟩
      · show b1.count + 1 = b.count + 1
        rw [hcount]
      · show b1.items[b.items.length]? = _
        rw [hitems]
        simp
      · intro a s hs
        have hs1 : b1.items[a]? = some s := hs
        rw [hitems] at hs1
        exact concat_getElem?_cases b.items _ s a hs1
      · intro a s _ hs
        show b1.items[a]? = some s
        rw [hitems, List.getElem?_append_left (getElem?_lt hs)]
        exact hs
      · intro old1 hold1
        have := getElem?_lt hold1
        omega

theorem length_set_bucket (m : concurrent_unordered_map K V) (sz itb : Nat)
    (b2 : bucket_type K V) :
    end_ ({ m with _size := sz, _buckets := m._buckets.set itb b2 } :
      concurrent_unordered_map K V) = end_ m := by
  simp [end_]

theorem insert_true_find (cfg : config K V) (fuel : Nat) (m m1 : concurrent_unordered_map K V)
    (v : K × V) (it : iterator) (hinv : map_inv cfg m)
    (hrefl : cfg._key_equal v.1 v.1 = true)
    (hr : insert cfg fuel m v = .ok (m1, it, true)) :
    find cfg m1 v.1 = .ok it ∧ it ≠ end_ m1 ∧
      slot_at m1 it = some { p := v, hash := cfg._hasher v.1 } := by
  have hinv1 := map_inv_insert cfg fuel m m1 v (it, true) hinv hr
  obtain ⟨hpos, b, b2, x, hb, hnomatch, hit, hm, _, hx, hupd, _, _⟩ :=
    insert_true_spec cfg fuel m m1 v it hinv hr
  have hlen : m1._buckets.length = m._buckets.length := by rw [hm]; simp
  have hb2 : m1._buckets[cfg._hasher v.1 % m1._buckets.length]? = some b2 := by
    rw [hlen, hm]
    show (m._buckets.set _ b2)[_]? = some b2
    rw [List.getElem?_set]
    simp [getElem?_lt hb]
  refine ⟨?_, ?_, ?_⟩
  · have := find_of_first_match cfg m1 v.1 hinv1 b2 x _ hb2 hx
      ((slot_matches_iff cfg _ _ _).mpr ⟨rfl, hrefl⟩) (by
        intro j s1 hj hs1
        rcases hupd j s1 hs1 with ⟨hjx, _⟩ | ⟨_, hold⟩
        · omega
        · exact hnomatch s1 (List.getElem?_mem hold))
    rw [this, hit, hlen]
  · rw [hit]
    intro h
    simp [end_] at h
  · rw [hit]
    unfold slot_at
    rw [← hlen, hb2]
    exact hx

theorem insert_false_spec (cfg : config K V) (fuel : Nat) (m m1 : concurrent_unordered_map K V)
    (v : K × V) (it : iterator) (hinv : map_inv cfg m)
    (hr : insert cfg fuel m v = .ok (m1, it, false)) :
    m1 = m ∧ find cfg m v.1 = .ok it ∧ it ≠ end_ m := by
  obtain ⟨hpos, b, hb, sr, hscan, hcase⟩ := insert_ok_cases cfg fuel m m1 v it false hr
  rcases hcase with ⟨offset, hhit, hm, _, hit⟩ | ⟨_, hf, _⟩
  · refine ⟨hm, ?_, ?_⟩
    · obtain ⟨_, ⟨s, hs, hmatch⟩, hlow, hhigh⟩ :=
        insert_scan_hit cfg fuel b v.1 _ _ sr offset hscan hhit
      rw [hit]
      cases hsl : ((cfg._hasher v.1 / m._buckets.length) &&& 1) == 0 with
      | true =>
        have hfl := hlow hsl
        obtain ⟨i, s1, hi, hs1, hm1, hlow1⟩ :=
          (find_loop_some_iff cfg v.1 _ b.items 0 offset).mp hfl
        have : offset = i := by omega
        subst this
        exact find_of_first_match cfg m v.1 hinv b offset s1 hb hs1 hm1 hlow1
      | false =>
        refine find_of_first_match cfg m v.1 hinv b offset s hb hs hmatch ?_
        intro j s1 hj hs1
        by_contra hne
        simp only [Bool.not_eq_false] at hne
        have hh1 := ((slot_matches_iff cfg _ _ _).mp hne).1
        have hh := ((slot_matches_iff cfg _ _ _).mp hmatch).1
        have hhi : ((s1.hash / m._buckets.length) &&& 1) ≠ 0 := by
          rw [hh1]; exact (high_iff_not_startlow _).mp hsl
        have := (hinv.buckets _ b hb).high_unique j offset s1 s hs1 hs (by rw [hh1, hh]) hhi
        omega
    · rw [hit]
      intro h
      simp [end_] at h
  · cases hf

theorem insert_scan_of_find (cfg : config K V) (n i : Nat) (fuel : Nat) (b : bucket_type K V)
    (k : K) (offset : Nat) (hinv : bucket_inv cfg n i b)
    (hfl : find_loop cfg k (cfg._hasher k) b.items 0 = some offset) :
    ∃ e1, insert_scan cfg (fuel + 1) b k (cfg._hasher k) (((cfg._hasher k / n) &&& 1) == 0) =
      some { hit := some offset, emptyidx := e1 } := by
  obtain ⟨j, s, hj, hs, hm, _⟩ := (find_loop_some_iff cfg k _ b.items 0 offset).mp hfl
  have hjo : offset = j := by omega
  subst hjo
  have hc : b.count ≠ 0 := by
    intro h0
    rw [find_loop_nil_of_count cfg n i b k _ hinv h0] at hfl
    cases hfl
  unfold insert_scan transact_entry_count dotransact
  simp only [ne_eq, hc, not_false_eq_true, if_true]
  cases hsl : ((cfg._hasher k / n) &&& 1) == 0 with
  | true =>
    refine ⟨(scan_low cfg k (cfg._hasher k) b.items 0 none).emptyidx, ?_⟩
    simp only [if_true]
    have := scan_low_hit cfg k (cfg._hasher k) b.items 0 none
    rw [hfl] at this
    rw [← this]
  | false =>
    simp only [Bool.false_eq_true, if_false]
    have hh := ((slot_matches_iff cfg _ _ _).mp hm).1
    have hk := ((slot_matches_iff cfg _ _ _).mp hm).2
    refine scan_high_returns_hit cfg k _ b.items fuel none offset s hs hh hk ?_
    intro i1 s1 hlt hs1 heq
    have hhi : ((s1.hash / n) &&& 1) ≠ 0 := by
      rw [heq]; exact (high_iff_not_startlow _).mp hsl
    have := hinv.high_unique i1 offset s1 s hs1 hs (by rw [heq, hh]) hhi
    omega

theorem insert_of_find (cfg : config K V) (fuel : Nat) (m : concurrent_unordered_map K V)
    (k : K) (v2 : V) (it : iterator) (hinv : map_inv cfg m)
    (hf : find cfg m k = .ok it) (hne : it ≠ end_ m) :
    insert cfg (fuel + 1) m (k, v2) = .ok (m, it, false) := by
  obtain ⟨hpos, b, offset, s, hb, hit, hfl, _, _⟩ := find_found cfg m k it hinv hf hne
  obtain ⟨e1, hscan⟩ :=
    insert_scan_of_find cfg _ _ fuel b k offset (hinv.buckets _ b hb) hfl
  unfold insert
  simp only [get_bucket_pos m _ hpos, hb, hscan, hit]

/-! ## Frame lemmas: replacing one bucket -/

theorem find_set_bucket (cfg : config K V) (m : concurrent_unordered_map K V) (k : K)
    (itb sz : Nat) (b b2 : bucket_type K V) (hinv : map_inv cfg m)
    (hinv1 : map_inv cfg { m with _size := sz, _buckets := m._buckets.set itb b2 })
    (hb : m._buckets[itb]? = some b)
    (hsame : cfg._hasher k % m._buckets.length = itb →
      find_loop cfg k (cfg._hasher k) b2.items 0 = find_loop cfg k (cfg._hasher k) b.items 0) :
    find cfg { m with _size := sz, _buckets := m._buckets.set itb b2 } k = find cfg m k := by
  have hlt := getElem?_lt hb
  rcases find_spec cfg m k hinv with ⟨h0, _⟩ | ⟨_, b3, hb3, hf⟩
  · omega
  · rcases find_spec cfg _ k hinv1 with ⟨h0, _⟩ | ⟨_, b4, hb4, hf1⟩
    · simp only [List.length_set] at h0
      omega
    · rw [hf, hf1]
      simp only [List.length_set] at hb4 ⊢
      rw [length_set_bucket]
      by_cases hi : cfg._hasher k % m._buckets.length = itb
      · have hb4a : (m._buckets.set itb b2)[cfg._hasher k % m._buckets.length]? = some b4 := hb4
        rw [hi, List.getElem?_set] at hb4a
        simp only [if_true, hlt] at hb4a
        simp only [Option.some.injEq] at hb4a
        subst hb4a
        rw [hi, hb] at hb3
        simp only [Option.some.injEq] at hb3
        subst hb3
        rw [hsame hi]
      · have hb4a : (m._buckets.set itb b2)[cfg._hasher k % m._buckets.length]? = some b4 := hb4
        rw [List.getElem?_set_ne (fun h => hi h.symm), hb3] at hb4a
        simp only [Option.some.injEq] at hb4a
        subst hb4a
        rfl

theorem slot_at_set_bucket (m : concurrent_unordered_map K V) (itb sz : Nat)
    (b b2 : bucket_type K V) (it : iterator) (hb : m._buckets[itb]? = some b)
    (hsame : it._itb = itb → ∀ o, it._offset = some o → b2.items[o]? = b.items[o]?) :
    slot_at ({ m with _size := sz, _buckets := m._buckets.set itb b2 } :
      concurrent_unordered_map K V) it = slot_at m it := by
  have hlt := getElem?_lt hb
  unfold slot_at
  show (match (m._buckets.set itb b2)[it._itb]?, it._offset with
    | some b, some offset => b.items[offset]?
    | _, _ => none) = _
  by_cases hi : it._itb = itb
  · rw [hi, List.getElem?_set]
    simp only [if_true, hlt, hb]
    cases ho : it._offset with
    | none => rfl
    | some o => exact hsame hi o ho
  · rw [List.getElem?_set_ne (fun h => hi h.symm)]

theorem rdropWhile_getElem? {α : Type} (p : α → Bool) (l : List α) (i : Nat) (s : α)
    (hs : l[i]? = some s) (hp : p s = false) : (l.rdropWhile p)[i]? = some s := by
  induction l using List.reverseRecOn with
  | nil => simp at hs
  | append_singleton l a ih =>
    by_cases ha : p a = true
    · rw [List.rdropWhile_concat_pos _ _ _ ha]
      apply ih
      rw [List.getElem?_append] at hs
      split at hs
      · exact hs
      · have hlt := getElem?_lt hs
        simp only [List.length_singleton] at hlt
        have hi : i - l.length = 0 := by omega
        rw [hi] at hs
        simp only [List.getElem?_cons_zero, Option.some.injEq] at hs
        subst hs
        rw [hp] at ha; cases ha
    · rw [List.rdropWhile_concat_neg _ _ _ ha]
      exact hs

theorem erase_section_retains (cfg : config K V) (items : List (item_type K V)) (offset : Nat)
    (slot s : item_type K V) (i : Nat) (hs : items[i]? = some s) (hi : i ≠ offset)
    (hz : s.hash ≠ 0) : (erase_section cfg items offset slot)[i]? = some s := by
  have hset : (items.set offset
      { p := (slot.p.1, cfg.moved_from slot.p.2), hash := 0 })[i]? = some s := by
    rw [List.getElem?_set_ne (fun h => hi h.symm)]
    exact hs
  unfold erase_section
  simp only
  split
  · exact rdropWhile_getElem? _ _ i s hset (by simpa using hz)
  · exact hset

theorem erase_at_slot (cfg : config K V) (m : concurrent_unordered_map K V) (it : iterator)
    (b : bucket_type K V) (offset : Nat) (slot : item_type K V)
    (hb : m._buckets[it._itb]? = some b) (hoff : it._offset = some offset)
    (hslot : b.items[offset]? = some slot) (hz : slot.hash ≠ 0) :
    erase cfg m it = .ok
      ({ m with
         _size := m._size - 1
         _buckets := m._buckets.set it._itb
           { b with items := erase_section cfg b.items offset slot, count := b.count - 1 } },
       true) := by
  have hne : it ≠ end_ m := by
    intro h
    rw [h] at hoff
    simp [end_] at hoff
  unfold erase
  simp only [hne, if_false, hb, hoff, hslot, ne_eq, hz, not_false_eq_true, if_true]

theorem erase_slot_spec (cfg : config K V) (m : concurrent_unordered_map K V)
    (it : iterator) (b : bucket_type K V) (offset : Nat) (slot : item_type K V)
    (hinv : map_inv cfg m) (hu : map_unique cfg m)
    (hb : m._buckets[it._itb]? = some b) (hoff : it._offset = some offset)
    (hslot : b.items[offset]? = some slot) (hz : slot.hash ≠ 0) :
    ∃ m1 b1, erase cfg m it = .ok (m1, true) ∧ m1._size + 1 = m._size ∧
      m1._buckets.length = m._buckets.length ∧
      m1._buckets[it._itb]? = some b1 ∧ b1.count + 1 = b.count ∧
      find cfg m1 slot.p.1 = .ok (end_ m1) ∧
      ∀ k1, cfg._key_equal k1 slot.p.1 = false → cfg._hasher k1 ≠ 0 →
        find cfg m1 k1 = find cfg m k1 ∧
        ∀ it1, find cfg m k1 = .ok it1 → slot_at m1 it1 = slot_at m it1 := by
  have he := erase_at_slot cfg m it b offset slot hb hoff hslot hz
  have hinv1 := map_inv_erase cfg m _ it true hinv he
  have hbinv := hinv.buckets _ b hb
  obtain ⟨hcpos, _⟩ := bucket_inv_erase cfg _ _ b hbinv offset slot hslot hz
  have hle := map_inv_size_pos cfg m _ b hinv hb
  have hlt := getElem?_lt hb
  obtain ⟨hhash, hplace⟩ := hbinv.placed slot (List.getElem?_mem hslot) hz
  refine ⟨_, { b with items := erase_section cfg b.items offset slot, count := b.count - 1 },
    he, ?_, ?_, ?_, ?_, ?_, ?_⟩
  · show m._size - 1 + 1 = m._size
    omega
  · simp
  · show (m._buckets.set it._itb _)[it._itb]? = _
    rw [List.getElem?_set]
    simp only [if_true, hlt]
  · show b.count - 1 + 1 = b.count
    omega
  · apply find_of_no_match cfg _ slot.p.1 hinv1
    intro b3 hb3 s hs
    have hb3a : (m._buckets.set it._itb
        { b with items := erase_section cfg b.items offset slot, count := b.count - 1 })[
          cfg._hasher slot.p.1 % (m._buckets.set it._itb
        { b with items := erase_section cfg b.items offset slot,
                 count := b.count - 1 }).length]? = some b3 := hb3
    rw [List.length_set, ← hhash, hplace, List.getElem?_set] at hb3a
    simp only [if_true, hlt, Option.some.injEq] at hb3a
    subst hb3a
    by_contra hne
    simp only [Bool.not_eq_false] at hne
    obtain ⟨hsh, hk⟩ := (slot_matches_iff cfg _ _ _).mp hne
    obtain ⟨i, hi⟩ := List.getElem?_of_mem hs
    rcases erase_section_getElem? cfg b.items offset slot s i hi with ⟨_, hs0⟩ | ⟨hio, hsi⟩
    · rw [hs0, ← hhash] at hsh
      exact hz hsh.symm
    · have := hu _ b hb offset i slot s hslot hsi hz (by rw [hsh, ← hhash]; exact hz) hk
      omega
  · intro k1 hk1 hh1
    have hsame : cfg._hasher k1 % m._buckets.length = it._itb →
        find_loop cfg k1 (cfg._hasher k1) (erase_section cfg b.items offset slot) 0 =
          find_loop cfg k1 (cfg._hasher k1) b.items 0 := by
      intro _
      apply find_loop_congr
      · intro i s hs hm
        rcases erase_section_getElem? cfg b.items offset slot s i hs with ⟨_, hs0⟩ | ⟨_, hsi⟩
        · rw [hs0] at hm
          have := ((slot_matches_iff cfg _ _ _).mp hm).1
          exact absurd this.symm hh1
        · exact hsi
      · intro i s hs hm
        obtain ⟨hsh, hk⟩ := (slot_matches_iff cfg _ _ _).mp hm
        apply erase_section_retains cfg b.items offset slot s i hs
        · intro hio
          subst hio
          rw [hslot] at hs
          simp only [Option.some.injEq] at hs
          subst hs
          rw [hk1] at hk; cases hk
        · rw [hsh]; exact hh1
    refine ⟨find_set_bucket cfg m k1 _ _ b _ hinv hinv1 hb hsame, ?_⟩
    intro it1 hf1
    apply slot_at_set_bucket m _ _ b _ it1 hb
    intro hitb o ho
    show (erase_section cfg b.items offset slot)[o]? = b.items[o]?
    by_cases hend : it1 = end_ m
    · rw [hend] at ho
      simp [end_] at ho
    · obtain ⟨_, b5, o5, s5, hb5, hit5, _, hs5, hm5⟩ := find_found cfg m k1 it1 hinv hf1 hend
      rw [hit5] at hitb ho
      simp only at hitb
      simp only [Option.some.injEq] at ho
      subst ho
      rw [hitb, hb] at hb5
      simp only [Option.some.injEq] at hb5
      subst hb5
      obtain ⟨hsh, hk⟩ := (slot_matches_iff cfg _ _ _).mp hm5
      rw [hs5]
      apply erase_section_retains cfg b.items offset slot s5 o5 hs5
      · intro hio
        subst hio
        rw [hslot] at hs5
        simp only [Option.some.injEq] at hs5
        subst hs5
        rw [hk1] at hk; cases hk
      · rw [hsh]; exact hh1

/-! ## Example states -/

theorem cfg_of_lawful (hf : Nat → Nat) : (cfg_of hf).lawful where
  refl := by intro a; simp [cfg_of]
  symm := by intro a b h; simp only [cfg_of, beq_iff_eq] at h ⊢; exact h.symm
  trans := by intro a b c h1 h2; simp only [cfg_of, beq_iff_eq] at h1 h2 ⊢; exact h1.trans h2
  hash_eq := by intro a b h; simp only [cfg_of, beq_iff_eq] at h ⊢; rw [h]

theorem reachable_state_123 : reachable (cfg_of id) state_123 :=
  reachable.insert 1 (3, 300) (⟨0, some 2⟩, true)
    (reachable.insert 1 (2, 200) (⟨0, some 1⟩, true)
      (reachable.insert 1 (1, 100) (⟨0, some 0⟩, true) (reachable.construct 1) rfl) rfl) rfl

theorem reachable_state_13 : reachable (cfg_of id) state_13 :=
  reachable.erase ⟨0, some 1⟩ true reachable_state_123 rfl

theorem reachable_state_zero_hash : reachable (cfg_of (fun k => k / 2)) state_zero_hash :=
  reachable.insert 1 (2, 21) (⟨0, some 1⟩, true)
    (reachable.insert 1 (1, 11) (⟨0, some 1⟩, true)
      (reachable.insert 1 (0, 1) (⟨0, some 0⟩, true) (reachable.construct 1) rfl) rfl) rfl

theorem reachable_state_key0 : reachable (cfg_of id) state_key0 :=
  reachable.insert 1 (0, 5) (⟨0, some 0⟩, true) (reachable.construct 1) rfl

/-- The counters are positive whenever `erase` decrements them. -/
theorem erase_count_pos (cfg : config K V) (m m1 : concurrent_unordered_map K V) (it : iterator)
    (hm : reachable cfg m) (hr : erase cfg m it = .ok (m1, true)) :
    0 < m._size ∧ ∃ b, m._buckets[it._itb]? = some b ∧ 0 < b.count := by
  have hinv := reachable_inv cfg m hm
  rcases erase_ok_cases cfg m m1 it true hr with ⟨hf, _⟩ | ⟨_, b, offset, slot, _, hb, hslot, hz, _⟩
  · cases hf
  · obtain ⟨hpos, _⟩ := bucket_inv_erase cfg _ _ b (hinv.buckets _ b hb) offset slot hslot hz
    have hle := map_inv_size_pos cfg m _ b hinv hb
    exact ⟨by omega, b, hb, hpos⟩

/-! ## The claims -/

theorem slot_at_some (m : concurrent_unordered_map K V) (it : iterator) (slot : item_type K V)
    (h : slot_at m it = some slot) :
    ∃ b offset, m._buckets[it._itb]? = some b ∧ it._offset = some offset ∧
      b.items[offset]? = some slot := by
  unfold slot_at at h
  split at h
  · rename_i b offset hb ho
    exact ⟨b, offset, hb, ho, h⟩
  · cases h

/-- C1: in a reachable state, when `insert((k,v))` returns `(it, true)`, the following
`find(k)` returns `it`, which is not `end()` and designates a slot holding key `k` and
value `v` (key equality being reflexive at `k`). -/
theorem C1_insert_then_find (cfg : config K V) (fuel : Nat)
    (m m1 : concurrent_unordered_map K V) (k : K) (v : V) (it : iterator)
    (hm : reachable cfg m) (hrefl : cfg._key_equal k k = true)
    (hr : insert cfg fuel m (k, v) = .ok (m1, it, true)) :
    find cfg m1 k = .ok it ∧ it ≠ end_ m1 ∧
      ∃ s, slot_at m1 it = some s ∧ s.p.1 = k ∧ s.p.2 = v := by
  obtain ⟨h1, h2, h3⟩ :=
    insert_true_find cfg fuel m m1 (k, v) it (reachable_inv cfg m hm) hrefl hr
  exact ⟨h1, h2, _, h3, rfl, rfl⟩

theorem C1_witness :
    reachable (cfg_of id) state_13 ∧ (cfg_of id)._key_equal 2 2 = true ∧
      insert (cfg_of id) 1 state_13 (2, 7) =
        .ok ({ _size := 3
               _buckets := [{ count := 3
                              items := [{ p := (1, 100), hash := 1 }, { p := (2, 7), hash := 2 },
                                        { p := (3, 300), hash := 3 }]
                              capacity := 4 }]
               buckets_capacity := 1 }, ⟨0, some 1⟩, true) ∧
      find (cfg_of id)
        { _size := 3
          _buckets := [{ count := 3
                         items := [{ p := (1, 100), hash := 1 }, { p := (2, 7), hash := 2 },
                                   { p := (3, 300), hash := 3 }]
                         capacity := 4 }]
          buckets_capacity := 1 } 2 = .ok ⟨0, some 1⟩ :=
  ⟨reachable_state_13, rfl, rfl,
    (C1_insert_then_find (cfg_of id) 1 state_13 _ 2 7 ⟨0, some 1⟩ reachable_state_13 rfl rfl).1⟩

/-- C2: in a reachable state where `find(k)` is not `end()`, `insert((k, v2))` returns
`(find(k), false)` for every `v2` and every positive fuel, and the state it leaves is the
state before the call (the same `_size`, the same buckets with their counts and slot
arrays, hence the same value stored for `k`). -/
theorem C2_insert_existing (cfg : config K V) (fuel : Nat) (m : concurrent_unordered_map K V)
    (k : K) (v2 : V) (it : iterator) (hm : reachable cfg m)
    (hf : find cfg m k = .ok it) (hne : it ≠ end_ m) :
    insert cfg (fuel + 1) m (k, v2) = .ok (m, it, false) :=
  insert_of_find cfg fuel m k v2 it (reachable_inv cfg m hm) hf hne

theorem C2_witness :
    reachable (cfg_of id) state_123 ∧ find (cfg_of id) state_123 3 = .ok ⟨0, some 2⟩ ∧
      (⟨0, some 2⟩ : iterator) ≠ end_ state_123 ∧
      insert (cfg_of id) (0 + 1) state_123 (3, 999) = .ok (state_123, ⟨0, some 2⟩, false) :=
  ⟨reachable_state_123, rfl, by decide,
    C2_insert_existing (cfg_of id) 0 state_123 3 999 ⟨0, some 2⟩ reachable_state_123 rfl
      (by decide)⟩

/-- C3 as stated fails: under the hasher `k / 2` key 0 is stored with hash 0; erasing the
occupied last slot (key 2) pops it and the slot of key 0 with it, so `find(0)` changes from
found to `end()`. -/
theorem C3_counterexample :
    reachable (cfg_of (fun k => k / 2)) state_zero_hash ∧
      slot_at state_zero_hash ⟨0, some 1⟩ = some { p := (2, 21), hash := 1 } ∧
      erase (cfg_of (fun k => k / 2)) state_zero_hash ⟨0, some 1⟩ =
        .ok (state_zero_hash_erased, true) ∧
      (cfg_of (fun k => k / 2))._key_equal 0 2 = false ∧
      find (cfg_of (fun k => k / 2)) state_zero_hash 0 = .ok ⟨0, some 0⟩ ∧
      find (cfg_of (fun k => k / 2)) state_zero_hash_erased 0 =
        .ok (end_ state_zero_hash_erased) :=
  ⟨reachable_state_zero_hash, rfl, rfl, rfl, rfl, rfl⟩

/-- C3, amended: in a reachable state (lawful key equality), for an iterator designating an
in-bounds slot with nonzero stored hash holding key `k`: `erase(it)` returns true, `size()`
and that bucket's count each decrease by exactly 1, the following `find(k)` is `end()`,
and for every other key `k1` whose hash is nonzero `find(k1)` returns the same iterator as
before and the slot it designates is unchanged. -/
theorem C3_erase_occupied (cfg : config K V) (hl : cfg.lawful)
    (m : concurrent_unordered_map K V) (it : iterator) (slot : item_type K V)
    (hm : reachable cfg m) (hs : slot_at m it = some slot) (hz : slot.hash ≠ 0) :
    ∃ m1 b b1, erase cfg m it = .ok (m1, true) ∧ size m1 + 1 = size m ∧
      m._buckets[it._itb]? = some b ∧ m1._buckets[it._itb]? = some b1 ∧
      b1.count + 1 = b.count ∧
      find cfg m1 slot.p.1 = .ok (end_ m1) ∧
      ∀ k1, cfg._key_equal k1 slot.p.1 = false → cfg._hasher k1 ≠ 0 →
        find cfg m1 k1 = find cfg m k1 ∧ end_ m1 = end_ m ∧
        ∀ it1, find cfg m k1 = .ok it1 → slot_at m1 it1 = slot_at m it1 := by
  obtain ⟨b, offset, hb, hoff, hslot⟩ := slot_at_some m it slot hs
  obtain ⟨m1, b1, he, hsz, hlen, hb1, hc, hf, hframe⟩ :=
    erase_slot_spec cfg m it b offset slot (reachable_inv cfg m hm)
      (reachable_unique cfg hl m hm) hb hoff hslot hz
  refine ⟨m1, b, b1, he, hsz, hb, hb1, hc, hf, ?_⟩
  intro k1 hk1 hh1
  obtain ⟨h1, h2⟩ := hframe k1 hk1 hh1
  exact ⟨h1, by simp [end_, hlen], h2⟩

theorem C3_witness :
    reachable (cfg_of id) state_123 ∧
      slot_at state_123 ⟨0, some 1⟩ = some { p := (2, 200), hash := 2 } ∧
      ({ p := (2, 200), hash := 2 } : item_type Nat Nat).hash ≠ 0 ∧
      ∃ m1 b b1, erase (cfg_of id) state_123 ⟨0, some 1⟩ = .ok (m1, true) ∧
        size m1 + 1 = size state_123 ∧
        state_123._buckets[0]? = some b ∧ m1._buckets[0]? = some b1 ∧
        b1.count + 1 = b.count ∧
        find (cfg_of id) m1 2 = .ok (end_ m1) ∧
        ∀ k1, (cfg_of id)._key_equal k1 2 = false → (cfg_of id)._hasher k1 ≠ 0 →
          find (cfg_of id) m1 k1 = find (cfg_of id) state_123 k1 ∧ end_ m1 = end_ state_123 ∧
          ∀ it1, find (cfg_of id) state_123 k1 = .ok it1 →
            slot_at m1 it1 = slot_at state_123 it1 :=
  ⟨reachable_state_123, rfl, by decide,
    C3_erase_occupied (cfg_of id) (cfg_of_lawful id) state_123 ⟨0, some 1⟩
      { p := (2, 200), hash := 2 } reachable_state_123 rfl (by decide)⟩

theorem insert_true_slot (cfg : config K V) (fuel : Nat) (m m1 : concurrent_unordered_map K V)
    (v : K × V) (it : iterator) (hinv : map_inv cfg m)
    (hr : insert cfg fuel m v = .ok (m1, it, true)) :
    slot_at m1 it = some { p := v, hash := cfg._hasher v.1 } ∧ size m1 = size m + 1 ∧
      end_ m1 = end_ m := by
  obtain ⟨hpos, b, b2, x, hb, _, hit, hm, _, hx, _, _, _⟩ :=
    insert_true_spec cfg fuel m m1 v it hinv hr
  refine ⟨?_, by rw [hm]; rfl, by rw [hm]; simp [end_]⟩
  rw [hit, hm]
  unfold slot_at
  have hset : (m._buckets.set (cfg._hasher v.1 % m._buckets.length) b2)[
      cfg._hasher v.1 % m._buckets.length]? = some b2 := by
    rw [List.getElem?_set]
    simp only [if_true, getElem?_lt hb]
  simp only [hset]
  exact hx

theorem find_found_slot (cfg : config K V) (m : concurrent_unordered_map K V) (k : K)
    (it : iterator) (hinv : map_inv cfg m) (hf : find cfg m k = .ok it) (hne : it ≠ end_ m) :
    ∃ s, slot_at m it = some s ∧ s.hash = cfg._hasher k ∧ cfg._key_equal k s.p.1 = true := by
  obtain ⟨_, b, offset, s, hb, hit, _, hs, hm⟩ := find_found cfg m k it hinv hf hne
  refine ⟨s, ?_, ((slot_matches_iff cfg _ _ _).mp hm).1, ((slot_matches_iff cfg _ _ _).mp hm).2⟩
  rw [hit]
  unfold slot_at
  simp only [hb]
  exact hs

/-- C4 as stated fails: under the identity hasher key 0 is absent from the new map; after
`insert((0,5))` the entry sits in a slot with stored hash 0, `erase(find(0))` returns false
and changes nothing, so `size()` is 1 instead of 0 and `find(0)` is not `end()`. -/
theorem C4_counterexample :
    reachable (cfg_of id) (construct Nat Nat 1) ∧
      find (cfg_of id) (construct Nat Nat 1) 0 = .ok (end_ (construct Nat Nat 1)) ∧
      insert (cfg_of id) 1 (construct Nat Nat 1) (0, 5) = .ok (state_key0, ⟨0, some 0⟩, true) ∧
      find (cfg_of id) state_key0 0 = .ok ⟨0, some 0⟩ ∧
      erase (cfg_of id) state_key0 ⟨0, some 0⟩ = .ok (state_key0, false) ∧
      size state_key0 ≠ size (construct Nat Nat 1) ∧
      find (cfg_of id) state_key0 0 ≠ .ok (end_ state_key0) :=
  ⟨reachable.construct 1, rfl, rfl, rfl, rfl, by decide, by
    intro h
    have h1 : find (cfg_of id) state_key0 0 = .ok ⟨0, some 0⟩ := rfl
    rw [h1] at h
    simp only [Except.ok.injEq] at h
    exact absurd h (by decide)⟩

/-- C4, amended: in a reachable state (lawful key equality), for a key `k` with
`hash(k) ≠ 0` that is not present (`find(k) == end()`): whenever `insert((k,v))` returns,
`erase(find(k))` returns true, leaves `size()` equal to its value before the two calls, and
`find(k)` is `end()` again afterwards. -/
theorem C4_insert_erase_roundtrip (cfg : config K V) (hl : cfg.lawful) (fuel : Nat)
    (m m1 : concurrent_unordered_map K V) (k : K) (v : V) (it : iterator) (ins : Bool)
    (hm : reachable cfg m) (hk : cfg._hasher k ≠ 0) (hf : find cfg m k = .ok (end_ m))
    (hr : insert cfg fuel m (k, v) = .ok (m1, it, ins)) :
    find cfg m1 k = .ok it ∧
      ∃ m2, erase cfg m1 it = .ok (m2, true) ∧ size m2 = size m ∧
        find cfg m2 k = .ok (end_ m2) := by
  have hinv := reachable_inv cfg m hm
  have hins : ins = true := by
    cases ins with
    | true => rfl
    | false =>
      obtain ⟨_, h1, h2⟩ := insert_false_spec cfg fuel m m1 (k, v) it hinv hr
      rw [hf] at h1
      simp only [Except.ok.injEq] at h1
      exact absurd h1.symm h2
  subst hins
  have hm1 : reachable cfg m1 := reachable.insert fuel (k, v) (it, true) hm hr
  obtain ⟨h1, _, h3⟩ := insert_true_find cfg fuel m m1 (k, v) it hinv (hl.refl k) hr
  obtain ⟨_, hsz, _⟩ := insert_true_slot cfg fuel m m1 (k, v) it hinv hr
  obtain ⟨b, offset, hb, hoff, hslot⟩ := slot_at_some m1 it _ h3
  obtain ⟨m2, _, he, hsz2, _, _, _, hf2, _⟩ :=
    erase_slot_spec cfg m1 it b offset _ (reachable_inv cfg m1 hm1)
      (reachable_unique cfg hl m1 hm1) hb hoff hslot hk
  refine ⟨h1, m2, he, ?_, hf2⟩
  have hsz2a : size m2 + 1 = size m1 := hsz2
  omega

theorem C4_witness :
    reachable (cfg_of id) state_13 ∧ (cfg_of id)._hasher 2 ≠ 0 ∧
      find (cfg_of id) state_13 2 = .ok (end_ state_13) ∧
      insert (cfg_of id) 1 state_13 (2, 7) =
        .ok ({ _size := 3
               _buckets := [{ count := 3
                              items := [{ p := (1, 100), hash := 1 }, { p := (2, 7), hash := 2 },
                                        { p := (3, 300), hash := 3 }]
                              capacity := 4 }]
               buckets_capacity := 1 }, ⟨0, some 1⟩, true) ∧
      ∃ m2, erase (cfg_of id)
          { _size := 3
            _buckets := [{ count := 3
                           items := [{ p := (1, 100), hash := 1 }, { p := (2, 7), hash := 2 },
                                     { p := (3, 300), hash := 3 }]
                           capacity := 4 }]
            buckets_capacity := 1 } ⟨0, some 1⟩ = .ok (m2, true) ∧
        size m2 = size state_13 ∧ find (cfg_of id) m2 2 = .ok (end_ m2) :=
  ⟨reachable_state_13, by decide, rfl, rfl,
    (C4_insert_erase_roundtrip (cfg_of id) (cfg_of_lawful id) 1 state_13 _ 2 7 ⟨0, some 1⟩ true
      reachable_state_13 (by decide) rfl rfl).2⟩

/-- C6: key uniqueness. In every reachable state (key equality an equivalence relation
under which equal keys hash equally) two slots with nonzero stored hash that hold equal
keys are the same slot: the same bucket and the same offset. -/
theorem C6_key_uniqueness (cfg : config K V) (hl : cfg.lawful)
    (m : concurrent_unordered_map K V) (hm : reachable cfg m) (i j x y : Nat)
    (bi bj : bucket_type K V) (sx sy : item_type K V)
    (hbi : m._buckets[i]? = some bi) (hbj : m._buckets[j]? = some bj)
    (hx : bi.items[x]? = some sx) (hy : bj.items[y]? = some sy)
    (hzx : sx.hash ≠ 0) (hzy : sy.hash ≠ 0)
    (heq : cfg._key_equal sx.p.1 sy.p.1 = true) : i = j ∧ x = y := by
  have hinv := reachable_inv cfg m hm
  obtain ⟨h1, h2⟩ := (hinv.buckets i bi hbi).placed sx (List.getElem?_mem hx) hzx
  obtain ⟨h3, h4⟩ := (hinv.buckets j bj hbj).placed sy (List.getElem?_mem hy) hzy
  have hh := hl.hash_eq _ _ heq
  have hij : i = j := by rw [← h2, ← h4, h1, h3, hh]
  subst hij
  rw [hbi] at hbj
  simp only [Option.some.injEq] at hbj
  subst hbj
  exact ⟨rfl, reachable_unique cfg hl m hm i bi hbi x y sx sy hx hy hzx hzy heq⟩

theorem C6_witness :
    reachable (cfg_of id) state_123 ∧
      state_123._buckets[0]? = some
        { count := 3
          items := [{ p := (1, 100), hash := 1 }, { p := (2, 200), hash := 2 },
                    { p := (3, 300), hash := 3 }]
          capacity := 4 } ∧
      (0 = 0 ∧ 2 = 2) :=
  ⟨reachable_state_123, rfl,
    C6_key_uniqueness (cfg_of id) (cfg_of_lawful id) state_123 reachable_state_123 0 0 2 2 _ _
      { p := (3, 300), hash := 3 } { p := (3, 300), hash := 3 } rfl rfl rfl rfl (by decide)
      (by decide) rfl⟩

/-- C7: placement. In every reachable state every slot with nonzero stored hash holding
key `k` lies in the bucket with index `hash(k) mod bucket_count` and its stored hash is
`hash(k)`. -/
theorem C7_placement (cfg : config K V) (m : concurrent_unordered_map K V)
    (hm : reachable cfg m) (i : Nat) (b : bucket_type K V) (s : item_type K V)
    (hb : m._buckets[i]? = some b) (hs : s ∈ b.items) (hz : s.hash ≠ 0) :
    i = cfg._hasher s.p.1 % m._buckets.length ∧ s.hash = cfg._hasher s.p.1 := by
  obtain ⟨h1, h2⟩ := ((reachable_inv cfg m hm).buckets i b hb).placed s hs hz
  exact ⟨by rw [← h2, h1], h1⟩

theorem C7_witness :
    reachable (cfg_of (fun k => k / 2)) state_zero_hash ∧
      (0 = (cfg_of (fun k => k / 2))._hasher 2 % state_zero_hash._buckets.length ∧
        1 = (cfg_of (fun k => k / 2))._hasher 2) :=
  ⟨reachable_state_zero_hash,
    C7_placement (cfg_of (fun k => k / 2)) state_zero_hash reachable_state_zero_hash 0
      { count := 3, items := [{ p := (0, 1), hash := 0 }, { p := (2, 21), hash := 1 }],
        capacity := 2 }
      { p := (2, 21), hash := 1 } rfl (by simp) (by decide)⟩

/-- C8: at every operation boundary (every reachable state) the map's size counter equals
the sum of the count fields of all its buckets. -/
theorem C8_size_is_sum_of_counts (cfg : config K V) (m : concurrent_unordered_map K V)
    (hm : reachable cfg m) : size m = (m._buckets.map (fun b => b.count)).sum :=
  (reachable_inv cfg m hm).size_eq

theorem C8_witness :
    reachable (cfg_of (fun k => k / 2)) state_zero_hash ∧
      size state_zero_hash = (state_zero_hash._buckets.map (fun b => b.count)).sum :=
  ⟨reachable_state_zero_hash,
    C8_size_is_sum_of_counts (cfg_of (fun k => k / 2)) state_zero_hash
      reachable_state_zero_hash⟩

/-- C9 as stated fails: the code does not canonicalize a zero hash. Under the hasher
`k / 2`, `insert((1,11))` into a new map of two buckets returns `(it, true)` and the slot
it designates holds the live entry for key 1 (found by `find(1)`) with stored hash 0. -/
theorem C9_counterexample :
    insert (cfg_of (fun k => k / 2)) 1 (construct Nat Nat 2) (1, 11) =
        .ok (state_hash0_two, ⟨0, some 0⟩, true) ∧
      slot_at state_hash0_two ⟨0, some 0⟩ = some { p := (1, 11), hash := 0 } ∧
      find (cfg_of (fun k => k / 2)) state_hash0_two 1 = .ok ⟨0, some 0⟩ :=
  ⟨rfl, rfl, rfl⟩

/-- C9, amended: in every reachable state, for every hasher and every key `k` with
`hash(k) ≠ 0`: the hash `insert` writes with `k` is `hash(k)`, so it is not 0, and whenever
`find(k)` reports `k` present the slot it designates has nonzero stored hash. -/
theorem C9_stored_hash_nonzero (cfg : config K V) (m : concurrent_unordered_map K V) (k : K)
    (hm : reachable cfg m) (hk : cfg._hasher k ≠ 0) :
    (∀ fuel m1 v it, insert cfg fuel m (k, v) = .ok (m1, it, true) →
      ∃ s, slot_at m1 it = some s ∧ s.p = (k, v) ∧ s.hash = cfg._hasher k ∧ s.hash ≠ 0) ∧
    (∀ it, find cfg m k = .ok it → it ≠ end_ m →
      ∃ s, slot_at m it = some s ∧ cfg._key_equal k s.p.1 = true ∧ s.hash ≠ 0) := by
  have hinv := reachable_inv cfg m hm
  constructor
  · intro fuel m1 v it hr
    exact ⟨_, (insert_true_slot cfg fuel m m1 (k, v) it hinv hr).1, rfl, rfl, hk⟩
  · intro it hf hne
    obtain ⟨s, h1, h2, h3⟩ := find_found_slot cfg m k it hinv hf hne
    exact ⟨s, h1, h3, by rw [h2]; exact hk⟩

theorem C9_witness :
    reachable (cfg_of id) state_123 ∧ (cfg_of id)._hasher 3 ≠ 0 ∧
      ∃ s, slot_at state_123 ⟨0, some 2⟩ = some s ∧ (cfg_of id)._key_equal 3 s.p.1 = true ∧
        s.hash ≠ 0 :=
  ⟨reachable_state_123, by decide,
    (C9_stored_hash_nonzero (cfg_of id) state_123 3 reachable_state_123 (by decide)).2
      ⟨0, some 2⟩ rfl (by decide)⟩

/-- C10: in every reachable state `find(k)` (a read-only query, the state is not an output)
returns the iterator `(b, i)` with `b = hash(k) mod bucket_count` and `i` the lowest offset
in bucket `b` whose stored hash is `hash(k)` and whose key equals `k`; it returns `end()`
when no offset of that bucket qualifies, and in particular when `size() == 0` or the count
of bucket `b` is 0. -/
theorem C10_find_lowest_match (cfg : config K V) (m : concurrent_unordered_map K V) (k : K)
    (hm : reachable cfg m) :
    (∀ b i s, m._buckets[cfg._hasher k % m._buckets.length]? = some b →
      b.items[i]? = some s → s.hash = cfg._hasher k → cfg._key_equal k s.p.1 = true →
      (∀ j s1, j < i → b.items[j]? = some s1 →
        ¬ (s1.hash = cfg._hasher k ∧ cfg._key_equal k s1.p.1 = true)) →
      find cfg m k = .ok { _itb := cfg._hasher k % m._buckets.length, _offset := some i }) ∧
    ((∀ b, m._buckets[cfg._hasher k % m._buckets.length]? = some b →
        ∀ s ∈ b.items, ¬ (s.hash = cfg._hasher k ∧ cfg._key_equal k s.p.1 = true)) →
      find cfg m k = .ok (end_ m)) ∧
    (size m = 0 → find cfg m k = .ok (end_ m)) ∧
    (∀ b, m._buckets[cfg._hasher k % m._buckets.length]? = some b → b.count = 0 →
      find cfg m k = .ok (end_ m)) := by
  have hinv := reachable_inv cfg m hm
  have hno : ∀ s : item_type K V, ¬ (s.hash = cfg._hasher k ∧ cfg._key_equal k s.p.1 = true) →
      slot_matches cfg k (cfg._hasher k) s = false := by
    intro s hs
    by_contra hne
    simp only [Bool.not_eq_false] at hne
    exact hs ((slot_matches_iff cfg _ _ _).mp hne)
  refine ⟨?_, ?_, ?_, ?_⟩
  · intro b i s hb hs hh hkeq hlow
    exact find_of_first_match cfg m k hinv b i s hb hs
      ((slot_matches_iff cfg _ _ _).mpr ⟨hh, hkeq⟩) (fun j s1 hj hs1 => hno s1 (hlow j s1 hj hs1))
  · intro hall
    exact find_of_no_match cfg m k hinv (fun b hb s hs => hno s (hall b hb s hs))
  · intro hsz
    have hsz1 : m._size = 0 := hsz
    unfold find
    rw [if_pos hsz1]
  · intro b hb hc
    apply find_of_no_match cfg m k hinv
    intro b1 hb1 s hs
    rw [hb] at hb1
    simp only [Option.some.injEq] at hb1
    subst hb1
    rw [bucket_inv_empty_of_count cfg _ _ b (hinv.buckets _ b hb) hc] at hs
    simp at hs

theorem C10_witness :
    reachable (cfg_of id) state_13 ∧
      find (cfg_of id) state_13 3 = .ok { _itb := 0, _offset := some 2 } :=
  ⟨reachable_state_13,
    (C10_find_lowest_match (cfg_of id) state_13 3 reachable_state_13).1
      { count := 2
        items := [{ p := (1, 100), hash := 1 }, { p := (2, 200), hash := 0 },
                  { p := (3, 300), hash := 3 }]
        capacity := 4 } 2 { p := (3, 300), hash := 3 } rfl rfl rfl rfl (by
        intro j s1 hj hs1 hc
        have hj2 : j = 0 ∨ j = 1 := by omega
        rcases hj2 with h0 | h1
        · subst h0
          simp only [List.getElem?_cons_zero, Option.some.injEq] at hs1
          subst hs1
          exact absurd hc.1 (by decide)
        · subst h1
          simp only [List.getElem?_cons_succ, List.getElem?_cons_zero, Option.some.injEq] at hs1
          subst hs1
          exact absurd hc.1 (by decide))⟩

/-! ## Sequences of operations against the key-list model -/

theorem find_loop_key_congr (cfg : config K V) (k k1 : K) (h : Nat)
    (hk : ∀ x, cfg._key_equal k x = cfg._key_equal k1 x) (items : List (item_type K V))
    (offset : Nat) : find_loop cfg k h items offset = find_loop cfg k1 h items offset := by
  induction items generalizing offset with
  | nil => rfl
  | cons it rest ih =>
    simp only [find_loop, hk, ih]

theorem key_equal_congr (cfg : config K V) (hl : cfg.lawful) (k k1 : K)
    (hk : cfg._key_equal k k1 = true) : ∀ x, cfg._key_equal k x = cfg._key_equal k1 x := by
  intro x
  cases h1 : cfg._key_equal k1 x with
  | true => exact hl.trans _ _ _ hk h1
  | false =>
    by_contra hne
    simp only [Bool.not_eq_false] at hne
    rw [hl.trans _ _ _ (hl.symm _ _ hk) hne] at h1
    cases h1

theorem find_key_congr (cfg : config K V) (hl : cfg.lawful) (m : concurrent_unordered_map K V)
    (k k1 : K) (hk : cfg._key_equal k k1 = true) : find cfg m k = find cfg m k1 := by
  unfold find
  simp only [hl.hash_eq _ _ hk,
    find_loop_key_congr cfg k k1 _ (key_equal_congr cfg hl k k1 hk)]

theorem find_returns (cfg : config K V) (m : concurrent_unordered_map K V) (k : K)
    (hinv : map_inv cfg m) : ∃ it, find cfg m k = .ok it := by
  rcases find_spec cfg m k hinv with ⟨_, hf⟩ | ⟨_, _, _, hf⟩
  · exact ⟨_, hf⟩
  · exact ⟨_, hf⟩

theorem insert_true_absent (cfg : config K V) (fuel : Nat) (m m1 : concurrent_unordered_map K V)
    (v : K × V) (it : iterator) (hinv : map_inv cfg m)
    (hr : insert cfg fuel m v = .ok (m1, it, true)) : find cfg m v.1 = .ok (end_ m) := by
  obtain ⟨_, b, _, _, hb, hnomatch, _⟩ := insert_true_spec cfg fuel m m1 v it hinv hr
  apply find_of_no_match cfg m v.1 hinv
  intro b1 hb1
  rw [hb] at hb1
  simp only [Option.some.injEq] at hb1
  subst hb1
  exact hnomatch

theorem insert_true_frame (cfg : config K V) (fuel : Nat) (m m1 : concurrent_unordered_map K V)
    (v : K × V) (it : iterator) (hinv : map_inv cfg m)
    (hr : insert cfg fuel m v = .ok (m1, it, true)) (k1 : K)
    (hk1 : cfg._key_equal k1 v.1 = false) (hh1 : cfg._hasher k1 ≠ 0) :
    find cfg m1 k1 = find cfg m k1 ∧
      ∀ it1, find cfg m k1 = .ok it1 → slot_at m1 it1 = slot_at m it1 := by
  have hinv1 := map_inv_insert cfg fuel m m1 v (it, true) hinv hr
  obtain ⟨_, b, b2, x, hb, _, _, hm, _, _, hupd, hkeep, hold⟩ :=
    insert_true_spec cfg fuel m m1 v it hinv hr
  have hnotx : ∀ (i : Nat) (s : item_type K V), b.items[i]? = some s →
      slot_matches cfg k1 (cfg._hasher k1) s = true → i ≠ x := by
    intro i s hs hmatch hix
    subst hix
    have := hold s hs
    rw [((slot_matches_iff cfg _ _ _).mp hmatch).1] at this
    exact hh1 this
  subst hm
  refine ⟨find_set_bucket cfg m k1 _ _ b b2 hinv hinv1 hb ?_, ?_⟩
  · intro _
    apply find_loop_congr
    · intro i s hs hmatch
      rcases hupd i s hs with ⟨_, hnew⟩ | ⟨_, hsi⟩
      · rw [hnew] at hmatch
        have := ((slot_matches_iff cfg _ _ _).mp hmatch).2
        rw [hk1] at this; cases this
      · exact hsi
    · intro i s hs hmatch
      exact hkeep i s (hnotx i s hs hmatch) hs
  · intro it1 hf1
    apply slot_at_set_bucket m _ _ b b2 it1 hb
    intro hitb o ho
    by_cases hend : it1 = end_ m
    · rw [hend] at ho
      simp [end_] at ho
    · obtain ⟨_, b5, o5, s5, hb5, hit5, _, hs5, hm5⟩ := find_found cfg m k1 it1 hinv hf1 hend
      rw [hit5] at hitb ho
      simp only at hitb
      simp only [Option.some.injEq] at ho
      subst ho
      rw [hitb, hb] at hb5
      simp only [Option.some.injEq] at hb5
      subst hb5
      rw [hs5]
      exact hkeep o5 s5 (hnotx o5 s5 hs5 hm5) hs5

theorem any_key_congr (cfg : config K V) (hl : cfg.lawful) (k k1 : K) (l : List K)
    (hk : cfg._key_equal k k1 = true) :
    l.any (fun x => cfg._key_equal k x) = l.any (fun x => cfg._key_equal k1 x) := by
  have := key_equal_congr cfg hl k k1 hk
  simp only [this]

theorem filter_other_keys_length (cfg : config K V) (hl : cfg.lawful) (k : K) (l : List K)
    (hp : l.Pairwise (fun a b => cfg._key_equal a b = false))
    (hany : l.any (fun x => cfg._key_equal k x) = true) :
    (l.filter (fun x => !cfg._key_equal k x)).length + 1 = l.length := by
  induction l with
  | nil => simp at hany
  | cons a t ih =>
    rw [List.pairwise_cons] at hp
    obtain ⟨ha, ht⟩ := hp
    cases hka : cfg._key_equal k a with
    | true =>
      have hall : ∀ b ∈ t, cfg._key_equal k b = false := by
        intro b hb
        by_contra hne
        simp only [Bool.not_eq_false] at hne
        have := hl.trans _ _ _ (hl.symm _ _ hka) hne
        rw [ha b hb] at this; cases this
      have hfilt : t.filter (fun x => !cfg._key_equal k x) = t := by
        rw [List.filter_eq_self]
        intro b hb
        simp [hall b hb]
      simp [List.filter_cons, hka, hfilt]
    | false =>
      have hany1 : t.any (fun x => cfg._key_equal k x) = true := by
        simpa [List.any_cons, hka] using hany
      have := ih ht hany1
      simp only [List.filter_cons, hka, Bool.not_false, if_true, List.length_cons]
      omega

theorem any_filter_other_keys (cfg : config K V) (hl : cfg.lawful) (k k1 : K) (l : List K) :
    (l.filter (fun x => !cfg._key_equal k x)).any (fun x => cfg._key_equal k1 x) =
      (l.any (fun x => cfg._key_equal k1 x) && !cfg._key_equal k k1) := by
  induction l with
  | nil => simp
  | cons a t ih =>
    cases hkk : cfg._key_equal k k1 with
    | true =>
      have hc := key_equal_congr cfg hl k k1 hkk
      rw [hkk] at ih
      simp only [Bool.not_true, Bool.and_false] at ih ⊢
      simp only [List.filter_cons]
      cases hka : cfg._key_equal k a with
      | true => simpa using ih
      | false =>
        simp only [Bool.not_false, if_true, List.any_cons, ih, Bool.or_false]
        rw [← hc, hka]
    | false =>
      rw [hkk] at ih
      simp only [Bool.not_false, Bool.and_true] at ih ⊢
      simp only [List.filter_cons]
      cases hka : cfg._key_equal k a with
      | true =>
        simp only [Bool.not_true, Bool.false_eq_true, if_false, ih, List.any_cons]
        have : cfg._key_equal k1 a = false := by
          by_contra hne
          simp only [Bool.not_eq_false] at hne
          rw [hl.trans _ _ _ hka (hl.symm _ _ hne)] at hkk
          cases hkk
        simp [this]
      | false => simp [List.any_cons, ih]

theorem models_construct (cfg : config K V) (n : Nat) : models cfg (construct K V n) [] where
  reach := reachable.construct n
  size_eq := rfl
  distinct := List.Pairwise.nil
  absent_iff := by
    intro k
    constructor
    · intro _; rfl
    · intro _; rfl

theorem models_insert (cfg : config K V) (hl : cfg.lawful) (hnz : ∀ k, cfg._hasher k ≠ 0)
    (fuel : Nat) (m m1 : concurrent_unordered_map K V) (l : List K) (k : K) (v : V)
    (r : iterator × Bool) (hmod : models cfg m l)
    (hr : insert cfg fuel m (k, v) = .ok (m1, r)) :
    models cfg m1 (if l.any (fun x => cfg._key_equal k x) then l else k :: l) := by
  have hinv := reachable_inv cfg m hmod.reach
  obtain ⟨it, ins⟩ := r
  cases ins with
  | false =>
    obtain ⟨h1, h2, h3⟩ := insert_false_spec cfg fuel m m1 (k, v) it hinv hr
    have hany : l.any (fun x => cfg._key_equal k x) = true := by
      by_contra hne
      simp only [Bool.not_eq_true] at hne
      have := (hmod.absent_iff k).mpr hne
      rw [h2] at this
      simp only [Except.ok.injEq] at this
      exact h3 this
    rw [hany, h1]
    exact hmod
  | true =>
    have habs := insert_true_absent cfg fuel m m1 (k, v) it hinv hr
    have hany : l.any (fun x => cfg._key_equal k x) = false := (hmod.absent_iff k).mp habs
    obtain ⟨hf1, hne1, _⟩ := insert_true_find cfg fuel m m1 (k, v) it hinv (hl.refl k) hr
    obtain ⟨_, hsz, hend⟩ := insert_true_slot cfg fuel m m1 (k, v) it hinv hr
    rw [hany]
    simp only [Bool.false_eq_true, if_false]
    exact {
      reach := reachable.insert fuel (k, v) (it, true) hmod.reach hr
      size_eq := by
        have hsz1 : m1._size = m._size + 1 := hsz
        rw [hsz1, hmod.size_eq]
        rfl
      distinct := by
        rw [List.pairwise_cons]
        refine ⟨?_, hmod.distinct⟩
        intro x hx
        by_contra hne
        simp only [Bool.not_eq_false] at hne
        have : l.any (fun x => cfg._key_equal k x) = true :=
          List.any_eq_true.mpr ⟨x, hx, hne⟩
        rw [hany] at this; cases this
      absent_iff := by
        intro k1
        simp only [List.any_cons, Bool.or_eq_false_iff]
        cases hk1 : cfg._key_equal k1 k with
        | true =>
          constructor
          · intro hfe
            rw [find_key_congr cfg hl m1 k1 k hk1, hf1] at hfe
            simp only [Except.ok.injEq] at hfe
            exact absurd hfe hne1
          · intro h; cases h.1
        | false =>
          obtain ⟨hfr, _⟩ :=
            insert_true_frame cfg fuel m m1 (k, v) it hinv hr k1 hk1 (hnz k1)
          rw [hfr, hend]
          constructor
          · intro hfe; exact ⟨rfl, (hmod.absent_iff k1).mp hfe⟩
          · intro h; exact (hmod.absent_iff k1).mpr h.2 }

theorem models_erase_find (cfg : config K V) (hl : cfg.lawful) (hnz : ∀ k, cfg._hasher k ≠ 0)
    (m m1 : concurrent_unordered_map K V) (l : List K) (k : K) (it : iterator) (r : Bool)
    (hmod : models cfg m l) (hf : find cfg m k = .ok it)
    (hr : erase cfg m it = .ok (m1, r)) :
    models cfg m1 (l.filter (fun x => !cfg._key_equal k x)) := by
  have hinv := reachable_inv cfg m hmod.reach
  by_cases hend : it = end_ m
  · have hm1 : m1 = m := by
      unfold erase at hr
      rw [if_pos hend] at hr
      simp only [Except.ok.injEq, Prod.mk.injEq] at hr
      exact hr.1.symm
    have hany : l.any (fun x => cfg._key_equal k x) = false :=
      (hmod.absent_iff k).mp (by rw [hf, hend])
    have hfilt : l.filter (fun x => !cfg._key_equal k x) = l := by
      rw [List.filter_eq_self]
      intro x hx
      have hx1 : cfg._key_equal k x = false := by
        by_contra hne
        simp only [Bool.not_eq_false] at hne
        have : l.any (fun x => cfg._key_equal k x) = true :=
          List.any_eq_true.mpr ⟨x, hx, hne⟩
        rw [hany] at this; cases this
      simp [hx1]
    rw [hm1, hfilt]
    exact hmod
  · obtain ⟨s, hs, hsh, hks⟩ := find_found_slot cfg m k it hinv hf hend
    obtain ⟨b, offset, hb, hoff, hslot⟩ := slot_at_some m it s hs
    have hz : s.hash ≠ 0 := by rw [hsh]; exact hnz k
    obtain ⟨m2, _, he, hsz, hlen, _, _, hfe, hframe⟩ :=
      erase_slot_spec cfg m it b offset s hinv (reachable_unique cfg hl m hmod.reach)
        hb hoff hslot hz
    rw [he] at hr
    simp only [Except.ok.injEq, Prod.mk.injEq] at hr
    obtain ⟨hm2, _⟩ := hr
    subst hm2
    have hany : l.any (fun x => cfg._key_equal k x) = true := by
      by_contra hne
      simp only [Bool.not_eq_true] at hne
      have := (hmod.absent_iff k).mpr hne
      rw [hf] at this
      simp only [Except.ok.injEq] at this
      exact hend this
    have hlen1 := filter_other_keys_length cfg hl k l hmod.distinct hany
    have hendeq : end_ m2 = end_ m := by simp [end_, hlen]
    exact {
      reach := reachable.erase it true hmod.reach he
      size_eq := by
        have := hmod.size_eq
        omega
      distinct := hmod.distinct.filter _
      absent_iff := by
        intro k1
        rw [any_filter_other_keys cfg hl k k1 l]
        cases hkk : cfg._key_equal k k1 with
        | true =>
          simp only [Bool.not_true, Bool.and_false, iff_true]
          rw [find_key_congr cfg hl m2 k1 s.p.1
            (hl.trans _ _ _ (hl.symm _ _ hkk) hks)]
          exact hfe
        | false =>
          have hk1s : cfg._key_equal k1 s.p.1 = false := by
            by_contra hne
            simp only [Bool.not_eq_false] at hne
            rw [hl.trans _ _ _ hks (hl.symm _ _ hne)] at hkk
            cases hkk
          obtain ⟨hfr, _⟩ := hframe k1 hk1s (hnz k1)
          simp only [Bool.not_false, Bool.and_true]
          rw [hfr, hendeq]
          exact hmod.absent_iff k1 }

theorem models_run (cfg : config K V) (hl : cfg.lawful) (hnz : ∀ k, cfg._hasher k ≠ 0)
    (fuel : Nat) (ops : List (op K V)) (m m1 : concurrent_unordered_map K V) (l : List K)
    (hmod : models cfg m l) (hr : run cfg fuel m ops = .ok m1) :
    models cfg m1 (live_keys cfg l ops) := by
  induction ops generalizing m l with
  | nil =>
    simp only [run, Except.ok.injEq] at hr
    subst hr
    exact hmod
  | cons o rest ih =>
    cases o with
    | insert k v =>
      simp only [run] at hr
      split at hr
      · cases hr
      · rename_i m2 r hins
        exact ih m2 _ (models_insert cfg hl hnz fuel m m2 l k v r hmod hins) hr
    | erase_find k =>
      simp only [run] at hr
      split at hr
      · cases hr
      · rename_i it hf
        split at hr
        · cases hr
        · rename_i m2 r he
          exact ih m2 _ (models_erase_find cfg hl hnz m m2 l k it r hmod hf he) hr

theorem live_keys_any (cfg : config K V) (hl : cfg.lawful) (ops : List (op K V)) (l : List K)
    (k : K) :
    (live_keys cfg l ops).any (fun x => cfg._key_equal k x) =
      ((l.any (fun x => cfg._key_equal k x) && !erased_later cfg k ops) ||
        inserted_not_erased cfg k ops) := by
  induction ops generalizing l with
  | nil => simp [live_keys, erased_later, inserted_not_erased]
  | cons o rest ih =>
    cases o with
    | insert k1 v =>
      have hel : erased_later cfg k (op.insert k1 v :: rest) = erased_later cfg k rest := by
        simp [erased_later]
      simp only [live_keys, inserted_not_erased, hel]
      rw [ih]
      cases hany1 : l.any (fun x => cfg._key_equal k1 x) with
      | true =>
        simp only [if_true]
        cases hkk : cfg._key_equal k k1 with
        | true =>
          rw [any_key_congr cfg hl k k1 l hkk, hany1]
          simp
        | false => simp
      | false =>
        simp only [Bool.false_eq_true, if_false, List.any_cons]
        cases cfg._key_equal k k1 <;> cases l.any (fun x => cfg._key_equal k x) <;>
          cases erased_later cfg k rest <;> simp
    | erase_find k1 =>
      have hel : erased_later cfg k (op.erase_find k1 :: rest) =
          (cfg._key_equal k1 k || erased_later cfg k rest) := by
        simp [erased_later]
      simp only [live_keys, inserted_not_erased, hel]
      rw [ih, any_filter_other_keys cfg hl k1 k l]
      cases cfg._key_equal k1 k <;> cases l.any (fun x => cfg._key_equal k x) <;>
        cases erased_later cfg k rest <;> simp

theorem insert_scan_returns (cfg : config K V) (n i : Nat) (fuel : Nat) (b : bucket_type K V)
    (k : K) (startlow : Bool) (hinv : bucket_inv cfg n i b) (hk : cfg._hasher k ≠ 0)
    (hcf : collision_free cfg) :
    ∃ r, insert_scan cfg (fuel + 1) b k (cfg._hasher k) startlow = some r := by
  unfold insert_scan
  split
  · split
    · exact ⟨_, rfl⟩
    · simp only [scan_high]
      rcases hres : scan_high_inner cfg k (cfg._hasher k) b.items b.items.length none with
        ⟨a, e1⟩
      rcases a with _ | ⟨offset, eq⟩
      · exact ⟨_, rfl⟩
      · obtain ⟨_, s, hs, hsh, heq, _⟩ :=
          scan_high_inner_some cfg k _ b.items b.items.length none e1 offset eq hres
        have hplaced := (hinv.placed s (List.getElem?_mem hs) (by rw [hsh]; exact hk)).1
        have hkeq := hcf k s.p.1 (by rw [← hplaced, hsh])
        rw [hkeq] at heq
        subst heq
        exact ⟨_, rfl⟩
  · split <;> exact ⟨_, rfl⟩

theorem insert_place_returns (b : bucket_type K V) (v : K × V) (h : Nat) (e : Option Nat)
    (he : ∀ x, e = some x → ∃ s, b.items[x]? = some s ∧ s.hash = 0) :
    ∃ r, insert_place b v h e = .ok r := by
  unfold insert_place
  split
  · rename_i x
    obtain ⟨s, hs, _⟩ := he x rfl
    rw [hs]
    simp only
    split <;> exact ⟨_, rfl⟩
  · exact ⟨_, rfl⟩

theorem insert_returns (cfg : config K V) (fuel : Nat) (m : concurrent_unordered_map K V)
    (v : K × V) (hinv : map_inv cfg m) (hpos : 0 < m._buckets.length)
    (hk : cfg._hasher v.1 ≠ 0) (hcf : collision_free cfg) :
    ∃ r, insert cfg (fuel + 1) m v = .ok r := by
  obtain ⟨b, hb⟩ := bucket_lookup m (cfg._hasher v.1) hpos
  have hbinv := hinv.buckets _ b hb
  obtain ⟨r, hscan⟩ := insert_scan_returns cfg _ _ fuel b v.1
    (((cfg._hasher v.1 / m._buckets.length) &&& 1) == 0) hbinv hk hcf
  unfold insert
  simp only [get_bucket_pos m _ hpos, hb, hscan]
  rcases r with ⟨hit, e⟩
  cases hit with
  | some offset => exact ⟨_, rfl⟩
  | none =>
    obtain ⟨_, _, hempty, _⟩ :=
      insert_scan_miss cfg _ _ (fuel + 1) b v.1 _ _ _ hbinv hscan rfl
    obtain ⟨⟨b1, offset⟩, hplace⟩ := insert_place_returns b v (cfg._hasher v.1) e hempty
    simp only [hplace]
    cases offset <;> exact ⟨_, rfl⟩

theorem insert_length (cfg : config K V) (fuel : Nat) (m m1 : concurrent_unordered_map K V)
    (v : K × V) (r : iterator × Bool) (hr : insert cfg fuel m v = .ok (m1, r)) :
    m1._buckets.length = m._buckets.length := by
  obtain ⟨it, ins⟩ := r
  obtain ⟨_, b, _, sr, _, hcase⟩ := insert_ok_cases cfg fuel m m1 v it ins hr
  rcases hcase with ⟨_, _, hm, _, _⟩ | ⟨_, _, _, _, _, hm, _⟩
  · rw [hm]
  · rw [hm]; simp

theorem erase_length (cfg : config K V) (m m1 : concurrent_unordered_map K V) (it : iterator)
    (r : Bool) (hr : erase cfg m it = .ok (m1, r)) :
    m1._buckets.length = m._buckets.length := by
  rcases erase_ok_cases cfg m m1 it r hr with ⟨_, hm⟩ | ⟨_, _, _, _, _, _, _, _, hm⟩
  · rw [hm]
  · rw [hm]; simp

theorem erase_find_returns (cfg : config K V) (m : concurrent_unordered_map K V) (k : K)
    (hinv : map_inv cfg m) :
    ∃ it r, find cfg m k = .ok it ∧ erase cfg m it = .ok r := by
  obtain ⟨it, hf⟩ := find_returns cfg m k hinv
  refine ⟨it, ?_⟩
  by_cases hend : it = end_ m
  · refine ⟨(m, false), hf, ?_⟩
    unfold erase
    rw [if_pos hend]
  · obtain ⟨_, b, offset, s, hb, hit, _, hs, _⟩ := find_found cfg m k it hinv hf hend
    subst hit
    have he : ∃ r, erase cfg m
        { _itb := cfg._hasher k % m._buckets.length, _offset := some offset } = .ok r := by
      unfold erase
      rw [if_neg hend]
      simp only [hb, hs]
      split <;> exact ⟨_, rfl⟩
    obtain ⟨r, he⟩ := he
    exact ⟨r, hf, he⟩

theorem run_returns (cfg : config K V) (hnz : ∀ k, cfg._hasher k ≠ 0)
    (hcf : collision_free cfg) (fuel : Nat) (ops : List (op K V))
    (m : concurrent_unordered_map K V) (hm : reachable cfg m) (hpos : 0 < m._buckets.length) :
    ∃ m1, run cfg (fuel + 1) m ops = .ok m1 := by
  induction ops generalizing m with
  | nil => exact ⟨m, rfl⟩
  | cons o rest ih =>
    cases o with
    | insert k v =>
      obtain ⟨⟨m2, r⟩, hins⟩ :=
        insert_returns cfg fuel m (k, v) (reachable_inv cfg m hm) hpos (hnz k) hcf
      simp only [run, hins]
      exact ih m2 (reachable.insert (fuel + 1) (k, v) r hm hins)
        (by rw [insert_length cfg _ m m2 (k, v) r hins]; exact hpos)
    | erase_find k =>
      obtain ⟨it, ⟨m2, r⟩, hf, he⟩ := erase_find_returns cfg m k (reachable_inv cfg m hm)
      simp only [run, hf, he]
      exact ih m2 (reachable.erase it r hm he)
        (by rw [erase_length cfg m m2 it r he]; exact hpos)

theorem construct_default_eq (K V : Type) : construct_default K V = construct K V 13 := rfl

/-- C5: with a hasher that never returns 0 (lawful key equality), after every sequence of
`insert(k,v)` and `erase(find(k))` operations that runs to its end on a newly constructed
map, `size()` is the number of distinct keys that were inserted and not subsequently
erased: the length of a list of pairwise different keys whose members are exactly those
keys. With a collision-free hasher every sequence runs to its end, for every positive
fuel. -/
theorem C5_size_counts_live_keys (cfg : config K V) (hl : cfg.lawful)
    (hnz : ∀ k, cfg._hasher k ≠ 0) (ops : List (op K V))
    (m0 : concurrent_unordered_map K V)
    (h0 : m0 = construct_default K V ∨ ∃ n, m0 = construct K V n) :
    (∀ fuel m, run cfg fuel m0 ops = .ok m →
      size m = (live_keys cfg [] ops).length ∧
      (live_keys cfg [] ops).Pairwise (fun a b => cfg._key_equal a b = false) ∧
      ∀ k, (live_keys cfg [] ops).any (fun x => cfg._key_equal k x) =
        inserted_not_erased cfg k ops) ∧
    (collision_free cfg → ∀ fuel, ∃ m, run cfg (fuel + 1) m0 ops = .ok m) := by
  obtain ⟨n, hn⟩ : ∃ n, m0 = construct K V n := by
    rcases h0 with h | h
    · exact ⟨13, by rw [h, construct_default_eq]⟩
    · exact h
  subst hn
  constructor
  · intro fuel m hr
    have hmod := models_run cfg hl hnz fuel ops _ m [] (models_construct cfg n) hr
    refine ⟨hmod.size_eq, hmod.distinct, ?_⟩
    intro k
    rw [live_keys_any cfg hl ops [] k]
    simp
  · intro hcf fuel
    apply run_returns cfg hnz hcf fuel ops _ (reachable.construct n)
    show 0 < (List.replicate (if n > 0 then n else 1) (bucket_type.fresh K V)).length
    rw [List.length_replicate]
    split <;> omega

theorem C5_witness :
    (∀ k, (cfg_of (fun k => k + 1))._hasher k ≠ 0) ∧
      (construct Nat Nat 1 = construct_default Nat Nat ∨
        ∃ n, construct Nat Nat 1 = construct Nat Nat n) ∧
      run (cfg_of (fun k => k + 1)) 1 (construct Nat Nat 1)
          [op.insert 1 100, op.insert 2 200, op.insert 3 300, op.erase_find 2, op.insert 3 7] =
        .ok { _size := 2
              _buckets := [{ count := 2
                             items := [{ p := (1, 100), hash := 2 }, { p := (2, 200), hash := 0 },
                                       { p := (3, 300), hash := 4 }]
                             capacity := 4 }]
              buckets_capacity := 1 } ∧
      (2 : Nat) = (live_keys (cfg_of (fun k => k + 1)) []
          [op.insert 1 100, op.insert 2 200, op.insert 3 300, op.erase_find 2,
            op.insert 3 7]).length :=
  ⟨fun k => Nat.succ_ne_zero k, Or.inr ⟨1, rfl⟩, rfl,
    ((C5_size_counts_live_keys (cfg_of (fun k => k + 1)) (cfg_of_lawful _)
      (fun k => Nat.succ_ne_zero k)
      [op.insert 1 100, op.insert 2 200, op.insert 3 300, op.erase_find 2, op.insert 3 7]
      (construct Nat Nat 1) (Or.inr ⟨1, rfl⟩)).1 1
      { _size := 2
        _buckets := [{ count := 2
                       items := [{ p := (1, 100), hash := 2 }, { p := (2, 200), hash := 0 },
                                 { p := (3, 300), hash := 4 }]
                       capacity := 4 }]
        buckets_capacity := 1 } rfl).1⟩

/-! ## `erase`, `clear`, `reserve` and the constructors -/

theorem reachable_state_emptied : reachable (cfg_of id) state_emptied :=
  reachable.erase ⟨0, some 0⟩ true
    (reachable.insert 1 (1, 100) (⟨0, some 0⟩, true) (reachable.construct 1) rfl) rfl

theorem erase_twice (cfg : config K V) (m m1 : concurrent_unordered_map K V) (it : iterator)
    (r : Bool) (hr : erase cfg m it = .ok (m1, r)) : erase cfg m1 it = .ok (m1, false) := by
  rcases erase_ok_cases cfg m m1 it r hr with ⟨hf, hm⟩ | ⟨_, b, offset, slot, hoff, hb, _, _, hm⟩
  · subst hm; subst hf; exact hr
  · have hlt := getElem?_lt hb
    have hne : it ≠ end_ m1 := by
      intro h
      rw [h] at hoff
      simp [end_] at hoff
    have hb1 : m1._buckets[it._itb]? =
        some { b with items := erase_section cfg b.items offset slot, count := b.count - 1 } := by
      rw [hm]
      show (m._buckets.set it._itb _)[it._itb]? = _
      rw [List.getElem?_set]
      simp only [if_true, hlt]
    unfold erase
    rw [if_neg hne]
    simp only [hb1, hoff]
    cases hs : (erase_section cfg b.items offset slot)[offset]? with
    | none => rfl
    | some s =>
      rcases erase_section_getElem? cfg b.items offset slot s offset hs with ⟨_, h0⟩ | ⟨h1, _⟩
      · subst h0
        simp
      · exact absurd rfl h1

/-- C11: `erase(it)` returns false and leaves the whole map as it was when `it == end()`,
when the offset of `it` is past the end of its bucket's slot array (`(size_t)-1` included)
and when the designated slot has stored hash 0; and after any `erase(it)` that returned, a
second `erase(it)` returns false and changes nothing. -/
theorem C11_erase_noop (cfg : config K V) (m : concurrent_unordered_map K V) :
    erase cfg m (end_ m) = .ok (m, false) ∧
    (∀ it b, m._buckets[it._itb]? = some b → it._offset = none →
      erase cfg m it = .ok (m, false)) ∧
    (∀ it b o, m._buckets[it._itb]? = some b → it._offset = some o → b.items.length ≤ o →
      erase cfg m it = .ok (m, false)) ∧
    (∀ it b o s, m._buckets[it._itb]? = some b → it._offset = some o →
      b.items[o]? = some s → s.hash = 0 → erase cfg m it = .ok (m, false)) ∧
    (∀ it m1 r, erase cfg m it = .ok (m1, r) → erase cfg m1 it = .ok (m1, false)) := by
  refine ⟨?_, ?_, ?_, ?_, ?_⟩
  · unfold erase
    rw [if_pos rfl]
  · intro it b hb hoff
    unfold erase
    split
    · rfl
    · simp only [hb, hoff]
  · intro it b o hb hoff hlen
    unfold erase
    split
    · rfl
    · simp only [hb, hoff, List.getElem?_eq_none_iff.mpr hlen]
  · intro it b o s hb hoff hs hz
    unfold erase
    split
    · rfl
    · simp only [hb, hoff, hs, hz, ne_eq, not_true_eq_false, if_false]
  · intro it m1 r hr
    exact erase_twice cfg m m1 it r hr

theorem C11_witness :
    erase (cfg_of id) state_123 ⟨0, some 1⟩ = .ok (state_13, true) ∧
      erase (cfg_of id) state_13 ⟨0, some 1⟩ = .ok (state_13, false) :=
  ⟨rfl, (C11_erase_noop (cfg_of id) state_123).2.2.2.2 ⟨0, some 1⟩ state_13 true rfl⟩

theorem resize_length (cfg : config K V) (m : concurrent_unordered_map K V) (n : Nat) :
    (resize cfg m n)._buckets.length = n := by
  unfold resize
  split
  · rename_i h
    show (m._buckets.take n).length = n
    rw [List.length_take]
    omega
  · rename_i h
    split
    · show (m._buckets ++ List.replicate (n - m._buckets.length) (bucket_type.fresh K V)).length = n
      rw [List.length_append, List.length_replicate]
      omega
    · show (List.replicate n (bucket_type.fresh K V)).length = n
      rw [List.length_replicate]

theorem reserve_state_agrees (cfg : config K V) (m : concurrent_unordered_map K V) (n : Nat) :
    reserve cfg m n =
      (match (reserve_state cfg m n).2 with
       | some e => .error e
       | none => .ok (reserve_state cfg m n).1) := by
  unfold reserve reserve_state
  split <;> rfl

/-- C12: `reserve(n)` throws exactly when `size() != 0`, and a throwing call leaves the
state it found (bucket sequence and contents); in a reachable state a call that does not
throw leaves exactly `n` buckets, `size() == 0`, and every bucket with count 0 and an
empty slot array (so no occupied slot). -/
theorem C12_reserve (cfg : config K V) (m : concurrent_unordered_map K V) (n : Nat) :
    (reserve cfg m n = .error .runtime_error ↔ size m ≠ 0) ∧
    ((∃ m1, reserve cfg m n = .ok m1) ↔ size m = 0) ∧
    (size m ≠ 0 → reserve_state cfg m n = (m, some .runtime_error)) ∧
    (reachable cfg m → ∀ m1, reserve cfg m n = .ok m1 →
      reserve_state cfg m n = (m1, none) ∧ m1._buckets.length = n ∧ size m1 = 0 ∧
      ∀ b ∈ m1._buckets, b.count = 0 ∧ b.items = [] ∧ occupied b.items = 0) := by
  refine ⟨?_, ?_, ?_, ?_⟩
  · unfold reserve size
    constructor
    · intro h
      split at h
      · assumption
      · cases h
    · intro h
      rw [if_pos h]
  · unfold reserve size
    constructor
    · rintro ⟨m1, h⟩
      split at h
      · cases h
      · rename_i hsz
        simpa using hsz
    · intro h
      exact ⟨_, by rw [if_neg (by simpa using h)]⟩
  · intro h
    have h1 : m._size ≠ 0 := h
    unfold reserve_state
    rw [if_pos h1]
  · intro hm m1 hr
    obtain ⟨hsz, hm1⟩ := reserve_ok cfg m m1 n hr
    obtain ⟨h1, h2⟩ := resize_empty cfg m n (reachable_inv cfg m hm) hsz
    subst hm1
    refine ⟨?_, resize_length cfg m n, h1, ?_⟩
    · unfold reserve_state
      rw [if_neg (by simpa using hsz)]
    · intro b hb
      obtain ⟨hc, hi⟩ := h2 b hb
      exact ⟨hc, hi, by rw [hi]; rfl⟩

theorem C12_witness :
    reachable (cfg_of id) state_emptied ∧
      reserve (cfg_of id) state_emptied 3 =
        .ok { _size := 0
              _buckets := [bucket_type.fresh Nat Nat, bucket_type.fresh Nat Nat,
                           bucket_type.fresh Nat Nat]
              buckets_capacity := 3 } ∧
      ({ _size := 0
         _buckets := [bucket_type.fresh Nat Nat, bucket_type.fresh Nat Nat,
                      bucket_type.fresh Nat Nat]
         buckets_capacity := 3 } : concurrent_unordered_map Nat Nat)._buckets.length = 3 ∧
      size state_123 ≠ 0 ∧
      reserve_state (cfg_of id) state_123 64 = (state_123, some .runtime_error) :=
  ⟨reachable_state_emptied, rfl,
    ((C12_reserve (cfg_of id) state_emptied 3).2.2.2 reachable_state_emptied _ rfl).2.1,
    by decide, (C12_reserve (cfg_of id) state_123 64).2.2.1 (by decide)⟩

/-- C13: after `clear()`, from every state, `size() == 0`, `empty()` is true, every bucket
has count 0 and an empty slot array, the number of buckets is unchanged and `find(k)`
returns `end()` for every key; on a reachable map with `size() == 0` `clear()` changes
nothing. -/
theorem C13_clear (cfg : config K V) (m : concurrent_unordered_map K V) :
    size (clear m) = 0 ∧ empty (clear m) = true ∧
    (∀ b ∈ (clear m)._buckets, b.count = 0 ∧ b.items = []) ∧
    (clear m)._buckets.length = m._buckets.length ∧
    (∀ k, find cfg (clear m) k = .ok (end_ (clear m))) ∧
    (reachable cfg m → size m = 0 → clear m = m) := by
  refine ⟨rfl, rfl, ?_, ?_, ?_, ?_⟩
  · intro b hb
    obtain ⟨b0, _, hb0⟩ := List.mem_map.mp hb
    rw [← hb0]
    exact ⟨rfl, rfl⟩
  · simp [clear]
  · intro k
    have h0 : (clear m)._size = 0 := rfl
    unfold find
    rw [if_pos h0]
  · intro hm hsz
    have hsz1 : m._size = 0 := hsz
    have hall := map_inv_empty_buckets cfg m (reachable_inv cfg m hm) hsz1
    have hmap : m._buckets.map (fun b => ({ b with items := [], count := 0 } : bucket_type K V)) =
        m._buckets := by
      conv_rhs => rw [← List.map_id m._buckets]
      apply List.map_congr_left
      intro b hb
      obtain ⟨hc, hi⟩ := hall b hb
      exact bucket_eq _ _ hc.symm hi.symm rfl
    cases m with
    | mk sz bs bc =>
      simp only at hsz1 hmap
      subst hsz1
      simp only [clear, hmap]

theorem C13_witness :
    reachable (cfg_of id) state_emptied ∧ size state_emptied = 0 ∧
      clear state_emptied = state_emptied :=
  ⟨reachable_state_emptied, rfl,
    (C13_clear (cfg_of id) state_emptied).2.2.2.2.2 reachable_state_emptied rfl⟩

/-- C14: a default constructed map has exactly 13 buckets; a map constructed with bucket
count `n` has `n` buckets when `n > 0` and 1 bucket when `n == 0`; in both `size() == 0`,
`empty()` is true and every bucket has count 0 and an empty slot array of capacity 0. -/
theorem C14_constructors (K V : Type) (n : Nat) :
    (construct_default K V)._buckets.length = 13 ∧
    (construct K V (n + 1))._buckets.length = n + 1 ∧
    (construct K V 0)._buckets.length = 1 ∧
    size (construct_default K V) = 0 ∧ empty (construct_default K V) = true ∧
    size (construct K V n) = 0 ∧ empty (construct K V n) = true ∧
    (∀ b ∈ (construct_default K V)._buckets, b.count = 0 ∧ b.items = [] ∧ b.capacity = 0) ∧
    (∀ b ∈ (construct K V n)._buckets, b.count = 0 ∧ b.items = [] ∧ b.capacity = 0) := by
  refine ⟨rfl, ?_, rfl, rfl, rfl, rfl, rfl, ?_, ?_⟩
  · simp [construct]
  · intro b hb
    rw [(List.mem_replicate.mp hb).2]
    exact ⟨rfl, rfl, rfl⟩
  · intro b hb
    rw [(List.mem_replicate.mp hb).2]
    exact ⟨rfl, rfl, rfl⟩

/-! ## Capacity of the slot vectors -/

theorem grown_capacity_zero : grown_capacity 0 = 1 := rfl

theorem grown_capacity_pos (c : Nat) (hc : c ≠ 0) : grown_capacity c = 2 * c := by
  unfold grown_capacity
  rw [if_pos (by omega)]
  omega

theorem grown_capacity_iterate (k : Nat) : Nat.iterate grown_capacity (k + 1) 0 = 2 ^ k := by
  induction k with
  | zero => rfl
  | succ k ih =>
    rw [Function.iterate_succ_apply', ih, grown_capacity_pos _ (by positivity)]
    rw [Nat.pow_succ]
    omega

theorem insert_capacity (cfg : config K V) (fuel : Nat) (m m1 : concurrent_unordered_map K V)
    (v : K × V) (it : iterator) (ins : Bool) (hinv : map_inv cfg m)
    (hr : insert cfg fuel m v = .ok (m1, it, ins)) :
    ∃ b b1, m._buckets[cfg._hasher v.1 % m._buckets.length]? = some b ∧
      m1._buckets[cfg._hasher v.1 % m._buckets.length]? = some b1 ∧
      b1.capacity =
        (if ins = true ∧ it._offset = some b.items.length ∧ b.items.length = b.capacity then
          grown_capacity b.capacity
        else b.capacity) ∧
      (it._offset = some b.items.length → ins = true ∧ b1.items.length = b.items.length + 1) ∧
      ∀ i, i ≠ cfg._hasher v.1 % m._buckets.length → m1._buckets[i]? = m._buckets[i]? := by
  obtain ⟨hpos, b, hb, sr, hscan, hcase⟩ := insert_ok_cases cfg fuel m m1 v it ins hr
  have hlt := getElem?_lt hb
  rcases hcase with ⟨offset, hhit, hm, hins, hit⟩ | ⟨hmiss, hins, b1, offset, hplace, hm, hit⟩
  · subst hm
    refine ⟨b, b, hb, hb, ?_, ?_, fun _ _ => rfl⟩
    · rw [hins]
      simp
    · intro hoff
      obtain ⟨_, ⟨s, hs, _⟩, _, _⟩ := insert_scan_hit cfg fuel b v.1 _ _ sr offset hscan hhit
      rw [hit] at hoff
      simp only [Option.some.injEq] at hoff
      have := getElem?_lt hs
      omega
  · have hbinv := hinv.buckets _ b hb
    obtain ⟨_, _, hempty, _⟩ := insert_scan_miss cfg _ _ fuel b v.1 _ _ sr hbinv hscan hmiss
    have hfit := hbinv.fits
    have hset : m1._buckets[cfg._hasher v.1 % m._buckets.length]? =
        some { b1 with count := b1.count + 1 } := by
      rw [hm]
      show (m._buckets.set _ _)[_]? = _
      rw [List.getElem?_set]
      simp only [if_true, hlt]
    have hother : ∀ i, i ≠ cfg._hasher v.1 % m._buckets.length →
        m1._buckets[i]? = m._buckets[i]? := by
      intro i hi
      rw [hm]
      show (m._buckets.set _ _)[i]? = _
      rw [List.getElem?_set_ne (fun h => hi h.symm)]
    refine ⟨b, _, hb, hset, ?_, ?_, hother⟩
    · show b1.capacity = _
      rcases insert_place_cases b b1 v _ sr.emptyidx offset hplace hempty with
        ⟨x, old, _, hx, _, hoff, hb1⟩ | ⟨_, hoff, _, _, hcap⟩
      · have hxlt := getElem?_lt hx
        have hne : ¬ (ins = true ∧ it._offset = some b.items.length ∧
            b.items.length = b.capacity) := by
          rintro ⟨_, h2, _⟩
          rw [hit, hoff] at h2
          simp only [Option.some.injEq] at h2
          omega
        rw [if_neg hne, hb1]
      · rw [hcap]
        by_cases hfull : b.items.length = b.capacity
        · have hc : ins = true ∧ it._offset = some b.items.length ∧
              b.items.length = b.capacity := by
            refine ⟨hins, ?_, hfull⟩
            rw [hit, hoff]
          rw [if_pos hfull, if_pos hc]
          rfl
        · have hne : ¬ (ins = true ∧ it._offset = some b.items.length ∧
              b.items.length = b.capacity) := fun h => hfull h.2.2
          rw [if_neg hfull, if_neg hne, if_pos (by omega)]
    · intro hoff
      refine ⟨hins, ?_⟩
      show b1.items.length = _
      rcases insert_place_cases b b1 v _ sr.emptyidx offset hplace hempty with
        ⟨x, old, _, hx, _, hoffx, hb1⟩ | ⟨_, _, hitems, _, _⟩
      · have hxlt := getElem?_lt hx
        rw [hit, hoffx] at hoff
        simp only [Option.some.injEq] at hoff
        omega
      · rw [hitems]
        simp

/-- C15: in a reachable state `insert` changes the capacity of a slot vector only in the
selected bucket and only when it appends a new trailing slot while length == capacity; the
new capacity is then 1 if the old one was 0 and exactly twice the old one otherwise. Hence
the successive growths of a fresh bucket (capacity 0) give the capacities 1, 2, 4, 8, ... -/
theorem C15_capacity_growth (cfg : config K V) (fuel : Nat)
    (m m1 : concurrent_unordered_map K V) (v : K × V) (it : iterator) (ins : Bool)
    (hm : reachable cfg m) (hr : insert cfg fuel m v = .ok (m1, it, ins)) :
    (∃ b b1, m._buckets[cfg._hasher v.1 % m._buckets.length]? = some b ∧
      m1._buckets[cfg._hasher v.1 % m._buckets.length]? = some b1 ∧
      b1.capacity =
        (if ins = true ∧ it._offset = some b.items.length ∧ b.items.length = b.capacity then
          grown_capacity b.capacity
        else b.capacity) ∧
      (it._offset = some b.items.length → ins = true ∧ b1.items.length = b.items.length + 1) ∧
      ∀ i, i ≠ cfg._hasher v.1 % m._buckets.length → m1._buckets[i]? = m._buckets[i]?) ∧
    grown_capacity 0 = 1 ∧ (∀ c, c ≠ 0 → grown_capacity c = 2 * c) ∧
    ∀ k, Nat.iterate grown_capacity (k + 1) 0 = 2 ^ k :=
  ⟨insert_capacity cfg fuel m m1 v it ins (reachable_inv cfg m hm) hr, grown_capacity_zero,
    grown_capacity_pos, grown_capacity_iterate⟩

theorem C15_witness :
    reachable (cfg_of id) state_13 ∧
      insert (cfg_of id) 1 state_13 (4, 400) =
        .ok ({ _size := 3
               _buckets := [{ count := 3
                              items := [{ p := (1, 100), hash := 1 }, { p := (4, 400), hash := 4 },
                                        { p := (3, 300), hash := 3 }]
                              capacity := 4 }]
               buckets_capacity := 1 }, ⟨0, some 1⟩, true) ∧
      grown_capacity 0 = 1 ∧ Nat.iterate grown_capacity (3 + 1) 0 = 2 ^ 3 :=
  ⟨reachable_state_13, rfl,
    (C15_capacity_growth (cfg_of id) 1 state_13 _ (4, 400) ⟨0, some 1⟩ true
      reachable_state_13 rfl).2.1,
    (C15_capacity_growth (cfg_of id) 1 state_13 _ (4, 400) ⟨0, some 1⟩ true
      reachable_state_13 rfl).2.2.2 3⟩

/-! ## Bucket count and termination of `insert` -/

theorem insert_no_buckets (cfg : config K V) (fuel : Nat) (m : concurrent_unordered_map K V)
    (v : K × V) (h0 : m._buckets.length = 0) :
    insert cfg fuel m v = .error .undefined_behaviour := by
  unfold insert _get_bucket
  simp only [h0, if_true]

/-- C16, the code at the failing input: `reserve(0)` on a default constructed map returns
and leaves a reachable state without any bucket, in which every `insert` computes
`k % 0`. -/
theorem C16_reserve_zero :
    reserve (cfg_of id) (construct_default Nat Nat) 0 = .ok state_no_buckets ∧
      reachable (cfg_of id) state_no_buckets ∧
      state_no_buckets._buckets.length = 0 ∧
      ∀ fuel, insert (cfg_of id) fuel state_no_buckets (1, 1) = .error .undefined_behaviour :=
  ⟨rfl, reachable.reserve 0 reachable.construct_default rfl, rfl,
    fun fuel => insert_no_buckets (cfg_of id) fuel state_no_buckets (1, 1) rfl⟩

theorem insert_diverges (cfg : config K V) (fuel : Nat) (m : concurrent_unordered_map K V)
    (v : K × V) (b : bucket_type K V) (j : Nat) (s : item_type K V)
    (hb : m._buckets[cfg._hasher v.1 % m._buckets.length]? = some b) (hc : b.count ≠ 0)
    (hhigh : ((cfg._hasher v.1 / m._buckets.length) &&& 1) ≠ 0)
    (hs : b.items[j]? = some s) (hsh : s.hash = cfg._hasher v.1)
    (hk : cfg._key_equal v.1 s.p.1 = false)
    (htop : ∀ i s1, j < i → b.items[i]? = some s1 → s1.hash ≠ cfg._hasher v.1) :
    insert cfg fuel m v = .error .out_of_fuel := by
  have hpos : 0 < m._buckets.length := by
    rcases Nat.eq_zero_or_pos m._buckets.length with h0 | h0
    · rw [List.length_eq_zero.mp h0] at hb
      simp at hb
    · exact h0
  have hscan : insert_scan cfg fuel b v.1 (cfg._hasher v.1)
      (((cfg._hasher v.1 / m._buckets.length) &&& 1) == 0) = none := by
    unfold insert_scan transact_entry_count dotransact
    simp only [ne_eq, hc, not_false_eq_true, if_true, (high_iff_not_startlow _).mpr hhigh,
      Bool.false_eq_true, if_false]
    exact scan_high_diverges cfg v.1 _ b.items fuel none j s hs hsh hk htop
  unfold insert
  simp only [get_bucket_pos m _ hpos, hb, hscan]

theorem reachable_state_collide : reachable (cfg_of (fun _ => 1)) state_collide :=
  reachable.insert 1 (1, 100) (⟨0, some 0⟩, true) (reachable.construct 1) rfl

/-- C19, the code at the failing input: in the reachable one-bucket state holding key 1
under the constant hasher 1 (scan direction downward), `insert((2,200))` meets the slot of
key 1, whose hash is equal and whose key is not; the outer loop then starts the inner
`for` again from the last offset and meets the same slot, so no amount of fuel lets the
call return. -/
theorem C19_insert_never_returns :
    reachable (cfg_of (fun _ => 1)) state_collide ∧
      ∀ fuel, insert (cfg_of (fun _ => 1)) fuel state_collide (2, 200) = .error .out_of_fuel :=
  ⟨reachable_state_collide, fun fuel =>
    insert_diverges (cfg_of (fun _ => 1)) fuel state_collide (2, 200)
      { count := 1, items := [{ p := (1, 100), hash := 1 }], capacity := 1 } 0
      { p := (1, 100), hash := 1 } rfl (by decide) (by decide) rfl rfl rfl (by
        intro i s1 hi hs1
        have := getElem?_lt hs1
        simp only [List.length_singleton] at this
        omega)⟩

/-! ## A hasher that never returns 0: counts are exact -/

theorem scan_low_keeps_some (cfg : config K V) (k : K) (h : Nat) (items : List (item_type K V))
    (offset x : Nat) : (scan_low cfg k h items offset (some x)).emptyidx = some x := by
  induction items generalizing offset with
  | nil => rfl
  | cons it rest ih =>
    simp only [scan_low]
    split
    · simp only [Option.isNone_some, Bool.false_and, Bool.false_eq_true, if_false]
      exact ih _
    · split
      · rfl
      · exact ih _

theorem scan_low_no_empty (cfg : config K V) (k : K) (h : Nat) (hh : h ≠ 0)
    (items : List (item_type K V)) (offset : Nat) (e : Option Nat)
    (hhit : (scan_low cfg k h items offset e).hit = none)
    (hemp : (scan_low cfg k h items offset e).emptyidx = none) :
    ∀ s ∈ items, s.hash ≠ 0 := by
  induction items generalizing offset e with
  | nil => intro s hs; simp at hs
  | cons it rest ih =>
    simp only [scan_low] at hhit hemp
    split at hhit
    · rename_i hne
      rw [if_pos hne] at hemp
      have hz : it.hash ≠ 0 := by
        intro hz
        cases e with
        | some x =>
          simp only [Option.isNone_some, Bool.false_and, Bool.false_eq_true, if_false] at hemp
          rw [scan_low_keeps_some] at hemp
          cases hemp
        | none =>
          simp only [Option.isNone_none, Bool.true_and, hz, beq_self_eq_true, if_true] at hemp
          rw [scan_low_keeps_some] at hemp
          cases hemp
      intro s hs
      simp only [List.mem_cons] at hs
      rcases hs with h1 | h1
      · rw [h1]; exact hz
      · exact ih _ _ hhit hemp s h1
    · rename_i hne
      rw [if_neg hne] at hemp
      have hih : it.hash = h := by simpa using hne
      split at hhit
      · cases hhit
      · rename_i hk
        rw [if_neg hk] at hemp
        intro s hs
        simp only [List.mem_cons] at hs
        rcases hs with h1 | h1
        · rw [h1, hih]; exact hh
        · exact ih _ _ hhit hemp s h1

theorem scan_high_inner_keeps_some (cfg : config K V) (k : K) (h : Nat)
    (items : List (item_type K V)) (n x : Nat) :
    (scan_high_inner cfg k h items n (some x)).2 = some x := by
  induction n with
  | zero => rfl
  | succ n ih =>
    simp only [scan_high_inner]
    split
    · rfl
    · split
      · simp only [Option.isNone_some, Bool.false_and, Bool.false_eq_true, if_false]
        exact ih
      · rfl

theorem scan_high_inner_no_empty (cfg : config K V) (k : K) (h : Nat)
    (items : List (item_type K V)) (n : Nat) (e : Option Nat) (hn : n ≤ items.length)
    (hemp : (scan_high_inner cfg k h items n e).2 = none) :
    e = none ∧ ((scan_high_inner cfg k h items n e).1 = none →
      ∀ i s, i < n → items[i]? = some s → s.hash ≠ 0) := by
  induction n generalizing e with
  | zero =>
    simp only [scan_high_inner] at hemp
    exact ⟨hemp, fun _ i s hi => by omega⟩
  | succ n ih =>
    have hlt : n < items.length := by omega
    obtain ⟨it, hit⟩ : ∃ it, items[n]? = some it := ⟨items[n], List.getElem?_eq_getElem hlt⟩
    simp only [scan_high_inner, hit] at hemp ⊢
    by_cases hne : (it.hash != h) = true
    · rw [if_pos hne] at hemp ⊢
      obtain ⟨he1, hall⟩ := ih _ (by omega) hemp
      have hen : e = none ∧ it.hash ≠ 0 := by
        cases e with
        | some x =>
          simp only [Option.isNone_some, Bool.false_and, Bool.false_eq_true, if_false] at he1
          cases he1
        | none =>
          refine ⟨rfl, ?_⟩
          intro hz
          simp only [Option.isNone_none, Bool.true_and, hz, beq_self_eq_true, if_true] at he1
          cases he1
      refine ⟨hen.1, ?_⟩
      intro hfst i s hi hs
      by_cases hin : i = n
      · subst hin
        rw [hit] at hs
        simp only [Option.some.injEq] at hs
        rw [← hs]; exact hen.2
      · exact hall hfst i s (by omega) hs
    · rw [if_neg hne] at hemp ⊢
      refine ⟨hemp, ?_⟩
      intro hfst
      cases hfst

theorem scan_high_no_empty (cfg : config K V) (k : K) (h : Nat) (items : List (item_type K V))
    (fuel : Nat) (e : Option Nat)
    (hr : scan_high cfg k h items fuel e = some { hit := none, emptyidx := none }) :
    ∀ s ∈ items, s.hash ≠ 0 := by
  induction fuel generalizing e with
  | zero => simp [scan_high] at hr
  | succ fuel ih =>
    simp only [scan_high] at hr
    split at hr
    · rename_i e1 hres
      simp only [Option.some.injEq, scan_result.mk.injEq, true_and] at hr
      subst hr
      have hall := (scan_high_inner_no_empty cfg k h items items.length e (Nat.le_refl _)
        (by rw [hres])).2 (by rw [hres])
      intro s hs
      obtain ⟨i, hi⟩ := List.getElem?_of_mem hs
      exact hall i s (getElem?_lt hi) hi
    · simp at hr
    · exact ih _ hr

theorem insert_scan_no_empty (cfg : config K V) (n i : Nat) (fuel : Nat) (b : bucket_type K V)
    (k : K) (h : Nat) (startlow : Bool) (hh : h ≠ 0) (hinv : bucket_inv cfg n i b)
    (hr : insert_scan cfg fuel b k h startlow = some { hit := none, emptyidx := none }) :
    ∀ s ∈ b.items, s.hash ≠ 0 := by
  unfold insert_scan transact_entry_count dotransact at hr
  simp only at hr
  split at hr
  · split at hr
    · simp only [Option.some.injEq] at hr
      exact scan_low_no_empty cfg k h hh b.items 0 none (by rw [hr]) (by rw [hr])
    · exact scan_high_no_empty cfg k h b.items fuel none hr
  · rename_i hc
    have hc0 : b.count = 0 := by
      by_contra hne
      exact hc hne
    rw [bucket_inv_empty_of_count cfg n i b hinv hc0]
    intro s hs
    simp at hs

theorem occupied_eq_length (items : List (item_type K V)) (h : ∀ s ∈ items, s.hash ≠ 0) :
    occupied items = items.length := by
  unfold occupied
  rw [List.countP_eq_length]
  intro s hs
  simpa using h s hs

theorem map_tight_set (m : concurrent_unordered_map K V) (itb sz : Nat) (b2 : bucket_type K V)
    (ht : map_tight m) (hb2 : occupied b2.items = b2.count) :
    map_tight ({ m with _size := sz, _buckets := m._buckets.set itb b2 } :
      concurrent_unordered_map K V) := by
  intro i b3 hb3
  have hb3a : (m._buckets.set itb b2)[i]? = some b3 := hb3
  by_cases hi : itb = i
  · subst hi
    rw [List.getElem?_set] at hb3a
    simp only [if_true] at hb3a
    split at hb3a
    · simp only [Option.some.injEq] at hb3a
      subst hb3a
      exact hb2
    · cases hb3a
  · rw [List.getElem?_set_ne hi] at hb3a
    exact ht i b3 hb3a

theorem map_tight_all_empty (m : concurrent_unordered_map K V)
    (h : ∀ b ∈ m._buckets, b.count = 0 ∧ b.items = []) : map_tight m := by
  intro i b hb
  obtain ⟨hc, hi⟩ := h b (List.getElem?_mem hb)
  rw [hc, hi]
  rfl

theorem map_tight_insert (cfg : config K V) (fuel : Nat) (m m1 : concurrent_unordered_map K V)
    (v : K × V) (r : iterator × Bool) (hinv : map_inv cfg m) (ht : map_tight m)
    (hk : cfg._hasher v.1 ≠ 0) (hr : insert cfg fuel m v = .ok (m1, r)) : map_tight m1 := by
  obtain ⟨it, ins⟩ := r
  obtain ⟨hpos, b, hb, sr, hscan, hcase⟩ := insert_ok_cases cfg fuel m m1 v it ins hr
  rcases hcase with ⟨_, _, hm, _, _⟩ | ⟨hmiss, _, b1, offset, hplace, hm, _⟩
  · rw [hm]; exact ht
  · have hbinv := hinv.buckets _ b hb
    obtain ⟨_, _, hempty, _⟩ := insert_scan_miss cfg _ _ fuel b v.1 _ _ sr hbinv hscan hmiss
    have htb := ht _ b hb
    rw [hm]
    apply map_tight_set m _ _ _ ht
    show occupied b1.items = b1.count + 1
    rcases insert_place_cases b b1 v _ sr.emptyidx offset hplace hempty with
      ⟨x, old, _, hx, hold, _, hb1⟩ | ⟨_, _, hitems, hcount, _⟩
    · rw [hb1]
      show occupied (b.items.set x _) = b.count + 1
      rw [occupied_set_empty b.items x old hx hold, if_pos hk, htb]
    · rw [hitems, hcount, occupied_concat, htb]
      simp only [ne_eq, hk, not_false_eq_true, if_true]

theorem map_tight_erase (cfg : config K V) (m m1 : concurrent_unordered_map K V) (it : iterator)
    (r : Bool) (ht : map_tight m) (hr : erase cfg m it = .ok (m1, r)) : map_tight m1 := by
  rcases erase_ok_cases cfg m m1 it r hr with ⟨_, hm⟩ | ⟨_, b, offset, slot, _, hb, hslot, hz, hm⟩
  · rw [hm]; exact ht
  · rw [hm]
    apply map_tight_set m _ _ _ ht
    show occupied (erase_section cfg b.items offset slot) = b.count - 1
    have h1 := occupied_erase_section cfg b.items offset slot hslot hz
    have h2 := ht _ b hb
    omega

theorem reachable_tight (cfg : config K V) (hnz : ∀ k, cfg._hasher k ≠ 0)
    (m : concurrent_unordered_map K V) (hm : reachable cfg m) : map_tight m := by
  induction hm with
  | construct_default =>
    apply map_tight_all_empty
    intro b hb
    rw [(List.mem_replicate.mp hb).2]
    exact ⟨rfl, rfl⟩
  | construct n =>
    apply map_tight_all_empty
    intro b hb
    rw [(List.mem_replicate.mp hb).2]
    exact ⟨rfl, rfl⟩
  | insert fuel v r hm0 hr ih =>
    exact map_tight_insert cfg fuel _ _ v r (reachable_inv cfg _ hm0) ih (hnz v.1) hr
  | erase it r _ hr ih => exact map_tight_erase cfg _ _ it r ih hr
  | clear _ _ =>
    apply map_tight_all_empty
    intro b hb
    obtain ⟨b0, _, hb0⟩ := List.mem_map.mp hb
    rw [← hb0]
    exact ⟨rfl, rfl⟩
  | reserve n hm0 hr _ =>
    obtain ⟨hsz, hm1⟩ := reserve_ok cfg _ _ n hr
    rw [hm1]
    exact map_tight_all_empty _ (resize_empty cfg _ n (reachable_inv cfg _ hm0) hsz).2

/-- C20: in a state reachable with a hasher that never returns 0, when the predicate of the
transacted section holds on entry for the selected bucket (`count < capacity`), an `insert`
that returns leaves the capacity of that bucket as it was: the entry went into an existing
empty slot or was appended within the capacity (the slot array is not longer than the old
capacity), or an equal key was found; whatever the key. -/
theorem C20_room_without_growth (cfg : config K V) (hnz : ∀ k, cfg._hasher k ≠ 0)
    (fuel : Nat) (m m1 : concurrent_unordered_map K V) (v : K × V) (it : iterator)
    (ins : Bool) (b : bucket_type K V) (hm : reachable cfg m)
    (hb : m._buckets[cfg._hasher v.1 % m._buckets.length]? = some b)
    (hpred : (dotransact b).2 = true)
    (hr : insert cfg fuel m v = .ok (m1, it, ins)) :
    ∃ b1, m1._buckets[cfg._hasher v.1 % m._buckets.length]? = some b1 ∧
      b1.capacity = b.capacity ∧ b1.items.length ≤ b.capacity := by
  have hinv := reachable_inv cfg m hm
  have htight := reachable_tight cfg hnz m hm _ b hb
  have hbinv := hinv.buckets _ b hb
  have hroom : b.count < b.capacity := by
    simpa [dotransact] using hpred
  obtain ⟨hpos, b0, hb0, sr, hscan, hcase⟩ := insert_ok_cases cfg fuel m m1 v it ins hr
  rw [hb] at hb0
  simp only [Option.some.injEq] at hb0
  subst hb0
  have hlt := getElem?_lt hb
  rcases hcase with ⟨_, _, hm1, _, _⟩ | ⟨hmiss, _, b1, offset, hplace, hm1, _⟩
  · subst hm1
    exact ⟨b, hb, rfl, hbinv.fits⟩
  · obtain ⟨_, _, hempty, _⟩ := insert_scan_miss cfg _ _ fuel b v.1 _ _ sr hbinv hscan hmiss
    have hset : m1._buckets[cfg._hasher v.1 % m._buckets.length]? =
        some { b1 with count := b1.count + 1 } := by
      rw [hm1]
      show (m._buckets.set _ _)[_]? = _
      rw [List.getElem?_set]
      simp only [if_true, hlt]
    refine ⟨_, hset, ?_⟩
    show b1.capacity = b.capacity ∧ b1.items.length ≤ b.capacity
    rcases insert_place_cases b b1 v _ sr.emptyidx offset hplace hempty with
      ⟨x, old, _, hx, _, _, hb1⟩ | ⟨hnone, _, hitems, _, hcap⟩
    · rw [hb1]
      exact ⟨rfl, by simpa using hbinv.fits⟩
    · have hsr : sr = { hit := none, emptyidx := none } := by
        cases sr with
        | mk hit e =>
          simp only at hmiss hnone
          rw [hmiss, hnone]
      rw [hsr] at hscan
      have hall := insert_scan_no_empty cfg _ _ fuel b v.1 _ _ (hnz v.1) hbinv hscan
      have hlen := occupied_eq_length b.items hall
      have hlt2 : b.items.length < b.capacity := by omega
      rw [hcap, hitems, if_neg (by omega), if_pos hlt2]
      refine ⟨rfl, ?_⟩
      simp only [List.length_append, List.length_singleton]
      omega

theorem C20_witness :
    (∀ k, (cfg_of (fun k => k + 1))._hasher k ≠ 0) ∧
      reachable (cfg_of (fun k => k + 1))
        { _size := 2
          _buckets := [{ count := 2
                         items := [{ p := (1, 100), hash := 2 }, { p := (2, 200), hash := 0 },
                                   { p := (3, 300), hash := 4 }]
                         capacity := 4 }]
          buckets_capacity := 1 } ∧
      insert (cfg_of (fun k => k + 1)) 1
        { _size := 2
          _buckets := [{ count := 2
                         items := [{ p := (1, 100), hash := 2 }, { p := (2, 200), hash := 0 },
                                   { p := (3, 300), hash := 4 }]
                         capacity := 4 }]
          buckets_capacity := 1 } (5, 500) =
        .ok ({ _size := 3
               _buckets := [{ count := 3
                              items := [{ p := (1, 100), hash := 2 }, { p := (5, 500), hash := 6 },
                                        { p := (3, 300), hash := 4 }]
                              capacity := 4 }]
               buckets_capacity := 1 }, ⟨0, some 1⟩, true) ∧
      ∃ b1, ({ _size := 3
               _buckets := [{ count := 3
                              items := [{ p := (1, 100), hash := 2 }, { p := (5, 500), hash := 6 },
                                        { p := (3, 300), hash := 4 }]
                              capacity := 4 }]
               buckets_capacity := 1 } : concurrent_unordered_map Nat Nat)._buckets[0]? =
          some b1 ∧ b1.capacity = 4 ∧ b1.items.length ≤ 4 :=
  ⟨fun k => Nat.succ_ne_zero k,
    reachable.erase ⟨0, some 1⟩ true
      (reachable.insert 1 (3, 300) (⟨0, some 2⟩, true)
        (reachable.insert 1 (2, 200) (⟨0, some 1⟩, true)
          (reachable.insert 1 (1, 100) (⟨0, some 0⟩, true) (reachable.construct 1) rfl) rfl)
        rfl) rfl,
    rfl,
    C20_room_without_growth (cfg_of (fun k => k + 1)) (fun k => Nat.succ_ne_zero k) 1 _ _
      (5, 500) ⟨0, some 1⟩ true
      { count := 2
        items := [{ p := (1, 100), hash := 2 }, { p := (2, 200), hash := 0 },
                  { p := (3, 300), hash := 4 }]
        capacity := 4 }
      (reachable.erase ⟨0, some 1⟩ true
        (reachable.insert 1 (3, 300) (⟨0, some 2⟩, true)
          (reachable.insert 1 (2, 200) (⟨0, some 1⟩, true)
            (reachable.insert 1 (1, 100) (⟨0, some 0⟩, true) (reachable.construct 1) rfl) rfl)
          rfl) rfl)
      rfl rfl rfl⟩

/-! ## Trailing slots, the assertion of `erase`, and the frame of `insert` -/

/-- C22: in every state reachable with a hasher that never returns 0, the slot array of
every bucket is empty or ends in a slot with nonzero stored hash, the bucket's `count` is the
number of its slots with nonzero stored hash, and so a bucket with `count` 0 has an empty
slot array. -/
theorem C22_no_trailing_empty (cfg : config K V) (hnz : ∀ k, cfg._hasher k ≠ 0)
    (m : concurrent_unordered_map K V) (hm : reachable cfg m)
    (i : Nat) (b : bucket_type K V) (hb : m._buckets[i]? = some b) :
    (b.items = [] ∨ ∃ s, b.items.getLast? = some s ∧ s.hash ≠ 0) ∧
      b.count = occupied b.items ∧
      (b.count = 0 → b.items = []) := by
  have ht : occupied b.items = b.count := reachable_tight cfg hnz m hm i b hb
  have hinv := (reachable_inv cfg m hm).buckets i b hb
  refine ⟨?_, ht.symm, fun hc => bucket_inv_empty_of_count cfg _ i b hinv hc⟩
  cases hl : b.items.getLast? with
  | none => exact Or.inl (List.getLast?_eq_none_iff.mp hl)
  | some s =>
    refine Or.inr ⟨s, rfl, fun hz => ?_⟩
    have := hinv.last_empty s hl hz
    omega

theorem C22_witness :
    (∀ k, (cfg_of (fun k => k + 1))._hasher k ≠ 0) ∧
      reachable (cfg_of (fun k => k + 1))
        { _size := 1
          _buckets := [{ count := 1, items := [{ p := (1, 100), hash := 2 }], capacity := 1 }]
          buckets_capacity := 1 } ∧
      (([{ p := (1, 100), hash := 2 }] : List (item_type Nat Nat)) = [] ∨
        ∃ s, ([{ p := (1, 100), hash := 2 }] : List (item_type Nat Nat)).getLast? = some s ∧
          s.hash ≠ 0) ∧
      1 = occupied ([{ p := (1, 100), hash := 2 }] : List (item_type Nat Nat)) ∧
      ((1 : Nat) = 0 → ([{ p := (1, 100), hash := 2 }] : List (item_type Nat Nat)) = []) :=
  ⟨fun k => Nat.succ_ne_zero k,
    reachable.insert 1 (1, 100) (⟨0, some 0⟩, true) (reachable.construct 1) rfl,
    C22_no_trailing_empty (cfg_of (fun k => k + 1)) (fun k => Nat.succ_ne_zero k)
      { _size := 1
        _buckets := [{ count := 1, items := [{ p := (1, 100), hash := 2 }], capacity := 1 }]
        buckets_capacity := 1 }
      (reachable.insert 1 (1, 100) (⟨0, some 0⟩, true) (reachable.construct 1) rfl)
      0 { count := 1, items := [{ p := (1, 100), hash := 2 }], capacity := 1 } rfl⟩

/-- The slot vector `erase` leaves after erasing the last slot is shorter than the offset
of that slot. -/
theorem erase_section_last_length (cfg : config K V) (items : List (item_type K V))
    (slot : item_type K V) (hne : items ≠ []) :
    (erase_section cfg items (items.length - 1) slot).length ≤ items.length - 1 := by
  have hpos : 0 < items.length := List.length_pos.mpr hne
  simp only [erase_section, if_true]
  set z : item_type K V := { p := (slot.p.1, cfg.moved_from slot.p.2), hash := 0 } with hz
  have hlast : (items.set (items.length - 1) z).getLast? = some z := by
    rw [List.getLast?_eq_getElem?, List.length_set]
    exact List.getElem?_set_self (by omega)
  have hsplit := List.dropLast_append_getLast? z hlast
  rw [← hsplit, List.rdropWhile_concat_pos _ _ _ (by simp [hz])]
  have h1 := (List.rdropWhile_prefix (fun s : item_type K V => s.hash == 0)
    (items.set (items.length - 1) z).dropLast).length_le
  simpa using h1

/-- C23 fails in the code: erasing the entry in the last slot of a bucket pops that slot, so
the read of the assertion that follows is out of bounds. In scenario 1 of the specification
(keys 1, 2, 3 in one bucket) `erase(find(3))` succeeds and leaves two slots, so offset 2 is
no index of the slot vector when the assertion reads it; the same holds whenever the erased
slot is the last one, while at any other offset the read is in bounds and finds hash 0. -/
theorem C23_assert_out_of_bounds :
    find (cfg_of id) state_123 3 = .ok ⟨0, some 2⟩ ∧
    (erase (cfg_of id) state_123 ⟨0, some 2⟩ =
      .ok ({ _size := 2
             _buckets := [{ count := 2
                            items := [{ p := (1, 100), hash := 1 }, { p := (2, 200), hash := 2 }]
                            capacity := 4 }]
             buckets_capacity := 1 }, true)) ∧
    erase_assert_read (cfg_of id)
      [{ p := (1, 100), hash := 1 }, { p := (2, 200), hash := 2 }, { p := (3, 300), hash := 3 }]
      2 { p := (3, 300), hash := 3 } = none ∧
    (∀ (K V : Type) (cfg : config K V) (items : List (item_type K V)) (slot : item_type K V),
      items ≠ [] → erase_assert_read cfg items (items.length - 1) slot = none) ∧
    (∀ (K V : Type) (cfg : config K V) (items : List (item_type K V)) (offset : Nat)
      (slot : item_type K V),
      offset + 1 < items.length → erase_assert_read cfg items offset slot = some 0) := by
  refine ⟨rfl, rfl, rfl, ?_, ?_⟩
  · intro K V cfg items slot hne
    have h := erase_section_last_length cfg items slot hne
    simp only [erase_assert_read]
    rw [List.getElem?_eq_none h]
    rfl
  · intro K V cfg items offset slot hlt
    have hne : offset ≠ items.length - 1 := by omega
    simp only [erase_assert_read, erase_section, if_neg hne]
    rw [List.getElem?_set_self (by omega)]
    rfl

/-- C24 as stated fails in the code: a key whose hash is 0 is stored with stored hash 0, and
the scan of a later `insert` takes its slot for an empty one. With the identity hasher and
one bucket holding key 0, `insert((2,7))` overwrites that slot, and `find(0)` changes from
the slot to `end()`. -/
theorem C24_counterexample :
    reachable (cfg_of id) state_key0 ∧
    find (cfg_of id) state_key0 0 = .ok ⟨0, some 0⟩ ∧
    insert (cfg_of id) 1 state_key0 (2, 7) = .ok (state_key0_overwritten, ⟨0, some 0⟩, true) ∧
    find (cfg_of id) state_key0_overwritten 0 = .ok (end_ state_key0_overwritten) ∧
    end_ state_key0_overwritten = ⟨1, none⟩ :=
  ⟨reachable_state_key0, rfl, rfl, rfl, rfl⟩

/-- C24 (amended): in every reachable state, for every hasher and key equality, an `insert`
of `(k1, v1)` that returns leaves `find(k)` as it was for every key `k` that is not equal to
`k1` and whose hash is nonzero: the same iterator (and the same `end()`), designating the
same stored slot. -/
theorem C24_insert_frame (cfg : config K V) (fuel : Nat) (m m1 : concurrent_unordered_map K V)
    (v : K × V) (it : iterator) (ins : Bool) (hm : reachable cfg m)
    (hr : insert cfg fuel m v = .ok (m1, it, ins)) (k : K)
    (hk : cfg._key_equal k v.1 = false) (hh : cfg._hasher k ≠ 0) :
    find cfg m1 k = find cfg m k ∧ end_ m1 = end_ m ∧
      ∀ it1, find cfg m k = .ok it1 → slot_at m1 it1 = slot_at m it1 := by
  have hinv := reachable_inv cfg m hm
  have hlen : m1._buckets.length = m._buckets.length := insert_length cfg fuel m m1 v (it, ins) hr
  have hend : end_ m1 = end_ m := by simp only [end_, hlen]
  cases ins with
  | true =>
    have h := insert_true_frame cfg fuel m m1 v it hinv hr k hk hh
    exact ⟨h.1, hend, h.2⟩
  | false =>
    have h := (insert_false_spec cfg fuel m m1 v it hinv hr).1
    subst h
    exact ⟨rfl, rfl, fun _ _ => rfl⟩

theorem C24_witness :
    reachable (cfg_of id) state_123 ∧
      insert (cfg_of id) 1 state_123 (4, 400) =
        .ok ({ _size := 4
               _buckets := [{ count := 4
                              items := [{ p := (1, 100), hash := 1 }, { p := (2, 200), hash := 2 },
                                        { p := (3, 300), hash := 3 }, { p := (4, 400), hash := 4 }]
                              capacity := 4 }]
               buckets_capacity := 1 }, ⟨0, some 3⟩, true) ∧
      (cfg_of id)._key_equal 2 4 = false ∧ (cfg_of id)._hasher 2 ≠ 0 ∧
      find (cfg_of id)
          { _size := 4
            _buckets := [{ count := 4
                           items := [{ p := (1, 100), hash := 1 }, { p := (2, 200), hash := 2 },
                                     { p := (3, 300), hash := 3 }, { p := (4, 400), hash := 4 }]
                           capacity := 4 }]
            buckets_capacity := 1 } 2 = find (cfg_of id) state_123 2 ∧
      end_ ({ _size := 4
              _buckets := [{ count := 4
                             items := [{ p := (1, 100), hash := 1 }, { p := (2, 200), hash := 2 },
                                       { p := (3, 300), hash := 3 }, { p := (4, 400), hash := 4 }]
                             capacity := 4 }]
              buckets_capacity := 1 } : concurrent_unordered_map Nat Nat) = end_ state_123 ∧
      ∀ it1, find (cfg_of id) state_123 2 = .ok it1 →
        slot_at ({ _size := 4
                   _buckets := [{ count := 4
                                  items := [{ p := (1, 100), hash := 1 }, { p := (2, 200), hash := 2 },
                                            { p := (3, 300), hash := 3 }, { p := (4, 400), hash := 4 }]
                                  capacity := 4 }]
                   buckets_capacity := 1 } : concurrent_unordered_map Nat Nat) it1 =
          slot_at state_123 it1 :=
  ⟨reachable_state_123, rfl, rfl, by decide,
    C24_insert_frame (cfg_of id) 1 state_123 _ (4, 400) ⟨0, some 3⟩ true reachable_state_123
      rfl 2 rfl (by decide)⟩

/-! ## Which empty slot `insert` takes -/

/-- An upward scan that meets no slot with hash `h` keeps an empty slot it has recorded. -/
theorem scan_low_miss_some (cfg : config K V) (k : K) (h : Nat) (items : List (item_type K V))
    (offset x : Nat) (hall : ∀ s ∈ items, s.hash ≠ h) :
    scan_low cfg k h items offset (some x) = { hit := none, emptyidx := some x } := by
  induction items generalizing offset with
  | nil => rfl
  | cons it rest ih =>
    have hit : it.hash ≠ h := hall it (List.mem_cons_self _ _)
    have hne : (it.hash != h) = true := by simpa using hit
    simp only [scan_low, hne, if_true]
    exact ih (offset + 1) (fun s hs => hall s (List.mem_cons_of_mem _ hs))

/-- An upward scan that meets no slot with hash `h` records the lowest empty slot. -/
theorem scan_low_first_empty (cfg : config K V) (k : K) (h : Nat) (items : List (item_type K V))
    (offset e : Nat) (s0 : item_type K V) (hall : ∀ s ∈ items, s.hash ≠ h)
    (he : items[e]? = some s0) (hz : s0.hash = 0)
    (hlow : ∀ (j : Nat) (s : item_type K V), j < e → items[j]? = some s → s.hash ≠ 0) :
    scan_low cfg k h items offset none = { hit := none, emptyidx := some (offset + e) } := by
  induction items generalizing offset e with
  | nil => simp at he
  | cons it rest ih =>
    have hit : it.hash ≠ h := hall it (List.mem_cons_self _ _)
    have hne : (it.hash != h) = true := by simpa using hit
    have hrest : ∀ s ∈ rest, s.hash ≠ h := fun s hs => hall s (List.mem_cons_of_mem _ hs)
    cases e with
    | zero =>
      have h0 : it = s0 := by simpa using he
      have hz0 : it.hash = 0 := by rw [h0]; exact hz
      have hc : ((none : Option Nat).isNone && it.hash == 0) = true := by simp [hz0]
      simp only [scan_low, hne, if_true, hc, Nat.add_zero]
      exact scan_low_miss_some cfg k h rest (offset + 1) offset hrest
    | succ e1 =>
      have hnz : it.hash ≠ 0 := hlow 0 it (Nat.succ_pos _) (by simp)
      have hc : ((none : Option Nat).isNone && it.hash == 0) = false := by simp [hnz]
      have he1 : rest[e1]? = some s0 := by simpa using he
      simp only [scan_low, hne, if_true, hc, Bool.false_eq_true, if_false]
      have := ih (offset + 1) e1 hrest he1
        (fun j s hj hs => hlow (j + 1) s (by omega) (by simpa using hs))
      rw [this]
      have : offset + 1 + e1 = offset + (e1 + 1) := by omega
      rw [this]

/-- A downward pass that meets no slot with hash `h` keeps an empty slot it has recorded. -/
theorem scan_high_inner_miss_some (cfg : config K V) (k : K) (h : Nat)
    (items : List (item_type K V)) (n x : Nat) (hall : ∀ s ∈ items, s.hash ≠ h) :
    scan_high_inner cfg k h items n (some x) = (none, some x) :=
  Prod.ext (scan_high_inner_miss cfg k h items n (some x) hall)
    (scan_high_inner_keeps_some cfg k h items n x)

/-- A downward pass that meets no slot with hash `h` records the highest empty slot. -/
theorem scan_high_inner_last_empty (cfg : config K V) (k : K) (h : Nat)
    (items : List (item_type K V)) (n e : Nat) (s0 : item_type K V)
    (hall : ∀ s ∈ items, s.hash ≠ h) (he : items[e]? = some s0) (hz : s0.hash = 0)
    (hen : e < n) (hn : n ≤ items.length)
    (hhigh : ∀ (j : Nat) (s : item_type K V), e < j → j < n → items[j]? = some s → s.hash ≠ 0) :
    scan_high_inner cfg k h items n none = (none, some e) := by
  induction n with
  | zero => omega
  | succ n ih =>
    have hlt : n < items.length := by omega
    obtain ⟨it, hit⟩ : ∃ it, items[n]? = some it := ⟨items[n], List.getElem?_eq_getElem hlt⟩
    have hne : (it.hash != h) = true := by
      simpa using hall it (List.getElem?_mem hit)
    by_cases hcase : n = e
    · have h0 : it = s0 := by
        rw [hcase, he] at hit
        exact (Option.some.inj hit).symm
      have hz0 : it.hash = 0 := by rw [h0]; exact hz
      have hc : ((none : Option Nat).isNone && it.hash == 0) = true := by simp [hz0]
      simp only [scan_high_inner, hit, hne, if_true, hc]
      rw [scan_high_inner_miss_some cfg k h items n n hall, hcase]
    · have hnz : it.hash ≠ 0 := hhigh n it (by omega) (by omega) hit
      have hc : ((none : Option Nat).isNone && it.hash == 0) = false := by simp [hnz]
      simp only [scan_high_inner, hit, hne, if_true, hc, Bool.false_eq_true, if_false]
      exact ih (by omega) (by omega) (fun j s h1 h2 hs => hhigh j s h1 (by omega) hs)

/-- C21: in a reachable state, for a key `k` with hash `h` whose bucket holds no slot with
stored hash `h` and holds an empty slot at offset `e`, where `e` is the lowest empty offset
when `((h / bucket_count) & 1) == 0` and the highest empty offset otherwise: `h` is nonzero,
`find(k)` is `end()`, and `insert((k,v))` returns (with any positive fuel) `inserted == true`
and the iterator at offset `e`; the new state differs from the old one in that slot, which
now holds `k`, `v` and `h`, and in the two counters, each raised by one. The slot array
keeps its length and every other slot keeps its content. -/
theorem C21_insert_takes_empty_slot (cfg : config K V) (fuel : Nat)
    (m : concurrent_unordered_map K V) (hm : reachable cfg m) (k : K) (v : V)
    (b : bucket_type K V) (e : Nat) (s0 : item_type K V)
    (hb : m._buckets[cfg._hasher k % m._buckets.length]? = some b)
    (hnone : ∀ s ∈ b.items, s.hash ≠ cfg._hasher k)
    (he : b.items[e]? = some s0) (hz : s0.hash = 0)
    (hsel : if ((cfg._hasher k / m._buckets.length) &&& 1) = 0
      then ∀ (j : Nat) (s : item_type K V), j < e → b.items[j]? = some s → s.hash ≠ 0
      else ∀ (j : Nat) (s : item_type K V), e < j → b.items[j]? = some s → s.hash ≠ 0) :
    cfg._hasher k ≠ 0 ∧
    find cfg m k = .ok (end_ m) ∧
    insert cfg (fuel + 1) m (k, v) =
      .ok ({ m with
             _size := m._size + 1
             _buckets := m._buckets.set (cfg._hasher k % m._buckets.length)
               { b with
                 items := b.items.set e { p := (k, v), hash := cfg._hasher k }
                 count := b.count + 1 } },
           { _itb := cfg._hasher k % m._buckets.length, _offset := some e }, true) ∧
    (b.items.set e ({ p := (k, v), hash := cfg._hasher k } : item_type K V)).length =
      b.items.length ∧
    (b.items.set e ({ p := (k, v), hash := cfg._hasher k } : item_type K V))[e]? =
      some { p := (k, v), hash := cfg._hasher k } ∧
    ∀ j, j ≠ e →
      (b.items.set e ({ p := (k, v), hash := cfg._hasher k } : item_type K V))[j]? =
        b.items[j]? := by
  have hinv := reachable_inv cfg m hm
  have hbinv := hinv.buckets _ b hb
  have helt : e < b.items.length := getElem?_lt he
  have hmem : s0 ∈ b.items := List.getElem?_mem he
  have hh : cfg._hasher k ≠ 0 := fun h0 => hnone s0 hmem (by rw [hz, h0])
  have hcount : b.count ≠ 0 := by
    intro hc
    have := bucket_inv_empty_of_count cfg _ _ b hbinv hc
    rw [this] at helt
    simp at helt
  have hpos : 0 < m._buckets.length := by
    by_contra hcon
    have h0 : m._buckets.length = 0 := by omega
    have : m._buckets = [] := List.length_eq_zero.mp h0
    rw [this] at hb
    simp at hb
  have hscan : insert_scan cfg (fuel + 1) b k (cfg._hasher k)
      (((cfg._hasher k / m._buckets.length) &&& 1) == 0) =
      some { hit := none, emptyidx := some e } := by
    have hc1 : transact_entry_count b ≠ 0 := hcount
    simp only [insert_scan, if_pos hc1]
    by_cases hlow : ((cfg._hasher k / m._buckets.length) &&& 1) = 0
    · rw [if_pos hlow] at hsel
      have hbeq : (((cfg._hasher k / m._buckets.length) &&& 1) == 0) = true := by
        simpa using hlow
      rw [hbeq, if_pos rfl,
        scan_low_first_empty cfg k (cfg._hasher k) b.items 0 e s0 hnone he hz hsel]
      simp
    · rw [if_neg hlow] at hsel
      have hbeq : (((cfg._hasher k / m._buckets.length) &&& 1) == 0) = false := by
        simpa using hlow
      rw [hbeq]
      simp only [Bool.false_eq_true, if_false, scan_high]
      rw [scan_high_inner_last_empty cfg k (cfg._hasher k) b.items b.items.length e s0 hnone
        he hz helt (Nat.le_refl _) (fun j s h1 _ hs => hsel j s h1 hs)]
  have hz1 : (s0.hash == 0) = true := by simpa using hz
  refine ⟨hh, ?_, ?_, List.length_set _ _ _, List.getElem?_set_self helt, ?_⟩
  · refine find_of_no_match cfg m k hinv (fun b1 hb1 s hs => ?_)
    rw [hb] at hb1
    cases hb1
    cases hsm : slot_matches cfg k (cfg._hasher k) s with
    | false => rfl
    | true => exact absurd ((slot_matches_iff cfg k _ s).mp hsm).1 (hnone s hs)
  · have hg : _get_bucket m (cfg._hasher k) = .ok (cfg._hasher k % m._buckets.length) := by
      simp only [_get_bucket, if_neg (Nat.pos_iff_ne_zero.mp hpos)]
    simp only [insert, hg, hb, hscan, insert_place, he, hz1, if_true]
  · intro j hj
    exact List.getElem?_set_ne (Ne.symm hj)

theorem C21_witness :
    reachable (cfg_of id) state_13 ∧
      state_13._buckets[(cfg_of id)._hasher 5 % state_13._buckets.length]? =
        some { count := 2
               items := [{ p := (1, 100), hash := 1 }, { p := (2, 200), hash := 0 },
                         { p := (3, 300), hash := 3 }]
               capacity := 4 } ∧
      (cfg_of id)._hasher 5 ≠ 0 ∧
      find (cfg_of id) state_13 5 = .ok (end_ state_13) ∧
      insert (cfg_of id) 1 state_13 (5, 500) =
        .ok ({ state_13 with
               _size := state_13._size + 1
               _buckets := state_13._buckets.set
                 ((cfg_of id)._hasher 5 % state_13._buckets.length)
                 { count := 2 + 1
                   items := [{ p := (1, 100), hash := 1 }, { p := (5, 500), hash := 5 },
                             { p := (3, 300), hash := 3 }]
                   capacity := 4 } },
             { _itb := (cfg_of id)._hasher 5 % state_13._buckets.length, _offset := some 1 },
             true) :=
  have h := C21_insert_takes_empty_slot (cfg_of id) 0 state_13 reachable_state_13 5 500
    { count := 2
      items := [{ p := (1, 100), hash := 1 }, { p := (2, 200), hash := 0 },
                { p := (3, 300), hash := 3 }]
      capacity := 4 }
    1 { p := (2, 200), hash := 0 } rfl (by decide) rfl rfl
    (by
      rw [if_neg (by decide)]
      intro j s hj hs
      match j, hj with
      | 2, _ =>
        simp at hs
        rw [← hs]
        decide
      | j + 3, _ => simp at hs)
  ⟨reachable_state_13, rfl, h.1, h.2.1, h.2.2.1⟩

end concurrent_unordered_map

/-! ## The spinlock used by one thread -/

/-- C17: for a spinlock used by one thread, modelled as a boolean: `try_lock()` returns true
exactly when the lock is unlocked and then leaves it locked; on a locked lock it returns
false and leaves it locked; `unlock()` leaves it unlocked. On a fresh lock the sequence
`try_lock`, `try_lock`, `unlock`, `try_lock` returns true, false, true. -/
theorem spinlock.C17_single_thread :
    (∀ s, (spinlock.try_lock s).1 = true ↔ s = false) ∧
    (∀ s, (spinlock.try_lock s).1 = true → (spinlock.try_lock s).2 = true) ∧
    spinlock.try_lock true = (false, true) ∧
    (∀ s, spinlock.unlock s = false) ∧
    (spinlock.try_lock spinlock.fresh).1 = true ∧
    (spinlock.try_lock (spinlock.try_lock spinlock.fresh).2).1 = false ∧
    (spinlock.try_lock
      (spinlock.unlock (spinlock.try_lock (spinlock.try_lock spinlock.fresh).2).2)).1 = true := by
  refine ⟨?_, ?_, rfl, fun _ => rfl, rfl, rfl, rfl⟩
  · intro s
    cases s <;> simp [spinlock.try_lock]
  · intro s
    cases s <;> simp [spinlock.try_lock]

/-! ## The future policies -/

/-- C25: under the consuming policy (`is_consuming == true`) `_get_value` on a ready, valid
future always leaves the future empty: a held value is returned by value; a held error is
thrown as `future_error` or `system_error` and a held exception is rethrown, and in both
cases `_pre_get_value` has already cleared the future when it throws. -/
theorem future_policy.C25_get_value_consumes {R X : Type} (env : future_env R X)
    (self : basic_future R X) (hready : self.is_ready = true)
    (hvalid : env._check_validity self = true) :
    future_policy.is_consuming = true ∧
    (future_policy._get_value env self).1 = basic_future.empty ∧
    (∀ v, self = .value v → (future_policy._get_value env self).2 = .ok v) ∧
    (∀ e, self = .error e →
      future_policy._pre_get_value env future_policy.is_consuming self =
        (basic_future.empty,
          some (.threw (if e.category = .future_category then .future_error e
            else .system_error e))) ∧
      (future_policy._get_value env self).2 =
        .error (.threw (if e.category = .future_category then .future_error e
          else .system_error e))) ∧
    (∀ e, self = .exception e →
      future_policy._pre_get_value env future_policy.is_consuming self =
        (basic_future.empty, some (rethrow_exception e)) ∧
      (future_policy._get_value env self).2 = .error (rethrow_exception e)) := by
  refine ⟨rfl, ?_, ?_, ?_, ?_⟩
  · cases self with
    | empty => simp [basic_future.is_ready] at hready
    | value v =>
      simp [future_policy._get_value, future_policy._pre_get_value, basic_future.wait,
        basic_future.is_ready, basic_future.has_error, basic_future.has_exception,
        basic_future.clear, hvalid]
    | error e =>
      by_cases hc : e.category = .future_category <;>
      simp [future_policy._get_value, future_policy._pre_get_value, basic_future.wait,
        basic_future.is_ready, basic_future.has_error, basic_future.has_exception,
        basic_future.clear, future_policy.is_consuming, hvalid, hc]
    | exception e =>
      simp [future_policy._get_value, future_policy._pre_get_value, basic_future.wait,
        basic_future.is_ready, basic_future.has_error, basic_future.has_exception,
        basic_future.clear, future_policy.is_consuming, hvalid]
  · intro v hv
    subst hv
    simp [future_policy._get_value, future_policy._pre_get_value, basic_future.wait,
      basic_future.is_ready, basic_future.has_error, basic_future.has_exception,
      basic_future.clear, hvalid]
  · intro e he
    subst he
    by_cases hc : e.category = .future_category <;>
    simp [future_policy._get_value, future_policy._pre_get_value, basic_future.wait,
      basic_future.is_ready, basic_future.has_error, basic_future.has_exception,
      basic_future.clear, future_policy.is_consuming, hvalid, hc]
  · intro e he
    subst he
    simp [future_policy._get_value, future_policy._pre_get_value, basic_future.wait,
      basic_future.is_ready, basic_future.has_error, basic_future.has_exception,
      basic_future.clear, future_policy.is_consuming, hvalid]

theorem future_policy.C25_witness :
    (basic_future.error { value := 5, category := .system_category } :
        basic_future Nat Nat).is_ready = true ∧
      env_ready._check_validity (.error { value := 5, category := .system_category }) = true ∧
      (future_policy._get_value env_ready
        (.error { value := 5, category := .system_category })).1 = basic_future.empty :=
  ⟨rfl, rfl,
    (future_policy.C25_get_value_consumes env_ready
      (.error { value := 5, category := .system_category }) rfl rfl).2.1⟩

/-- C26: under the shared policy (`is_consuming == false`) `_get_value` on a ready, valid
future leaves the future as it was: a held value is returned, and a second `_get_value` on
the future the first one left returns the same value; a held error is thrown as
`future_error` or `system_error` and a held exception is rethrown, the future unchanged. -/
theorem shared_future_policy.C26_get_value_keeps {R X : Type} (env : future_env R X)
    (self : basic_future R X) (hready : self.is_ready = true)
    (hvalid : env._check_validity self = true) :
    shared_future_policy.is_consuming = false ∧
    (shared_future_policy._get_value env self).1 = self ∧
    (∀ v, self = .value v →
      (shared_future_policy._get_value env self).2 = .ok v ∧
      shared_future_policy._get_value env (shared_future_policy._get_value env self).1 =
        (self, .ok v)) ∧
    (∀ e, self = .error e →
      (shared_future_policy._get_value env self).2 =
        .error (.threw (if e.category = .future_category then .future_error e
          else .system_error e))) ∧
    (∀ e, self = .exception e →
      (shared_future_policy._get_value env self).2 = .error (rethrow_exception e)) := by
  refine ⟨rfl, ?_, ?_, ?_, ?_⟩
  · cases self with
    | empty => simp [basic_future.is_ready] at hready
    | value v =>
      simp [shared_future_policy._get_value, future_policy._pre_get_value, basic_future.wait,
        basic_future.is_ready, basic_future.has_error, basic_future.has_exception, hvalid]
    | error e =>
      by_cases hc : e.category = .future_category <;>
      simp [shared_future_policy._get_value, future_policy._pre_get_value, basic_future.wait,
        basic_future.is_ready, basic_future.has_error, basic_future.has_exception,
        shared_future_policy.is_consuming, hvalid, hc]
    | exception e =>
      simp [shared_future_policy._get_value, future_policy._pre_get_value, basic_future.wait,
        basic_future.is_ready, basic_future.has_error, basic_future.has_exception,
        shared_future_policy.is_consuming, hvalid]
  · intro v hv
    subst hv
    simp [shared_future_policy._get_value, future_policy._pre_get_value, basic_future.wait,
      basic_future.is_ready, basic_future.has_error, basic_future.has_exception, hvalid]
  · intro e he
    subst he
    by_cases hc : e.category = .future_category <;>
    simp [shared_future_policy._get_value, future_policy._pre_get_value, basic_future.wait,
      basic_future.is_ready, basic_future.has_error, basic_future.has_exception,
      shared_future_policy.is_consuming, hvalid, hc]
  · intro e he
    subst he
    simp [shared_future_policy._get_value, future_policy._pre_get_value, basic_future.wait,
      basic_future.is_ready, basic_future.has_error, basic_future.has_exception,
      shared_future_policy.is_consuming, hvalid]

theorem shared_future_policy.C26_witness :
    (basic_future.value 7 : basic_future Nat Nat).is_ready = true ∧
      env_ready._check_validity (.value 7) = true ∧
      (shared_future_policy._get_value env_ready (.value 7)).1 = .value 7 ∧
      (shared_future_policy._get_value env_ready (.value 7)).2 = .ok 7 :=
  ⟨rfl, rfl,
    (shared_future_policy.C26_get_value_keeps env_ready (.value 7) rfl rfl).2.1,
    ((shared_future_policy.C26_get_value_keeps env_ready (.value 7) rfl rfl).2.2.1 7 rfl).1⟩

/-- C27: `_get_error_impl` on a valid future returns the stored error code when the future
holds an error, the code `monad_errc::exception_present` in `monad_category` when it holds
an exception, and the default constructed error code when it holds a value. With
`is_consuming` the future is cleared when it held an error and only then: a future holding a
value or an exception is left as it was; without `is_consuming` it is always left as it
was. `_get_error` of the consuming policy on a ready future is this function with
`is_consuming == true`. -/
theorem future_policy.C27_get_error_impl {R X : Type} (env : future_env R X)
    (is_consuming : Bool) (self : basic_future R X)
    (hvalid : env._check_validity self = true) :
    (∀ e, self = .error e →
      future_policy._get_error_impl env is_consuming self =
        (if is_consuming then basic_future.empty else self, .ok e)) ∧
    (∀ e, self = .exception e →
      future_policy._get_error_impl env is_consuming self =
        (self, .ok { value := env.exception_present, category := .monad_category })) ∧
    (∀ v, self = .value v →
      future_policy._get_error_impl env is_consuming self =
        (self, .ok error_type.default_constructed)) ∧
    (self.is_ready = true →
      ((future_policy._get_error_impl env true self).1 = basic_future.empty ↔
        self.has_error = true)) ∧
    (self.has_error = false → (future_policy._get_error_impl env is_consuming self).1 = self) ∧
    (self.is_ready = true →
      future_policy._get_error env self = future_policy._get_error_impl env true self) := by
  refine ⟨?_, ?_, ?_, ?_, ?_, ?_⟩
  · intro e he
    subst he
    cases is_consuming <;>
    simp [future_policy._get_error_impl, basic_future.clear, hvalid]
  · intro e he
    subst he
    simp [future_policy._get_error_impl, hvalid]
  · intro v hv
    subst hv
    simp [future_policy._get_error_impl, hvalid]
  · intro hready
    cases self <;>
    simp_all [future_policy._get_error_impl, basic_future.clear, basic_future.has_error,
      basic_future.is_ready]
  · intro hne
    cases self <;>
    simp_all [future_policy._get_error_impl, basic_future.has_error]
  · intro hready
    simp [future_policy._get_error, basic_future.wait, hready, future_policy.is_consuming]

theorem future_policy.C27_witness :
    env_ready._check_validity (.exception (some (.other 9))) = true ∧
      future_policy._get_error_impl env_ready true (.exception (some (.other 9))) =
        (.exception (some (.other 9)), .ok { value := 3, category := .monad_category }) :=
  ⟨rfl,
    (future_policy.C27_get_error_impl env_ready true (.exception (some (.other 9))) rfl).2.1
      (some (.other 9)) rfl⟩

/-- C28: `_get_exception_impl` on a valid future returns the null exception pointer when
the future holds neither an error nor an exception, a pointer to a `system_error` built from
the stored error code when it holds an error, and the stored exception pointer when it holds
an exception. With `is_consuming` the future is cleared in the latter two cases and left as
it was in the first; without `is_consuming` it is always left as it was. `_get_exception`
of the consuming policy on a ready future is this function with `is_consuming == true`, that
of the shared policy with `is_consuming == false`. -/
theorem future_policy.C28_get_exception_impl {R X : Type} (env : future_env R X)
    (is_consuming : Bool) (self : basic_future R X)
    (hvalid : env._check_validity self = true) :
    (self.has_error = false → self.has_exception = false →
      future_policy._get_exception_impl env is_consuming self = (self, .ok none)) ∧
    (∀ e, self = .error e →
      future_policy._get_exception_impl env is_consuming self =
        (if is_consuming then basic_future.empty else self, .ok (some (.system_error e)))) ∧
    (∀ e, self = .exception e →
      future_policy._get_exception_impl env is_consuming self =
        (if is_consuming then basic_future.empty else self, .ok e)) ∧
    (self.is_ready = true →
      ((future_policy._get_exception_impl env true self).1 = basic_future.empty ↔
        (self.has_error = true ∨ self.has_exception = true))) ∧
    (future_policy._get_exception_impl env false self).1 = self ∧
    (self.is_ready = true →
      future_policy._get_exception env self = future_policy._get_exception_impl env true self ∧
      shared_future_policy._get_exception env self =
        future_policy._get_exception_impl env false self) := by
  refine ⟨?_, ?_, ?_, ?_, ?_, ?_⟩
  · intro h1 h2
    simp [future_policy._get_exception_impl, hvalid, h1, h2]
  · intro e he
    subst he
    cases is_consuming <;>
    simp [future_policy._get_exception_impl, basic_future.clear, basic_future.has_error,
      hvalid]
  · intro e he
    subst he
    cases is_consuming <;>
    simp [future_policy._get_exception_impl, basic_future.clear, basic_future.has_error,
      basic_future.has_exception, hvalid]
  · intro hready
    cases self <;>
    simp_all [future_policy._get_exception_impl, basic_future.clear, basic_future.has_error,
      basic_future.has_exception, basic_future.is_ready]
  · cases self <;>
    simp [future_policy._get_exception_impl, basic_future.has_error,
      basic_future.has_exception, hvalid]
  · intro hready
    simp [future_policy._get_exception, shared_future_policy._get_exception,
      basic_future.wait, hready, future_policy.is_consuming,
      shared_future_policy.is_consuming]

theorem future_policy.C28_witness :
    env_ready._check_validity (.error { value := 5, category := .system_category }) = true ∧
      future_policy._get_exception_impl env_ready true
          (.error { value := 5, category := .system_category }) =
        (.empty, .ok (some (.system_error { value := 5, category := .system_category }))) :=
  ⟨rfl,
    (future_policy.C28_get_exception_impl env_ready true
      (.error { value := 5, category := .system_category }) rfl).2.1
      { value := 5, category := .system_category } rfl⟩

end boost_spinlock
